import Mathlib

/-!
# Verification of the regulatory-dashboard ingestion engine

This file gives a shallow embedding, in Lean 4, of the core data model and
operations of the `reg-dashboard` repository (TypeScript), and proves or
refutes the frozen claims about it.

Embedding conventions:
* JavaScript numbers are embedded as exact rationals (`ℚ`) with explicit
  markers for the non-finite values `NaN`, `Infinity`, `-Infinity`; integer
  SQLite columns are `Int`.
* Wall-clock values (`new Date().toISOString()`, `Date.now()`) and fresh
  UUIDs (`crypto.randomUUID()`) are passed as explicit parameters.
* SQLite tables are embedded as Lean lists of row structures; SQL statements
  executed by the code are translated into pure list transformations.
* Strings are Lean `String`s; the ASCII case mappings of SQLite `lower()` and
  (for the ASCII texts involved) JavaScript `toLowerCase()` are both embedded
  as `Char.toLower`.
-/

set_option autoImplicit false

namespace RegDashboard

/-! ## JavaScript whitespace, case and rounding primitives -/

/-- The JavaScript `\s` character class (WhiteSpace ∪ LineTerminator),
as used by `/\s+/`, `String.prototype.trim`, and friends. -/
def jsWhitespace (c : Char) : Bool :=
  let n := c.toNat
  n = 0x20 || n = 0x9 || n = 0xa || n = 0xd || n = 0xb || n = 0xc ||
  n = 0xa0 || n = 0x1680 || (0x2000 <= n && n <= 0x200a) ||
  n = 0x2028 || n = 0x2029 || n = 0x202f || n = 0x205f ||
  n = 0x3000 || n = 0xfeff

/-- Helper for `collapseWs`: `inRun` records whether the previous character
was whitespace (so the run already emitted its single space). -/
def collapseWsAux (inRun : Bool) : List Char → List Char
  | [] => []
  | c :: rest =>
    if jsWhitespace c then
      if inRun then collapseWsAux true rest
      else ' ' :: collapseWsAux true rest
    else c :: collapseWsAux false rest

/-- `value.replace(/\s+/g, " ")` on a character list: every maximal run of
JavaScript whitespace becomes a single space. -/
def collapseWs (l : List Char) : List Char := collapseWsAux false l

/-- `String.prototype.trim()`: strip leading and trailing JS whitespace. -/
def jsTrimL (l : List Char) : List Char :=
  ((l.dropWhile jsWhitespace).reverse.dropWhile jsWhitespace).reverse

/-- ASCII lowercase of a character list (SQLite `lower()`; also the effect of
`toLowerCase()` on the ASCII strings this code manipulates). -/
def lowerL (l : List Char) : List Char := l.map Char.toLower

/-- JavaScript `Math.round`: round half toward `+∞`. -/
def mathRound (q : ℚ) : Int := ⌊q + 1 / 2⌋

/-! ## The analyzer's score clamping (`src/analyzer.ts`)

`clampScore` receives a field of the JSON object parsed from the LLM
response.  We embed the JavaScript values that can reach it: JSON numbers
(always finite), `null`, booleans, strings, and `undefined` for absent
fields; plus the non-finite numbers for completeness.  (JSON objects and
arrays are outside the embedding.)  `Number(value)` string coercion is
embedded for decimal literals, the empty string and `Infinity`; other
strings coerce to `NaN` exactly as unparsable strings do in JavaScript. -/

/-- A JavaScript value, as can appear in a parsed LLM response field. -/
inductive JsVal where
  | num (q : ℚ)
  | nan
  | inf
  | negInf
  | nullV
  | undef
  | boolV (b : Bool)
  | strV (s : String)
  deriving DecidableEq

/-- Result of JavaScript `Number(·)` coercion. -/
inductive JsNumber where
  | finite (q : ℚ)
  | nan
  | inf
  | negInf
  deriving DecidableEq

/-- Is this coercion result a finite number (`Number.isFinite`)? -/
def JsNumber.isFinite : JsNumber → Bool
  | .finite _ => true
  | _ => false

/-- Value of a decimal digit character. -/
def digitVal (c : Char) : Nat := c.toNat - '0'.toNat

/-- Parse an unsigned run of decimal digits as a natural number
(accumulator-style). -/
def digitsToNat (acc : Nat) : List Char → Nat
  | [] => acc
  | c :: rest => digitsToNat (acc * 10 + digitVal c) rest

/-- JavaScript `Number(string)` for the string shapes arising here:
optional sign, decimal digits with an optional fractional part, or
`Infinity`; the empty (or all-whitespace) string is `0`; anything else is
`NaN`.  (Exponents and radix prefixes are outside the embedding; the exact
rational value stands in for the nearest IEEE double.) -/
def jsStringToNumber (s : String) : JsNumber :=
  let t := jsTrimL s.data
  if t = [] then .finite 0
  else
    let (sign, body) : ℚ × List Char :=
      match t with
      | '-' :: rest => (-1, rest)
      | '+' :: rest => (1, rest)
      | _ => (1, t)
    if body = "Infinity".data then
      (if sign = 1 then .inf else .negInf)
    else
      let intPart := body.takeWhile Char.isDigit
      let rest := body.dropWhile Char.isDigit
      match rest with
      | [] =>
        if intPart = [] then .nan
        else .finite (sign * digitsToNat 0 intPart)
      | '.' :: frac =>
        if frac.all Char.isDigit ∧ (intPart ≠ [] ∨ frac ≠ []) then
          .finite (sign * (digitsToNat 0 intPart +
            (digitsToNat 0 frac : ℚ) / (10 : ℚ) ^ frac.length))
        else .nan
      | _ => .nan

/-- `typeof value === "number" ? value : Number(value)`. -/
def toNumber : JsVal → JsNumber
  | .num q => .finite q
  | .nan => .nan
  | .inf => .inf
  | .negInf => .negInf
  | .nullV => .finite 0
  | .undef => .nan
  | .boolV b => .finite (if b then 1 else 0)
  | .strV s => jsStringToNumber s

/-- `clampScore` from `src/analyzer.ts`:
coerce to a number, return `3` when not finite, otherwise round then clamp
into `[1, 5]`. -/
def clampScore (value : JsVal) : Int :=
  let num := toNumber value
  match num with
  | .finite q => max 1 (min 5 (mathRound q))
  | _ => 3

/-! ## The `regulation_events` CHECK constraints (`initializeSchema`) -/

/-- The CHECK constraint `score BETWEEN 1 AND 5` that `initializeSchema`
places on each of the four score columns of `regulation_events`. -/
def scoreCheckOK (n : Int) : Prop := 1 ≤ n ∧ n ≤ 5

instance (n : Int) : Decidable (scoreCheckOK n) := by
  unfold scoreCheckOK; infer_instance

/-! ### Claim C9 -/

/-- C9, counterexample: the claim says every non-numeric score value becomes
`3`, but `clampScore(null)` is `1`: JavaScript coerces `null` to the finite
number `0`, which is then rounded and clamped to the lower bound `1`. -/
theorem C9_clampScore_null_not_three :
    clampScore JsVal.nullV = 1 ∧ clampScore JsVal.nullV ≠ 3 := by
  have h : clampScore JsVal.nullV = 1 := by
    simp only [clampScore, toNumber, mathRound]
    norm_num
  exact ⟨h, by rw [h]; decide⟩

/-- C9, amended: every value reaching `clampScore` yields an integer
satisfying the schema's `BETWEEN 1 AND 5` CHECK constraint; a value whose
JavaScript `Number(·)` coercion is not finite becomes `3`, and one whose
coercion is a finite `q` becomes `q` rounded half-up then clamped into
`[1, 5]` (so `null`, booleans and numeric strings follow their coerced
number, not the fallback). -/
theorem C9_clampScore_valid (v : JsVal) :
    scoreCheckOK (clampScore v) ∧
    clampScore v = (match toNumber v with
      | .finite q => max 1 (min 5 (mathRound q))
      | _ => 3) := by
  refine ⟨?_, by unfold clampScore; rfl⟩
  unfold clampScore scoreCheckOK
  cases toNumber v with
  | finite q =>
    exact ⟨le_max_left _ _, max_le (by norm_num) (min_le_left _ _)⟩
  | nan => exact ⟨by norm_num, by norm_num⟩
  | inf => exact ⟨by norm_num, by norm_num⟩
  | negInf => exact ⟨by norm_num, by norm_num⟩

/-! ## SHA-1 (`crypto.createHash("sha1").update(text).digest("hex")`)

Node hashes the UTF-8 bytes of the string and prints lowercase hex. -/

/-- UTF-8 encoding of a character list. -/
def utf8Bytes : List Char → List Nat
  | [] => []
  | c :: rest =>
    let n := c.toNat
    (if n < 0x80 then [n]
     else if n < 0x800 then [0xc0 + n / 0x40, 0x80 + n % 0x40]
     else if n < 0x10000 then
       [0xe0 + n / 0x1000, 0x80 + (n / 0x40) % 0x40, 0x80 + n % 0x40]
     else
       [0xf0 + n / 0x40000, 0x80 + (n / 0x1000) % 0x40,
        0x80 + (n / 0x40) % 0x40, 0x80 + n % 0x40]) ++ utf8Bytes rest

/-- Truncate to a 32-bit word. -/
def mask32 (n : Nat) : Nat := n % 4294967296

/-- 32-bit left rotation. -/
def rotl32 (k n : Nat) : Nat :=
  mask32 ((n <<< k) ||| (n >>> (32 - k)))

/-- Big-endian 8-byte encoding of a (64-bit) natural number. -/
def be64 (n : Nat) : List Nat :=
  [(n >>> 56) % 256, (n >>> 48) % 256, (n >>> 40) % 256, (n >>> 32) % 256,
   (n >>> 24) % 256, (n >>> 16) % 256, (n >>> 8) % 256, n % 256]

/-- SHA-1 message padding: append `0x80`, zero bytes up to 56 mod 64, then
the bit length as a big-endian 64-bit integer. -/
def sha1Pad (msg : List Nat) : List Nat :=
  let padZeros := (119 - msg.length % 64) % 64
  msg ++ [0x80] ++ List.replicate padZeros 0 ++ be64 (msg.length * 8)

/-- Split a list into chunks of `k` elements (`k > 0` on every use). -/
def chunksOf (k : Nat) : List Nat → List (List Nat)
  | [] => []
  | c :: rest =>
    if _h : k = 0 then [c :: rest]
    else (c :: rest).take k :: chunksOf k ((c :: rest).drop k)
termination_by l => l.length
decreasing_by
  simp only [List.length_drop, List.length_cons]
  omega

/-- Combine 4 bytes (big-endian) into 32-bit words. -/
def bytesToWords : List Nat → List Nat
  | b0 :: b1 :: b2 :: b3 :: rest =>
    (((b0 * 256 + b1) * 256 + b2) * 256 + b3) :: bytesToWords rest
  | _ => []

/-- The 80-word SHA-1 message schedule from a 16-word chunk. -/
def sha1Schedule (chunk : List Nat) : List Nat :=
  (List.range 80).foldl
    (fun acc i =>
      if i < 16 then acc ++ [chunk.getD i 0]
      else
        acc ++ [rotl32 1 ((acc.getD (i - 3) 0) ^^^ (acc.getD (i - 8) 0) ^^^
                          (acc.getD (i - 14) 0) ^^^ (acc.getD (i - 16) 0))])
    []

/-- One SHA-1 compression round. -/
def sha1Round (st : Nat × Nat × Nat × Nat × Nat) (i w : Nat) :
    Nat × Nat × Nat × Nat × Nat :=
  let (a, b, c, d, e) := st
  let fk : Nat × Nat :=
    if i < 20 then ((b &&& c) ||| ((4294967295 ^^^ b) &&& d), 0x5A827999)
    else if i < 40 then (b ^^^ c ^^^ d, 0x6ED9EBA1)
    else if i < 60 then ((b &&& c) ||| (b &&& d) ||| (c &&& d), 0x8F1BBCDC)
    else (b ^^^ c ^^^ d, 0xCA62C1D6)
  let temp := mask32 (rotl32 5 a + fk.1 + e + fk.2 + w)
  (temp, a, rotl32 30 b, c, d)

/-- Process one 64-byte chunk. -/
def sha1Chunk (h : Nat × Nat × Nat × Nat × Nat) (chunk : List Nat) :
    Nat × Nat × Nat × Nat × Nat :=
  let ws := sha1Schedule (bytesToWords chunk)
  let (a, b, c, d, e) :=
    ((List.range 80).zip ws).foldl (fun st p => sha1Round st p.1 p.2) h
  (mask32 (h.1 + a), mask32 (h.2.1 + b), mask32 (h.2.2.1 + c),
   mask32 (h.2.2.2.1 + d), mask32 (h.2.2.2.2 + e))

/-- Lowercase hex digit. -/
def hexDigit (n : Nat) : Char :=
  if n < 10 then Char.ofNat (48 + n) else Char.ofNat (87 + n)

/-- A 32-bit word as 8 lowercase hex characters. -/
def wordHex (w : Nat) : List Char :=
  [hexDigit ((w >>> 28) % 16), hexDigit ((w >>> 24) % 16),
   hexDigit ((w >>> 20) % 16), hexDigit ((w >>> 16) % 16),
   hexDigit ((w >>> 12) % 16), hexDigit ((w >>> 8) % 16),
   hexDigit ((w >>> 4) % 16), hexDigit (w % 16)]

/-- SHA-1 of a character list, as the lowercase hex string Node prints. -/
def sha1Hex (s : List Char) : String :=
  let (h0, h1, h2, h3, h4) :=
    (chunksOf 64 (sha1Pad (utf8Bytes s))).foldl sha1Chunk
      (0x67452301, 0xEFCDAB89, 0x98BADCFE, 0x10325476, 0xC3D2E1F0)
  ⟨wordHex h0 ++ wordHex h1 ++ wordHex h2 ++ wordHex h3 ++ wordHex h4⟩

/-! ## A computable stable sort (for `ORDER BY` and `Array.prototype.sort`) -/

section SortBy

variable {α : Type}

/-- Insert `a` before the first element `b` with `le a b`. -/
def insertOrd (le : α → α → Bool) (a : α) : List α → List α
  | [] => [a]
  | b :: l => if le a b then a :: b :: l else b :: insertOrd le a l

/-- Stable insertion sort: with a relation that holds on ties, elements that
compare equal keep their original relative order. -/
def sortBy (le : α → α → Bool) (l : List α) : List α :=
  l.foldr (insertOrd le) []

theorem insertOrd_perm (le : α → α → Bool) (a : α) (l : List α) :
    List.Perm (insertOrd le a l) (a :: l) := by
  induction l with
  | nil => simp [insertOrd]
  | cons b l ih =>
    simp only [insertOrd]
    split
    · exact List.Perm.refl _
    · exact (List.Perm.cons b ih).trans (List.Perm.swap a b l)

theorem sortBy_perm (le : α → α → Bool) (l : List α) : List.Perm (sortBy le l) l := by
  induction l with
  | nil => simp [sortBy]
  | cons a l ih =>
    exact (insertOrd_perm le a (sortBy le l)).trans (List.Perm.cons a ih)

theorem sortBy_nil (le : α → α → Bool) : sortBy le ([] : List α) = [] := rfl

theorem sortBy_singleton (le : α → α → Bool) (a : α) : sortBy le [a] = [a] := rfl

theorem sortBy_length (le : α → α → Bool) (l : List α) :
    (sortBy le l).length = l.length :=
  (sortBy_perm le l).length_eq

theorem sortBy_mem {le : α → α → Bool} {a : α} {l : List α} :
    a ∈ sortBy le l ↔ a ∈ l :=
  (sortBy_perm le l).mem_iff

end SortBy

/-! ## The dedup + upsert store (`src/db.ts`)

`regulation_events` and `event_history` are embedded as lists of rows in
insertion order; nullable TEXT columns are `Option String`.  `upsertEvent`
takes the wall-clock ISO string (`new Date().toISOString()`) and the fresh
UUID (`crypto.randomUUID()`) as explicit parameters.  The SQL statements it
runs are translated clause by clause; SQLite `lower()` is `lowerS`. -/

/-- SQLite `lower(·)` (ASCII case folding). -/
def lowerS (s : String) : String := ⟨lowerL s.data⟩

/-- The `allowedStages` list of `src/db.ts`, used in the stage CHECK. -/
def allowedStages : List String :=
  ["proposed", "introduced", "committee_review", "passed", "enacted",
   "effective", "amended", "withdrawn", "rejected"]

/-- A row of `regulation_events`. -/
structure EventRow where
  id : String
  title : String
  jurisdiction_country : String
  jurisdiction_state : Option String
  stage : String
  is_under16_applicable : Bool
  age_bracket : String
  impact_score : Int
  likelihood_score : Int
  confidence_score : Int
  chili_score : Int
  summary : Option String
  business_impact : Option String
  required_solutions : Option String
  affected_products : Option String
  competitor_responses : Option String
  raw_text : Option String
  source_url_link : Option String
  effective_date : Option String
  published_date : Option String
  source_id : Int
  created_at : String
  updated_at : String
  deriving DecidableEq, Repr

/-- A row of `event_history` (the AUTOINCREMENT id is the list position). -/
structure HistoryRow where
  event_id : String
  changed_at : String
  changed_by : String
  change_type : String
  field_name : Option String
  previous_value : Option String
  new_value : Option String
  deriving DecidableEq, Repr

/-- The store state the upsert path touches. -/
structure Db where
  events : List EventRow
  history : List HistoryRow
  deriving DecidableEq, Repr

/-- A freshly initialized store. -/
def Db.empty : Db := ⟨[], []⟩

/-- `UpsertEventInput` from `src/db.ts`. -/
structure UpsertEventInput where
  title : String
  jurisdictionCountry : String
  jurisdictionState : Option String
  stage : String
  isUnder16Applicable : Bool
  ageBracket : String
  impactScore : Int
  likelihoodScore : Int
  confidenceScore : Int
  chiliScore : Int
  summary : String
  businessImpact : Option String
  requiredSolutions : Option (List String)
  affectedProducts : Option (List String)
  competitorResponses : Option (List String)
  rawText : Option String
  sourceUrlLink : Option String
  effectiveDate : Option String
  publishedDate : Option String
  sourceId : Int
  deriving DecidableEq, Repr

/-- Inputs on which the INSERT/UPDATE statements satisfy the schema's CHECK
constraints (the pipeline produces exactly such inputs, claim C9): on any
other input the real store would raise instead of persisting. -/
def UpsertEventInput.Valid (input : UpsertEventInput) : Prop :=
  input.stage ∈ allowedStages ∧
  input.ageBracket ∈ ["13-15", "16-18", "both"] ∧
  scoreCheckOK input.impactScore ∧ scoreCheckOK input.likelihoodScore ∧
  scoreCheckOK input.confidenceScore ∧ scoreCheckOK input.chiliScore

instance (input : UpsertEventInput) : Decidable input.Valid := by
  unfold UpsertEventInput.Valid; infer_instance

/-- `normalizeForHash` from `src/db.ts`: collapse whitespace, trim,
lowercase. -/
def normalizeForHash (value : String) : String :=
  ⟨lowerL (jsTrimL (collapseWs value.data))⟩

/-- `hashText` from `src/db.ts`: SHA-1 (hex) of the normalized text,
with `null`/`undefined` replaced by the empty string. -/
def hashText (value : Option String) : String :=
  sha1Hex (normalizeForHash (value.getD "")).data

/-- `buildRegulationKey` from `src/db.ts`. -/
def buildRegulationKey (country : String) (state : Option String)
    (title : String) : String :=
  normalizeForHash country ++ "|" ++ normalizeForHash (state.getD "") ++ "|" ++
    normalizeForHash title

/-- `(input.sourceUrlLink ?? "").trim().toLowerCase()`. -/
def normalizedSourceUrl (url : Option String) : String :=
  ⟨lowerL (jsTrimL (url.getD "").data)⟩

/-- JSON.stringify escaping of one character inside a string literal. -/
def jsonEscapeChar (c : Char) : List Char :=
  if c = '"' then ['\\', '"']
  else if c = '\\' then ['\\', '\\']
  else if c = '\x08' then ['\\', 'b']
  else if c = '\x09' then ['\\', 't']
  else if c = '\x0a' then ['\\', 'n']
  else if c = '\x0c' then ['\\', 'f']
  else if c = '\x0d' then ['\\', 'r']
  else if c.toNat < 0x20 then
    ['\\', 'u', '0', '0', hexDigit (c.toNat / 16), hexDigit (c.toNat % 16)]
  else [c]

/-- `JSON.stringify` of a string. -/
def jsonStringifyStr (s : String) : String :=
  "\"" ++ ⟨s.data.flatMap jsonEscapeChar⟩ ++ "\""

/-- `JSON.stringify` of an array of strings. -/
def jsonStringifyArr (l : List String) : String :=
  "[" ++ String.intercalate "," (l.map jsonStringifyStr) ++ "]"

/-- The SQL `WHERE` clause of the candidate SELECT in `upsertEvent`:
same country and state (case-folded, NULL state as the empty string), and a
matching title or a matching non-NULL source URL. -/
def candidateWhere (input : UpsertEventInput) (e : EventRow) : Bool :=
  lowerS e.jurisdiction_country = lowerS input.jurisdictionCountry &&
  lowerS (e.jurisdiction_state.getD "") =
    lowerS (input.jurisdictionState.getD "") &&
  (lowerS e.title = lowerS input.title ||
   (e.source_url_link.isSome &&
    lowerS (e.source_url_link.getD "") = lowerS (input.sourceUrlLink.getD "")))

/-- The candidate rows, `ORDER BY updated_at DESC` (SQLite BINARY collation;
ties keep table order). -/
def eventCandidates (db : Db) (input : UpsertEventInput) : List EventRow :=
  sortBy (fun a b => decide (b.updated_at ≤ a.updated_at))
    (db.events.filter (candidateWhere input))

/-- The `candidates.find(...)` predicate of `upsertEvent`: a URL match with
the same regulation key, or (when the URLs do not disagree) a content-hash
match with the same regulation key. -/
def candidateMatches (input : UpsertEventInput) (c : EventRow) : Bool :=
  let regulationKey := buildRegulationKey input.jurisdictionCountry
    input.jurisdictionState input.title
  let nUrl := normalizedSourceUrl input.sourceUrlLink
  let contentHash := hashText input.rawText
  let candidateRegulationKey := buildRegulationKey c.jurisdiction_country
    (some (match c.jurisdiction_state with
           | some s => if s = "" then "" else s
           | none => "")) c.title
  let candidateUrl := normalizedSourceUrl c.source_url_link
  let candidateHash := hashText (some (c.raw_text.getD ""))
  let urlMatch := nUrl ≠ "" && candidateUrl ≠ "" && nUrl = candidateUrl
  let hashMatch := contentHash ≠ "" && candidateHash ≠ "" &&
    contentHash = candidateHash
  let regulationMatch := candidateRegulationKey = regulationKey
  let bothHaveDistinctUrls := nUrl ≠ "" && candidateUrl ≠ "" &&
    nUrl ≠ candidateUrl
  (urlMatch && regulationMatch) ||
    (!bothHaveDistinctUrls && hashMatch && regulationMatch)

/-- `candidates.find(...)`: the first matching candidate row.  (The SELECT
projects a subset of columns; the embedding returns the whole row, whose id
the UPDATE then targets.) -/
def findExisting (db : Db) (input : UpsertEventInput) : Option EventRow :=
  (eventCandidates db input).find? (candidateMatches input)

/-- The change test of `upsertEvent` over
`{stage, summary, business_impact, age_bracket, the four scores}`. -/
def eventChanged (existing : EventRow) (input : UpsertEventInput) : Bool :=
  existing.stage ≠ input.stage ||
  existing.summary ≠ some input.summary ||
  existing.business_impact ≠ input.businessImpact ||
  existing.age_bracket ≠ input.ageBracket ||
  existing.impact_score ≠ input.impactScore ||
  existing.likelihood_score ≠ input.likelihoodScore ||
  existing.confidence_score ≠ input.confidenceScore ||
  existing.chili_score ≠ input.chiliScore

/-- The UPDATE statement of `upsertEvent`: overwrite the mutable analysis
fields and `updated_at`; every other column is untouched. -/
def applyEventUpdate (e : EventRow) (input : UpsertEventInput)
    (now : String) : EventRow :=
  { e with
    stage := input.stage
    summary := some input.summary
    business_impact := input.businessImpact
    required_solutions := input.requiredSolutions.map jsonStringifyArr
    affected_products := input.affectedProducts.map jsonStringifyArr
    competitor_responses := input.competitorResponses.map jsonStringifyArr
    age_bracket := input.ageBracket
    impact_score := input.impactScore
    likelihood_score := input.likelihoodScore
    confidence_score := input.confidenceScore
    chili_score := input.chiliScore
    updated_at := now }

/-- The history row `upsertEvent` appends on the update path:
`status_changed` on the stage transition, else an `analysis` refresh. -/
def updateHistoryRow (existing : EventRow) (input : UpsertEventInput)
    (now : String) : HistoryRow :=
  if existing.stage ≠ input.stage then
    ⟨existing.id, now, "pipeline", "status_changed", some "stage",
     some existing.stage, some input.stage⟩
  else
    ⟨existing.id, now, "pipeline", "updated", some "analysis",
     none, some "Pipeline refresh"⟩

/-- The INSERT statement of `upsertEvent` (fresh UUID, both timestamps set
to `now`, list fields JSON-encoded). -/
def insertedRow (input : UpsertEventInput) (now freshId : String) : EventRow :=
  { id := freshId
    title := input.title
    jurisdiction_country := input.jurisdictionCountry
    jurisdiction_state := input.jurisdictionState
    stage := input.stage
    is_under16_applicable := input.isUnder16Applicable
    age_bracket := input.ageBracket
    impact_score := input.impactScore
    likelihood_score := input.likelihoodScore
    confidence_score := input.confidenceScore
    chili_score := input.chiliScore
    summary := some input.summary
    business_impact := input.businessImpact
    required_solutions := input.requiredSolutions.map jsonStringifyArr
    affected_products := input.affectedProducts.map jsonStringifyArr
    competitor_responses := input.competitorResponses.map jsonStringifyArr
    raw_text := input.rawText
    source_url_link := input.sourceUrlLink
    effective_date := input.effectiveDate
    published_date := input.publishedDate
    source_id := input.sourceId
    created_at := now
    updated_at := now }

/-- The history row appended on the insert path. -/
def createdHistoryRow (freshId now : String) : HistoryRow :=
  ⟨freshId, now, "pipeline", "created", some "event", none,
   some "Event created"⟩

/-- The result of `upsertEvent`. -/
inductive UpsertResult where
  | new
  | updated
  | duplicate
  deriving DecidableEq, Repr

/-- `upsertEvent` from `src/db.ts` (wall clock and fresh UUID passed in). -/
def upsertEvent (db : Db) (input : UpsertEventInput) (now freshId : String) :
    UpsertResult × Db :=
  match findExisting db input with
  | some existing =>
    if eventChanged existing input then
      (.updated,
       { events := db.events.map (fun e =>
           if e.id = existing.id then applyEventUpdate e input now else e)
         history := db.history ++ [updateHistoryRow existing input now] })
    else
      (.duplicate, db)
  | none =>
    (.new,
     { events := db.events ++ [insertedRow input now freshId]
       history := db.history ++ [createdHistoryRow freshId now] })

/-! ## Upsert lemmas -/

theorem sha1Hex_ne_empty (l : List Char) : sha1Hex l ≠ "" := by
  unfold sha1Hex
  generalize (chunksOf 64 (sha1Pad (utf8Bytes l))).foldl sha1Chunk
    (0x67452301, 0xEFCDAB89, 0x98BADCFE, 0x10325476, 0xC3D2E1F0) = t
  obtain ⟨h0, h1, h2, h3, h4⟩ := t
  simp [wordHex, String.ext_iff]

theorem hashText_ne_empty (o : Option String) : hashText o ≠ "" :=
  sha1Hex_ne_empty _

/-- The truthiness normalization `candidate.jurisdiction_state ? … : ""`
agrees with `?? ""`. -/
theorem jsStateNorm (o : Option String) :
    (match o with
     | some s => if s = "" then "" else s
     | none => "") = o.getD "" := by
  cases o with
  | none => rfl
  | some s =>
    simp only [Option.getD_some]
    split <;> simp_all

theorem candidateWhere_self (input : UpsertEventInput) (now fid : String) :
    candidateWhere input (insertedRow input now fid) = true := by
  simp [candidateWhere, insertedRow]

theorem candidateMatches_self (input : UpsertEventInput) (now fid : String) :
    candidateMatches input (insertedRow input now fid) = true := by
  unfold candidateMatches
  simp only [insertedRow, jsStateNorm]
  have hreg : buildRegulationKey input.jurisdictionCountry
      (some (input.jurisdictionState.getD "")) input.title =
      buildRegulationKey input.jurisdictionCountry input.jurisdictionState
        input.title := by
    unfold buildRegulationKey
    cases input.jurisdictionState <;> rfl
  have hhash : hashText (some ((input.rawText).getD "")) =
      hashText input.rawText := by
    unfold hashText
    cases input.rawText <;> rfl
  by_cases hurl : normalizedSourceUrl input.sourceUrlLink = "" <;>
    simp [hreg, hhash, hurl, hashText_ne_empty]

theorem findExisting_empty (input : UpsertEventInput) :
    findExisting Db.empty input = none := rfl

theorem findExisting_single_self (input : UpsertEventInput)
    (now fid : String) (hist : List HistoryRow) :
    findExisting ⟨[insertedRow input now fid], hist⟩ input =
      some (insertedRow input now fid) := by
  unfold findExisting eventCandidates
  simp [candidateWhere_self, sortBy_singleton, List.find?,
    candidateMatches_self]

theorem eventChanged_self (input : UpsertEventInput) (now fid : String) :
    eventChanged (insertedRow input now fid) input = false := by
  simp [eventChanged, insertedRow]

/-! ### Claim C2 -/

/-- C2: starting from a fresh store, upserting the same input twice returns
`new` then `duplicate`; after both calls exactly the one inserted
`regulation_events` row exists, and exactly one `event_history` row for it,
whose `change_type` is `created`. -/
theorem C2_upsert_idempotent (input : UpsertEventInput)
    (now1 fid1 now2 fid2 : String) (hv : input.Valid) :
    (upsertEvent Db.empty input now1 fid1).1 = .new ∧
    (upsertEvent (upsertEvent Db.empty input now1 fid1).2 input
        now2 fid2).1 = .duplicate ∧
    (upsertEvent (upsertEvent Db.empty input now1 fid1).2 input
        now2 fid2).2 = (upsertEvent Db.empty input now1 fid1).2 ∧
    (upsertEvent (upsertEvent Db.empty input now1 fid1).2 input
        now2 fid2).2.events = [insertedRow input now1 fid1] ∧
    ((upsertEvent (upsertEvent Db.empty input now1 fid1).2 input
        now2 fid2).2.history.filter
          (fun h => h.event_id = fid1)).map (fun h => h.change_type) =
      ["created"] := by
  have h1 : upsertEvent Db.empty input now1 fid1 =
      (.new, ⟨[insertedRow input now1 fid1],
              [createdHistoryRow fid1 now1]⟩) := by
    unfold upsertEvent
    rw [findExisting_empty]
    rfl
  have h2 : upsertEvent (⟨[insertedRow input now1 fid1],
      [createdHistoryRow fid1 now1]⟩ : Db) input now2 fid2 =
      (.duplicate, ⟨[insertedRow input now1 fid1],
                    [createdHistoryRow fid1 now1]⟩) := by
    unfold upsertEvent
    rw [findExisting_single_self]
    simp [eventChanged_self]
  simp only [h1, h2]
  simp [createdHistoryRow]

/-- The concrete upsert input of `tests/db-dedup.test.ts` (`createTestInput`). -/
def sampleInput : UpsertEventInput :=
  { title := "Test Regulation"
    jurisdictionCountry := "United States"
    jurisdictionState := none
    stage := "proposed"
    isUnder16Applicable := true
    ageBracket := "both"
    impactScore := 3
    likelihoodScore := 3
    confidenceScore := 3
    chiliScore := 3
    summary := "A test regulation for testing dedup"
    businessImpact := some "Medium impact"
    requiredSolutions := some ["Solution 1"]
    affectedProducts := some ["Instagram"]
    competitorResponses := none
    rawText := some "Raw crawled text here"
    sourceUrlLink := some "https://example.com/test-page"
    effectiveDate := none
    publishedDate := some "2026-01-15"
    sourceId := 1 }

/-- C2, witness: the concrete input of `tests/db-dedup.test.ts` satisfies
the validity hypothesis, and the theorem applies to it. -/
theorem C2_upsert_idempotent_witness :
    sampleInput.Valid ∧
      (upsertEvent Db.empty sampleInput "2026-01-01T00:00:00.000Z"
          "id-1").1 = .new ∧
      (upsertEvent (upsertEvent Db.empty sampleInput
          "2026-01-01T00:00:00.000Z" "id-1").2 sampleInput
          "2026-01-02T00:00:00.000Z" "id-2").1 = .duplicate :=
  ⟨by decide,
   (C2_upsert_idempotent sampleInput "2026-01-01T00:00:00.000Z" "id-1"
      "2026-01-02T00:00:00.000Z" "id-2" (by decide)).1,
   (C2_upsert_idempotent sampleInput "2026-01-01T00:00:00.000Z" "id-1"
      "2026-01-02T00:00:00.000Z" "id-2" (by decide)).2.1⟩

/-! ### Claim C1 -/

/-- With PRIMARY KEY uniqueness on `id`, a member's id occurs once. -/
theorem countP_id_eq_one {l : List EventRow} {x : EventRow}
    (hids : (l.map (fun e => e.id)).Nodup) (hx : x ∈ l) :
    l.countP (fun e => decide (e.id = x.id)) = 1 := by
  induction l with
  | nil => cases hx
  | cons a l ih =>
    simp only [List.map_cons, List.nodup_cons] at hids
    obtain ⟨ha, hl⟩ := hids
    rcases List.mem_cons.mp hx with rfl | hx
    · rw [List.countP_cons_of_pos _ _ (by simp)]
      have hz : l.countP (fun e => decide (e.id = x.id)) = 0 := by
        rw [List.countP_eq_zero]
        intro e he hp
        exact ha ((decide_eq_true_eq.mp hp) ▸ List.mem_map_of_mem _ he)
      rw [hz]
    · have hne : ¬(a.id = x.id) := fun heq =>
        ha (heq ▸ List.mem_map_of_mem (fun e => e.id) hx)
      rw [List.countP_cons_of_neg _ _ (by simpa using hne)]
      exact ih hl hx

theorem findExisting_mem {db : Db} {input : UpsertEventInput} {ex : EventRow}
    (h : findExisting db input = some ex) : ex ∈ db.events := by
  unfold findExisting eventCandidates at h
  have hmem := List.mem_of_find?_eq_some h
  rw [sortBy_mem] at hmem
  exact List.mem_of_mem_filter hmem

/-- C1: a call of `upsertEvent` that finds a matching candidate returns
`duplicate` and writes nothing when none of the compared fields changed;
otherwise it returns `updated`, rewrites exactly the matched row (setting
`updated_at := now`), leaves every other row alone, and appends exactly one
history row — `status_changed` on `stage` with the old and new stage when
the stage moved, else `updated` on `analysis` with value
`Pipeline refresh`. -/
theorem C1_upsert_match_behavior (db : Db) (input : UpsertEventInput)
    (now fid : String) (ex : EventRow) (hv : input.Valid)
    (hids : (db.events.map (fun e => e.id)).Nodup)
    (hex : findExisting db input = some ex) :
    (eventChanged ex input = false →
      (upsertEvent db input now fid).1 = .duplicate ∧
      (upsertEvent db input now fid).2 = db) ∧
    (eventChanged ex input = true →
      (upsertEvent db input now fid).1 = .updated ∧
      (upsertEvent db input now fid).2.events =
        db.events.map (fun e =>
          if e.id = ex.id then applyEventUpdate e input now else e) ∧
      db.events.countP (fun e => decide (e.id = ex.id)) = 1 ∧
      (applyEventUpdate ex input now).updated_at = now ∧
      (upsertEvent db input now fid).2.history =
        db.history ++ [updateHistoryRow ex input now] ∧
      (ex.stage ≠ input.stage →
        updateHistoryRow ex input now =
          ⟨ex.id, now, "pipeline", "status_changed", some "stage",
           some ex.stage, some input.stage⟩) ∧
      (ex.stage = input.stage →
        updateHistoryRow ex input now =
          ⟨ex.id, now, "pipeline", "updated", some "analysis", none,
           some "Pipeline refresh"⟩)) := by
  have hmem : ex ∈ db.events := findExisting_mem hex
  have hcount : db.events.countP (fun e => decide (e.id = ex.id)) = 1 :=
    countP_id_eq_one hids hmem
  have heq : upsertEvent db input now fid =
      if eventChanged ex input then
        (.updated,
         { events := db.events.map (fun e =>
             if e.id = ex.id then applyEventUpdate e input now else e)
           history := db.history ++ [updateHistoryRow ex input now] })
      else (.duplicate, db) := by
    unfold upsertEvent
    rw [hex]
  constructor
  · intro hch
    rw [heq, hch]
    exact ⟨rfl, rfl⟩
  · intro hch
    rw [heq, hch]
    refine ⟨rfl, rfl, hcount, rfl, rfl, ?_, ?_⟩
    · intro hst
      unfold updateHistoryRow
      rw [if_pos hst]
    · intro hst
      unfold updateHistoryRow
      rw [if_neg (by simp [hst])]

/-- The changed re-analysis of `sampleInput` used by the tests: new stage
and summary. -/
def sampleInputChanged : UpsertEventInput :=
  { sampleInput with stage := "enacted", chiliScore := 5 }

/-- The store after the first upsert of `sampleInput`. -/
def sampleDb1 : Db :=
  ⟨[insertedRow sampleInput "2026-01-01T00:00:00.000Z" "id-1"],
   [createdHistoryRow "id-1" "2026-01-01T00:00:00.000Z"]⟩

/-- C1, witness: on the concrete test store the changed re-analysis is
matched, and the theorem's update branch applies. -/
theorem C1_upsert_match_behavior_witness :
    eventChanged (insertedRow sampleInput "2026-01-01T00:00:00.000Z" "id-1")
        sampleInputChanged = true ∧
      (upsertEvent sampleDb1 sampleInputChanged "2026-01-02T00:00:00.000Z"
          "id-2").1 = .updated := by
  have hex : findExisting sampleDb1 sampleInputChanged =
      some (insertedRow sampleInput "2026-01-01T00:00:00.000Z" "id-1") := by
    decide
  have h := (C1_upsert_match_behavior sampleDb1 sampleInputChanged
    "2026-01-02T00:00:00.000Z" "id-2" _ (by decide) (by decide) hex).2
    (by decide)
  exact ⟨by decide, h.1⟩

/-! ### Claim C10 -/

/-- C10: whenever `upsertEvent` returns `updated`, the events table is
rewritten row for row, and every row keeps its `title`, jurisdiction, URL,
raw text, dates, `source_id`, `id` and `created_at`; only the analysis
fields and `updated_at` can move. -/
theorem C10_update_frame (db : Db) (input : UpsertEventInput)
    (now fid : String)
    (h : (upsertEvent db input now fid).1 = .updated) :
    List.Forall₂ (fun (a b : EventRow) =>
        b.title = a.title ∧
        b.jurisdiction_country = a.jurisdiction_country ∧
        b.jurisdiction_state = a.jurisdiction_state ∧
        b.source_url_link = a.source_url_link ∧
        b.raw_text = a.raw_text ∧
        b.effective_date = a.effective_date ∧
        b.published_date = a.published_date ∧
        b.source_id = a.source_id ∧
        b.id = a.id ∧
        b.created_at = a.created_at)
      db.events (upsertEvent db input now fid).2.events := by
  cases hfe : findExisting db input with
  | none =>
    have hnew : (upsertEvent db input now fid).1 = .new := by
      unfold upsertEvent
      rw [hfe]
    rw [hnew] at h
    exact absurd h (by decide)
  | some ex =>
    have heq : upsertEvent db input now fid =
        if eventChanged ex input then
          (.updated,
           { events := db.events.map (fun e =>
               if e.id = ex.id then applyEventUpdate e input now else e)
             history := db.history ++ [updateHistoryRow ex input now] })
        else (.duplicate, db) := by
      unfold upsertEvent
      rw [hfe]
    cases hch : eventChanged ex input with
    | false =>
      rw [heq, hch] at h
      simp at h
    | true =>
      rw [heq, hch]
      refine List.forall₂_map_right_iff.mpr (List.forall₂_same.mpr ?_)
      intro a _
      by_cases hid : a.id = ex.id <;>
        simp [hid, applyEventUpdate]

/-- C10, witness: the frame condition holds on the concrete test update. -/
theorem C10_update_frame_witness :
    ((upsertEvent sampleDb1 sampleInputChanged "2026-01-02T00:00:00.000Z"
        "id-2").1 = .updated) ∧
    List.Forall₂ (fun (a b : EventRow) =>
        b.title = a.title ∧
        b.jurisdiction_country = a.jurisdiction_country ∧
        b.jurisdiction_state = a.jurisdiction_state ∧
        b.source_url_link = a.source_url_link ∧
        b.raw_text = a.raw_text ∧
        b.effective_date = a.effective_date ∧
        b.published_date = a.published_date ∧
        b.source_id = a.source_id ∧
        b.id = a.id ∧
        b.created_at = a.created_at)
      sampleDb1.events
      (upsertEvent sampleDb1 sampleInputChanged "2026-01-02T00:00:00.000Z"
        "id-2").2.events := by
  have hres : (upsertEvent sampleDb1 sampleInputChanged
      "2026-01-02T00:00:00.000Z" "id-2").1 = .updated := by rfl
  exact ⟨hres, C10_update_frame sampleDb1 sampleInputChanged
    "2026-01-02T00:00:00.000Z" "id-2" hres⟩

/-! ### Claim C3 -/

/-- `sampleInput` with the same URL written in a different letter case:
a distinct, non-empty URL string that normalizes to the same URL. -/
def sampleInputCasedUrl : UpsertEventInput :=
  { sampleInput with sourceUrlLink := some "HTTPS://example.com/test-page" }

/-- C3, counterexample: two inputs with identical country and title and
distinct non-empty source URLs (differing only in case) are folded into one
row — the second upsert returns `duplicate`, not `new` — because the store
compares URLs after `trim().toLowerCase()`. -/
theorem C3_counterexample :
    sampleInputCasedUrl.jurisdictionCountry =
        sampleInput.jurisdictionCountry ∧
    sampleInputCasedUrl.title = sampleInput.title ∧
    sampleInputCasedUrl.sourceUrlLink ≠ sampleInput.sourceUrlLink ∧
    sampleInput.sourceUrlLink ≠ some "" ∧
    sampleInput.sourceUrlLink ≠ none ∧
    sampleInputCasedUrl.sourceUrlLink ≠ some "" ∧
    sampleInputCasedUrl.sourceUrlLink ≠ none ∧
    (upsertEvent Db.empty sampleInput "2026-01-01T00:00:00.000Z"
        "id-1").1 = .new ∧
    (upsertEvent (upsertEvent Db.empty sampleInput
        "2026-01-01T00:00:00.000Z" "id-1").2 sampleInputCasedUrl
        "2026-01-02T00:00:00.000Z" "id-2").1 = .duplicate ∧
    (upsertEvent (upsertEvent Db.empty sampleInput
        "2026-01-01T00:00:00.000Z" "id-1").2 sampleInputCasedUrl
        "2026-01-02T00:00:00.000Z" "id-2").2.events.length = 1 := by
  refine ⟨rfl, rfl, by decide, by decide, by decide, by decide, by decide,
    ?_, ?_, ?_⟩ <;> decide

/-- C3, amended: two inputs with identical country and title whose
source URLs are non-empty and distinct *after* `trim().toLowerCase()`
normalization produce two distinct rows from a fresh store: the second
call returns `new` (never `updated` or `duplicate`), regardless of their
raw-text content hashes. -/
theorem C3_url_discrimination (i1 i2 : UpsertEventInput)
    (now1 fid1 now2 fid2 : String) (hv1 : i1.Valid) (hv2 : i2.Valid)
    (hc : i2.jurisdictionCountry = i1.jurisdictionCountry)
    (ht : i2.title = i1.title)
    (hu1 : normalizedSourceUrl i1.sourceUrlLink ≠ "")
    (hu2 : normalizedSourceUrl i2.sourceUrlLink ≠ "")
    (hne : normalizedSourceUrl i2.sourceUrlLink ≠
      normalizedSourceUrl i1.sourceUrlLink) :
    (upsertEvent Db.empty i1 now1 fid1).1 = .new ∧
    (upsertEvent (upsertEvent Db.empty i1 now1 fid1).2 i2
        now2 fid2).1 = .new ∧
    (upsertEvent (upsertEvent Db.empty i1 now1 fid1).2 i2
        now2 fid2).2.events.length = 2 := by
  have h1 : upsertEvent Db.empty i1 now1 fid1 =
      (.new, ⟨[insertedRow i1 now1 fid1],
              [createdHistoryRow fid1 now1]⟩) := by
    unfold upsertEvent
    rw [findExisting_empty]
    rfl
  have hcm : candidateMatches i2 (insertedRow i1 now1 fid1) = false := by
    unfold candidateMatches
    simp only [insertedRow]
    have hurl : normalizedSourceUrl i1.sourceUrlLink ≠
        normalizedSourceUrl i2.sourceUrlLink := fun h => hne h.symm
    simp [hu1, hu2, hne, hurl]
  have hfe : findExisting (⟨[insertedRow i1 now1 fid1],
      [createdHistoryRow fid1 now1]⟩ : Db) i2 = none := by
    unfold findExisting eventCandidates
    cases hw : candidateWhere i2 (insertedRow i1 now1 fid1) <;>
      simp [List.filter_cons, hw, sortBy_singleton, sortBy_nil,
        List.find?, hcm]
  have h2 : upsertEvent (⟨[insertedRow i1 now1 fid1],
      [createdHistoryRow fid1 now1]⟩ : Db) i2 now2 fid2 =
      (.new, ⟨[insertedRow i1 now1 fid1, insertedRow i2 now2 fid2],
              [createdHistoryRow fid1 now1,
               createdHistoryRow fid2 now2]⟩) := by
    unfold upsertEvent
    rw [hfe]
    rfl
  rw [h1]
  simp only [h2]
  simp

/-- C3, witness: the amended theorem applies to the two concrete test
inputs with genuinely different URLs. -/
theorem C3_url_discrimination_witness :
    (upsertEvent Db.empty
        { sampleInput with
            sourceUrlLink := some "https://example.com/page1" }
        "2026-01-01T00:00:00.000Z" "id-1").1 = .new ∧
    (upsertEvent (upsertEvent Db.empty
        { sampleInput with
            sourceUrlLink := some "https://example.com/page1" }
        "2026-01-01T00:00:00.000Z" "id-1").2
        { sampleInput with
            sourceUrlLink := some "https://example.com/page2" }
        "2026-01-02T00:00:00.000Z" "id-2").1 = .new := by
  have h := C3_url_discrimination
    { sampleInput with sourceUrlLink := some "https://example.com/page1" }
    { sampleInput with sourceUrlLink := some "https://example.com/page2" }
    "2026-01-01T00:00:00.000Z" "id-1" "2026-01-02T00:00:00.000Z" "id-2"
    (by decide) (by decide) rfl rfl (by decide) (by decide) (by decide)
  exact ⟨h.1, h.2.1⟩

/-! ## Sortedness of `sortBy` (for `ORDER BY … DESC LIMIT 1`) -/

section SortBySorted

variable {α : Type} (le : α → α → Bool)

theorem insertOrd_pairwise
    (htot : ∀ a b, le a b = true ∨ le b a = true)
    (htrans : ∀ a b c, le a b = true → le b c = true → le a c = true)
    (a : α) (l : List α)
    (hl : l.Pairwise (fun x y => le x y = true)) :
    (insertOrd le a l).Pairwise (fun x y => le x y = true) := by
  induction l with
  | nil => simp [insertOrd]
  | cons b l ih =>
    rcases List.pairwise_cons.mp hl with ⟨hb, hl'⟩
    unfold insertOrd
    by_cases hab : le a b = true
    · rw [if_pos hab]
      refine List.pairwise_cons.mpr ⟨?_, hl⟩
      intro x hx
      rcases List.mem_cons.mp hx with rfl | hx
      · exact hab
      · exact htrans a b x hab (hb x hx)
    · rw [if_neg hab]
      have hba : le b a = true := (htot a b).resolve_left hab
      refine List.pairwise_cons.mpr ⟨?_, ih hl'⟩
      intro x hx
      have hx' : x ∈ a :: l := (insertOrd_perm le a l).mem_iff.mp hx
      rcases List.mem_cons.mp hx' with rfl | hx'
      · exact hba
      · exact hb x hx'

theorem sortBy_pairwise
    (htot : ∀ a b, le a b = true ∨ le b a = true)
    (htrans : ∀ a b c, le a b = true → le b c = true → le a c = true)
    (l : List α) :
    (sortBy le l).Pairwise (fun x y => le x y = true) := by
  induction l with
  | nil => simp [sortBy]
  | cons a l ih => exact insertOrd_pairwise le htot htrans a _ ih

/-- The head of the sorted list is a member and a `le`-least element. -/
theorem sortBy_head?_forall
    (htot : ∀ a b, le a b = true ∨ le b a = true)
    (htrans : ∀ a b c, le a b = true → le b c = true → le a c = true)
    {l : List α} {r : α} (h : (sortBy le l).head? = some r) :
    r ∈ l ∧ ∀ x ∈ l, le r x = true := by
  have hp := sortBy_pairwise le htot htrans l
  have hperm := sortBy_perm le l
  cases hs : sortBy le l with
  | nil => rw [hs] at h; cases h
  | cons y rest =>
    rw [hs] at h hp hperm
    have hyr : y = r := by simpa using h
    subst hyr
    rcases List.pairwise_cons.mp hp with ⟨hy, _⟩
    refine ⟨hperm.mem_iff.mp (List.mem_cons_self y rest), ?_⟩
    intro x hx
    have hx2 : x ∈ y :: rest := hperm.mem_iff.mpr hx
    rcases List.mem_cons.mp hx2 with rfl | hx'
    · exact (htot x x).elim id id
    · exact hy x hx'

end SortBySorted

/-! ## The crawl-run coordinator (`startCrawlRun` and `POST /api/crawl`)

`crawl_runs` is embedded with its AUTOINCREMENT sequence made explicit.
The trigger handler of `src/app.ts` answers 500 without the analyzer key,
409 (with the current run id) when the latest run is `running`, and
otherwise answers `started` and synchronously reaches `startCrawlRun`
inside `runPipeline` (the insert happens before the pipeline's first
`await`, so no other trigger can interleave). -/

/-- A row of `crawl_runs`. -/
structure CrawlRunRow where
  id : Nat
  started_at : String
  completed_at : Option String
  status : String
  items_found : Int
  items_new : Int
  items_updated : Int
  error_message : Option String
  deriving DecidableEq, Repr

/-- The `crawl_runs` table plus its AUTOINCREMENT sequence. -/
structure CrawlDb where
  seq : Nat
  runs : List CrawlRunRow
  deriving DecidableEq, Repr

/-- A store with no crawl runs. -/
def CrawlDb.empty : CrawlDb := ⟨0, []⟩

/-- `getLatestCrawlRun`: `SELECT * FROM crawl_runs ORDER BY id DESC
LIMIT 1`. -/
def getLatestCrawlRun (db : CrawlDb) : Option CrawlRunRow :=
  (sortBy (fun a b => decide (b.id ≤ a.id)) db.runs).head?

/-- `startCrawlRun`: insert a fresh `running` row, return its id. -/
def startCrawlRun (db : CrawlDb) (now : String) : Nat × CrawlDb :=
  let id := db.seq + 1
  (id, ⟨id, db.runs ++ [⟨id, now, none, "running", 0, 0, 0, none⟩]⟩)

/-- `completeCrawlRun`. -/
def completeCrawlRun (db : CrawlDb) (runId : Nat)
    (found new upd : Int) (now : String) : CrawlDb :=
  { db with runs := db.runs.map (fun r =>
      if r.id = runId then
        { r with completed_at := some now, status := "completed",
                 items_found := found, items_new := new,
                 items_updated := upd }
      else r) }

/-- `failCrawlRun`. -/
def failCrawlRun (db : CrawlDb) (runId : Nat) (error now : String) :
    CrawlDb :=
  { db with runs := db.runs.map (fun r =>
      if r.id = runId then
        { r with completed_at := some now, status := "failed",
                 error_message := some error }
      else r) }

/-- The trigger's response (HTTP 500 / 409 / 200 respectively). -/
inductive TriggerResponse where
  | missingKey
  | conflict (runId : Nat) (startedAt : String)
  | started (runId : Nat)
  deriving DecidableEq, Repr

/-- The synchronous part of `POST /api/crawl`: the single-flight check and,
when it passes, the `startCrawlRun` insert that `runPipeline` performs
before its first suspension point. -/
def apiCrawlTrigger (apiKey : Option String) (db : CrawlDb) (now : String) :
    TriggerResponse × CrawlDb :=
  match apiKey with
  | none => (.missingKey, db)
  | some _ =>
    match getLatestCrawlRun db with
    | some lastRun =>
      if lastRun.status = "running" then
        (.conflict lastRun.id lastRun.started_at, db)
      else
        let s := startCrawlRun db now
        (.started s.1, s.2)
    | none =>
      let s := startCrawlRun db now
      (.started s.1, s.2)

/-- One step of the coordinator: a trigger, or a pipeline marking its run
completed or failed. -/
inductive CrawlStep : CrawlDb → CrawlDb → Prop where
  | trigger (key : Option String) (now : String) (db : CrawlDb) :
      CrawlStep db (apiCrawlTrigger key db now).2
  | complete (runId : Nat) (found new upd : Int) (now : String)
      (db : CrawlDb) :
      CrawlStep db (completeCrawlRun db runId found new upd now)
  | fail (runId : Nat) (error now : String) (db : CrawlDb) :
      CrawlStep db (failCrawlRun db runId error now)

/-- States reachable from the initialized store. -/
inductive CrawlReachable : CrawlDb → Prop where
  | init : CrawlReachable CrawlDb.empty
  | step {a b : CrawlDb} : CrawlReachable a → CrawlStep a b →
      CrawlReachable b

/-- The coordinator's inductive invariant: ids are strictly increasing and
bounded by the sequence, and a `running` row has the largest id. -/
def CrawlDbOk (db : CrawlDb) : Prop :=
  (db.runs.map (fun r => r.id)).Pairwise (· < ·) ∧
  (∀ r ∈ db.runs, r.id ≤ db.seq) ∧
  (∀ r ∈ db.runs, r.status = "running" → ∀ x ∈ db.runs, x.id ≤ r.id)

theorem crawlLe_total (a b : CrawlRunRow) :
    decide (b.id ≤ a.id) = true ∨ decide (a.id ≤ b.id) = true := by
  simp [Nat.le_total b.id a.id]

theorem crawlLe_trans (a b c : CrawlRunRow)
    (h1 : decide (b.id ≤ a.id) = true)
    (h2 : decide (c.id ≤ b.id) = true) :
    decide (c.id ≤ a.id) = true := by
  simp only [decide_eq_true_eq] at *
  omega

/-- The latest run is a member of maximal id. -/
theorem getLatestCrawlRun_max {db : CrawlDb} {r : CrawlRunRow}
    (h : getLatestCrawlRun db = some r) :
    r ∈ db.runs ∧ ∀ x ∈ db.runs, x.id ≤ r.id := by
  have hall := sortBy_head?_forall
    (fun (a b : CrawlRunRow) => decide (b.id ≤ a.id))
    crawlLe_total crawlLe_trans h
  refine ⟨hall.1, fun x hx => ?_⟩
  simpa using hall.2 x hx

theorem getLatestCrawlRun_none {db : CrawlDb}
    (h : getLatestCrawlRun db = none) : db.runs = [] := by
  unfold getLatestCrawlRun at h
  rcases hs : sortBy (fun a b => decide (b.id ≤ a.id)) db.runs with _ | ⟨y, l⟩
  · have hperm := sortBy_perm (fun a b => decide (b.id ≤ a.id)) db.runs
    rw [hs] at hperm
    exact List.perm_nil.mp hperm.symm
  · rw [hs] at h
    cases h

/-- With strictly increasing ids, the id determines the row. -/
theorem id_injective_of_pairwise {l : List CrawlRunRow}
    (h : (l.map (fun r => r.id)).Pairwise (· < ·)) :
    ∀ a ∈ l, ∀ b ∈ l, a.id = b.id → a = b := by
  induction l with
  | nil => intro a ha; cases ha
  | cons c l ih =>
    simp only [List.map_cons, List.pairwise_cons] at h
    obtain ⟨hc, hl⟩ := h
    intro a ha b hb heq
    rcases List.mem_cons.mp ha with ha1 | ha2 <;>
      rcases List.mem_cons.mp hb with hb1 | hb2
    · rw [ha1, hb1]
    · subst ha1
      have := hc b.id (List.mem_map_of_mem _ hb2)
      omega
    · subst hb1
      have := hc a.id (List.mem_map_of_mem _ ha2)
      omega
    · exact ih hl a ha2 b hb2 heq

/-- A status-only rewrite of the table preserves the invariant. -/
theorem CrawlDbOk_map (db : CrawlDb) (g : CrawlRunRow → CrawlRunRow)
    (hid : ∀ r, (g r).id = r.id)
    (hst : ∀ r, (g r).status = "running" → r.status = "running")
    (h : CrawlDbOk db) : CrawlDbOk ⟨db.seq, db.runs.map g⟩ := by
  obtain ⟨h1, h2, h3⟩ := h
  refine ⟨?_, ?_, ?_⟩
  · have hmap : (db.runs.map g).map (fun r => r.id) =
        db.runs.map (fun r => r.id) := by
      rw [List.map_map]
      exact List.map_congr_left (fun r _ => hid r)
    rw [hmap]
    exact h1
  · intro r hr
    rcases List.mem_map.mp hr with ⟨s, hs, rfl⟩
    rw [hid]
    exact h2 s hs
  · intro r hr hrun x hx
    rcases List.mem_map.mp hr with ⟨s, hs, rfl⟩
    rcases List.mem_map.mp hx with ⟨t, ht, rfl⟩
    rw [hid, hid]
    exact h3 s hs (hst s hrun) t ht

/-- Inserting a fresh `running` row into a store with no running row
preserves the invariant. -/
theorem CrawlDbOk_start (db : CrawlDb) (now : String) (h : CrawlDbOk db)
    (hnorun : ∀ r ∈ db.runs, r.status ≠ "running") :
    CrawlDbOk (startCrawlRun db now).2 := by
  obtain ⟨h1, h2, h3⟩ := h
  refine ⟨?_, ?_, ?_⟩
  · simp only [startCrawlRun, List.map_append, List.map_cons, List.map_nil]
    rw [List.pairwise_append]
    refine ⟨h1, List.pairwise_singleton _ _, ?_⟩
    intro a ha b hb
    rcases List.mem_map.mp ha with ⟨r, hr, rfl⟩
    simp only [List.mem_singleton] at hb
    subst hb
    exact Nat.lt_succ_of_le (h2 r hr)
  · intro r hr
    simp only [startCrawlRun, List.mem_append, List.mem_singleton] at hr
    rcases hr with hr | rfl
    · exact Nat.le_succ_of_le (h2 r hr)
    · exact le_refl _
  · intro r hr hrun x hx
    simp only [startCrawlRun, List.mem_append, List.mem_singleton] at hr hx
    rcases hr with hr | rfl
    · exact absurd hrun (hnorun r hr)
    · rcases hx with hx | rfl
      · exact Nat.le_succ_of_le (h2 x hx)
      · exact le_refl _

/-- When the latest run is not running, no run is running. -/
theorem no_running_of_latest_not {db : CrawlDb} {lastRun : CrawlRunRow}
    (h : CrawlDbOk db) (hl : getLatestCrawlRun db = some lastRun)
    (hn : ¬lastRun.status = "running") :
    ∀ r ∈ db.runs, r.status ≠ "running" := by
  intro r hr hrun
  obtain ⟨h1, _h2, h3⟩ := h
  obtain ⟨hmem, hmax⟩ := getLatestCrawlRun_max hl
  have hid : lastRun.id = r.id :=
    le_antisymm (h3 r hr hrun lastRun hmem) (hmax r hr)
  have : lastRun = r := id_injective_of_pairwise h1 lastRun hmem r hr hid
  exact hn (this ▸ hrun)

/-- One coordinator step preserves the invariant. -/
theorem CrawlDbOk_step {a b : CrawlDb} (hs : CrawlStep a b)
    (ih : CrawlDbOk a) : CrawlDbOk b := by
  cases hs with
  | trigger key now db =>
    cases key with
    | none => exact ih
    | some k =>
      cases hlatest : getLatestCrawlRun a with
      | some lastRun =>
        by_cases hrun : lastRun.status = "running"
        · have heq : (apiCrawlTrigger (some k) a now).2 = a := by
            simp [apiCrawlTrigger, hlatest, hrun]
          rw [heq]
          exact ih
        · have heq : (apiCrawlTrigger (some k) a now).2 =
              (startCrawlRun a now).2 := by
            simp [apiCrawlTrigger, hlatest, hrun]
          rw [heq]
          exact CrawlDbOk_start a now ih
            (no_running_of_latest_not ih hlatest hrun)
      | none =>
        have hempty : a.runs = [] := getLatestCrawlRun_none hlatest
        have heq : (apiCrawlTrigger (some k) a now).2 =
            (startCrawlRun a now).2 := by
          simp [apiCrawlTrigger, hlatest]
        rw [heq]
        refine CrawlDbOk_start a now ih ?_
        rw [hempty]
        intro r hr
        cases hr
  | complete runId found new upd now db =>
    exact CrawlDbOk_map a _ (fun r => by split <;> rfl)
      (fun r => by split <;> simp_all) ih
  | fail runId error now db =>
    exact CrawlDbOk_map a _ (fun r => by split <;> rfl)
      (fun r => by split <;> simp_all) ih

/-- Every reachable store satisfies the invariant. -/
theorem crawlReachable_ok {db : CrawlDb} (h : CrawlReachable db) :
    CrawlDbOk db := by
  induction h with
  | init =>
    refine ⟨by simp [CrawlDb.empty], ?_, ?_⟩ <;>
      · intro r hr
        simp [CrawlDb.empty] at hr
  | step hr hs ih => exact CrawlDbOk_step hs ih

/-- At most one `running` row follows from the invariant. -/
theorem running_le_one_aux (l : List CrawlRunRow)
    (h1 : (l.map (fun r => r.id)).Pairwise (· < ·))
    (h3 : ∀ r ∈ l, r.status = "running" → ∀ x ∈ l, x.id ≤ r.id) :
    l.countP (fun r => decide (r.status = "running")) ≤ 1 := by
  induction l with
  | nil => simp
  | cons a l ih =>
    simp only [List.map_cons, List.pairwise_cons] at h1
    obtain ⟨ha, h1'⟩ := h1
    by_cases hrun : a.status = "running"
    · have hl : l = [] := by
        cases l with
        | nil => rfl
        | cons b l' =>
          have hb1 : a.id < b.id := ha b.id (by simp)
          have hb2 : b.id ≤ a.id :=
            h3 a (by simp) hrun b (by simp)
          omega
      subst hl
      simp [hrun]
    · rw [List.countP_cons_of_neg _ _ (by simpa using hrun)]
      exact ih h1' (fun r hr hrr x hx =>
        h3 r (List.mem_cons_of_mem a hr) hrr x (List.mem_cons_of_mem a hx))

/-! ### Claim C5 -/

/-- C5: in a reachable store whose latest crawl run is `running`, a trigger
with the analyzer key configured answers conflict (HTTP 409) carrying that
run's id, inserts no row, and the table holds at most one `running` row —
before and after the trigger. -/
theorem C5_single_flight (db : CrawlDb) (key now : String)
    (r : CrawlRunRow) (hreach : CrawlReachable db)
    (hlatest : getLatestCrawlRun db = some r)
    (hrun : r.status = "running") :
    apiCrawlTrigger (some key) db now = (.conflict r.id r.started_at, db) ∧
    db.runs.countP (fun x => decide (x.status = "running")) ≤ 1 ∧
    (apiCrawlTrigger (some key) db now).2.runs.countP
      (fun x => decide (x.status = "running")) ≤ 1 := by
  have hok := crawlReachable_ok hreach
  have hle : db.runs.countP (fun x => decide (x.status = "running")) ≤ 1 :=
    running_le_one_aux db.runs hok.1 hok.2.2
  have heq : apiCrawlTrigger (some key) db now =
      (.conflict r.id r.started_at, db) := by
    simp [apiCrawlTrigger, hlatest, hrun]
  refine ⟨heq, hle, ?_⟩
  rw [heq]
  exact hle

/-- The store after one successful trigger from the empty store. -/
def crawlDb1 : CrawlDb :=
  (apiCrawlTrigger (some "key") CrawlDb.empty "2026-01-01T00:00:00.000Z").2

/-- C5, witness: after one trigger the single run is `running` and a second
trigger conflicts with its id, changing nothing. -/
theorem C5_single_flight_witness :
    apiCrawlTrigger (some "key") crawlDb1 "2026-01-01T00:05:00.000Z" =
      (.conflict 1 "2026-01-01T00:00:00.000Z", crawlDb1) ∧
    crawlDb1.runs.countP (fun x => decide (x.status = "running")) ≤ 1 := by
  have hreach : CrawlReachable crawlDb1 :=
    CrawlReachable.step CrawlReachable.init
      (CrawlStep.trigger (some "key") "2026-01-01T00:00:00.000Z"
        CrawlDb.empty)
  have h := C5_single_flight crawlDb1 "key" "2026-01-01T00:05:00.000Z"
    ⟨1, "2026-01-01T00:00:00.000Z", none, "running", 0, 0, 0, none⟩
    hreach (by decide) (by decide)
  exact ⟨h.1, h.2.1⟩

/-! ## A pattern engine for the hand-compiled regexes of `law-canonical`

Each regex of the source is compiled to a token list; `matchToks` returns
every possible remainder after matching the tokens against a prefix of the
input (JavaScript backtracking explores the same set; for `.test` only
existence matters, which is order-independent). -/

/-- The JavaScript `\w` class (`[A-Za-z0-9_]`), for `\b` boundaries. -/
def isWordChar (c : Char) : Bool := c.isAlpha || c.isDigit || c = '_'

/-- Case-insensitive or sensitive character comparison (ASCII folding, as
the source's patterns only fold ASCII letters). -/
def cmpChar (ci : Bool) (x c : Char) : Bool :=
  if ci then x.toLower = c.toLower else x = c

/-- One token of a compiled regex. -/
inductive RTok where
  | ch (c : Char)
  | opt (c : Char)
  | cls (f : Char → Bool)
  | optCls (f : Char → Bool)
  | wsP
  | wsS
  | digits (lo : Nat) (hi : Option Nat)

/-- Decrement an optional repetition bound. -/
def decBound : Option Nat → Option Nat
  | none => none
  | some n => some (n - 1)

/-- All remainders after matching `toks` against a prefix of `s`,
computed with a fuel bound (every step consumes a character or a token, so
`s.length + toks.length` steps always suffice; the wrapper below supplies
that bound). -/
def matchToksF (ci : Bool) : Nat → List RTok → List Char → List (List Char)
  | 0, _, _ => []
  | _ + 1, [], s => [s]
  | _ + 1, .ch _ :: _, [] => []
  | fuel + 1, .ch c :: ts, x :: s =>
    if cmpChar ci x c then matchToksF ci fuel ts s else []
  | fuel + 1, .opt _ :: ts, [] => matchToksF ci fuel ts []
  | fuel + 1, .opt c :: ts, x :: s =>
    matchToksF ci fuel ts (x :: s) ++
      (if cmpChar ci x c then matchToksF ci fuel ts s else [])
  | _ + 1, .cls _ :: _, [] => []
  | fuel + 1, .cls f :: ts, x :: s =>
    if f x then matchToksF ci fuel ts s else []
  | fuel + 1, .optCls _ :: ts, [] => matchToksF ci fuel ts []
  | fuel + 1, .optCls f :: ts, x :: s =>
    matchToksF ci fuel ts (x :: s) ++
      (if f x then matchToksF ci fuel ts s else [])
  | _ + 1, .wsP :: _, [] => []
  | fuel + 1, .wsP :: ts, x :: s =>
    if jsWhitespace x then matchToksF ci fuel (.wsS :: ts) s else []
  | fuel + 1, .wsS :: ts, [] => matchToksF ci fuel ts []
  | fuel + 1, .wsS :: ts, x :: s =>
    matchToksF ci fuel ts (x :: s) ++
      (if jsWhitespace x then matchToksF ci fuel (.wsS :: ts) s else [])
  | fuel + 1, .digits 0 hi :: ts, [] => matchToksF ci fuel ts []
  | fuel + 1, .digits 0 hi :: ts, x :: s =>
    matchToksF ci fuel ts (x :: s) ++
      (if x.isDigit ∧ hi ≠ some 0 then
        matchToksF ci fuel (.digits 0 (decBound hi) :: ts) s
      else [])
  | _ + 1, .digits (_ + 1) _ :: _, [] => []
  | fuel + 1, .digits (lo + 1) hi :: ts, x :: s =>
    if x.isDigit then matchToksF ci fuel (.digits lo (decBound hi) :: ts) s
    else []

/-- All remainders after matching `toks` against a prefix of `s`. -/
def matchToks (ci : Bool) (toks : List RTok) (s : List Char) :
    List (List Char) :=
  matchToksF ci (s.length + toks.length + 1) toks s

/-- No character before the position, or a non-word character: `\b` holds
in front of a word-character pattern. -/
def boundaryOK : Option Char → Bool
  | none => true
  | some c => !isWordChar c

/-- `\b` after the match, for a pattern ending in a word character. -/
def boundaryAfter : List Char → Bool
  | [] => true
  | c :: _ => !isWordChar c

/-- Scan every start position; succeed when `\b`-delimited `toks` match. -/
def reTestWBFrom (ci : Bool) (toks : List RTok) :
    Option Char → List Char → Bool
  | prev, [] =>
    boundaryOK prev && (matchToks ci toks []).any boundaryAfter
  | prev, x :: s =>
    (boundaryOK prev && (matchToks ci toks (x :: s)).any boundaryAfter) ||
      reTestWBFrom ci toks (some x) s

/-- `RegExp(\b…\b).test` for a pattern of word characters. -/
def reTestWB (ci : Bool) (toks : List RTok) (s : List Char) : Bool :=
  reTestWBFrom ci toks none s

/-- `.test` of a `\b(alt|…)\b` alternation. -/
def reTestAnyWB (ci : Bool) (alts : List (List RTok)) (s : List Char) :
    Bool :=
  alts.any (fun t => reTestWB ci t s)

/-- `.test` of an anchored `^…\b` alternation. -/
def reTestStartWB (ci : Bool) (alts : List (List RTok)) (s : List Char) :
    Bool :=
  alts.any (fun t => (matchToks ci t s).any boundaryAfter)

/-- Scan every start position with no boundary requirement (`.test` of a
pattern without `\b`). -/
def reSearchFrom (ci : Bool) (toks : List RTok) : List Char → Bool
  | [] => !(matchToks ci toks []).isEmpty
  | x :: s =>
    !(matchToks ci toks (x :: s)).isEmpty || reSearchFrom ci toks s

/-- Literal word as tokens. -/
def lit (w : String) : List RTok := w.data.map RTok.ch

/-- Words joined by `\s+`. -/
def phrase (ws : List String) : List RTok :=
  match ws with
  | [] => []
  | w :: rest => rest.foldl (fun acc v => acc ++ [RTok.wsP] ++ lit v) (lit w)

/-- `needle.isPrefixOf`-based substring scan (`String.prototype.includes`
on character lists). -/
def listIncludes (needle : List Char) : List Char → Bool
  | [] => needle.isEmpty
  | c :: rest => needle.isPrefixOf (c :: rest) || listIncludes needle rest

/-- Case-insensitive substring containment (ASCII folding). -/
def containsCI (needle hay : String) : Bool :=
  listIncludes (needle.data.map Char.toLower) (hay.data.map Char.toLower)

/-- `normalizeWhitespace` from `law-canonical`: collapse `\s+` runs to a
single space, then trim. -/
def normWS (s : String) : String := ⟨jsTrimL (collapseWs s.data)⟩

/-- The quote normalization of `extractExplicitLawPhrase`:
`[“”] → "` and `[‘’] → '`, characterwise. -/
def quoteNormChar (c : Char) : Char :=
  if c = Char.ofNat 0x201c ∨ c = Char.ofNat 0x201d then '"'
  else if c = Char.ofNat 0x2018 ∨ c = Char.ofNat 0x2019 then Char.ofNat 39
  else c

def quoteNorm (l : List Char) : List Char := l.map quoteNormChar

/-- Split a character list at a separator character (`split(" ")`),
keeping empty segments like JavaScript does. -/
def splitOnChar (sep : Char) : List Char → List (List Char)
  | [] => [[]]
  | c :: rest =>
    let r := splitOnChar sep rest
    if c = sep then [] :: r
    else
      match r with
      | [] => [[c]]
      | w :: ws => (c :: w) :: ws

/-- Join words with single spaces (`join(" ")`). -/
def joinSpace : List (List Char) → List Char
  | [] => []
  | [w] => w
  | w :: ws => w ++ ' ' :: joinSpace ws

/-- Helper for `countWsWords`: `inWord` is true inside an already
counted run. -/
def countWsWordsAux (inWord : Bool) : List Char → Nat
  | [] => 0
  | c :: rest =>
    if jsWhitespace c then countWsWordsAux false rest
    else (if inWord then 0 else 1) + countWsWordsAux true rest

/-- `split(/\s+/).filter(Boolean).length`: the number of maximal
non-whitespace runs. -/
def countWsWords (l : List Char) : Nat := countWsWordsAux false l

/-! ## The canonical-law inferrer (`law-canonical`, as compiled in the repo)

Pure functions from `{title, summary?, content?, jurisdictionCountry,
jurisdictionState?}` to `{lawName, lawType, lawIdentifier, lawKey}`. -/

/-- `lawKeywords`. -/
def lawKeywords : List String :=
  ["Act", "Bill", "Directive", "Regulation", "Code", "Rule"]

/-- `allCapsTokens`. -/
def allCapsTokens : List String :=
  ["COPPA", "KOSA", "DSA", "GDPR", "DMA", "AADC", "DPDP", "PDPA", "LGPD",
   "UK", "EU", "US", "UAE", "FTC"]

/-- `lowercaseJoiners`. -/
def lowercaseJoiners : List String :=
  ["and", "or", "of", "for", "to", "the", "in", "on", "by", "under"]

/-- Is this a lowercase-alphanumeric character (`[a-z0-9]`)? -/
def isLowerAlnum (c : Char) : Bool :=
  ('a' ≤ c && c ≤ 'z') || ('0' ≤ c && c ≤ '9')

/-- Helper for `dashCollapse`: `inRun` is true inside a run of
non-`[a-z0-9]` characters whose dash was already emitted. -/
def dashCollapseAux (inRun : Bool) : List Char → List Char
  | [] => []
  | c :: rest =>
    if isLowerAlnum c then c :: dashCollapseAux false rest
    else if inRun then dashCollapseAux true rest
    else '-' :: dashCollapseAux true rest

/-- `replace(/[^a-z0-9]+/g, "-")`: every maximal run of other characters
becomes one dash (so the source's follow-up dash-run collapse and its
`-+` pattern are no-ops). -/
def dashCollapse (l : List Char) : List Char := dashCollapseAux false l

/-- `replace(/^-|-$/g, "")`: drop one leading and one trailing dash. -/
def trimDashes (l : List Char) : List Char :=
  let l1 := match l with
    | '-' :: rest => rest
    | _ => l
  match l1.getLast? with
  | some '-' => l1.dropLast
  | _ => l1

/-- `normalizeForKey`: normalize whitespace, lowercase, strip quote
characters, collapse non-alphanumeric runs to `-`, trim dashes. -/
def normalizeForKey (value : String) : String :=
  ⟨trimDashes (dashCollapse
    (((normWS value).data.map Char.toLower).filter (fun c =>
      !(c = '"' || c = Char.ofNat 39 || c = Char.ofNat 0x2019))))⟩

/-- The ASCII apostrophe. -/
def apos : Char := Char.ofNat 39

/-- `{lawName, lawType, lawIdentifier}` as produced by the inferrer's
helpers. -/
structure ParsedLaw where
  lawName : String
  lawType : String
  lawIdentifier : String
  deriving DecidableEq, Repr

/-- First occurrence replacement (`String.prototype.replace` with a plain
string pattern). -/
def replaceFirst : List Char → List Char → List Char → List Char
  | [], pat, rep => if pat.isPrefixOf [] then rep else []
  | c :: rest, pat, rep =>
    if pat.isPrefixOf (c :: rest) then rep ++ (c :: rest).drop pat.length
    else c :: replaceFirst rest pat rep

/-- `word.replace(/[^A-Za-z0-9]/g, "")`. -/
def stripAlnum (w : List Char) : List Char :=
  w.filter (fun c => c.isAlpha || c.isDigit)

/-- `stripped.charAt(0).toUpperCase() + stripped.slice(1).toLowerCase()`. -/
def capitalizeWord : List Char → List Char
  | [] => []
  | c :: rest => c.toUpper :: rest.map Char.toLower

/-- The per-word mapping of `toLawTitleCase`. -/
def mapTitleWord (index : Nat) (word : List Char) : List Char :=
  let stripped := stripAlnum word
  if stripped = [] then word
  else
    let upper := stripped.map Char.toUpper
    if allCapsTokens.contains (⟨upper⟩ : String) then
      replaceFirst word stripped upper
    else
      let lower := stripped.map Char.toLower
      if 0 < index ∧ lowercaseJoiners.contains (⟨lower⟩ : String) then
        replaceFirst word stripped lower
      else
        replaceFirst word stripped (capitalizeWord stripped)

/-- `toLawTitleCase`. -/
def toLawTitleCase (value : String) : String :=
  let words := (splitOnChar ' ' (normWS value).data).filter (fun w => w ≠ [])
  ⟨joinSpace (words.mapIdx (fun i w => mapTitleWord i w))⟩

/-- The `([A-Za-z]+)(\d+) → $1-$2` first-occurrence rewrite inside
`normalizeBillIdentifier`. -/
def replaceLettersDigits : List Char → List Char
  | [] => []
  | c :: rest =>
    if c.isAlpha then
      let after := (c :: rest).dropWhile Char.isAlpha
      if (after.head?.map Char.isDigit).getD false then
        (c :: rest).takeWhile Char.isAlpha ++ '-' ::
          (after.takeWhile Char.isDigit ++ after.dropWhile Char.isDigit)
      else c :: replaceLettersDigits rest
    else c :: replaceLettersDigits rest

/-- `normalizeBillIdentifier`: drop dots and whitespace, insert a dash
between the first letter-run/digit-run pair, uppercase. -/
def normalizeBillIdentifier (value : String) : String :=
  ⟨(replaceLettersDigits
      ((value.data.filter (fun c => c ≠ '.')).filter
        (fun c => !jsWhitespace c))).map Char.toUpper⟩

/-- `resolveLawType`: the first law keyword appearing (word-bounded,
case-insensitively) in the name, lowercased; else `"law"`. -/
def resolveLawType (name : String) : String :=
  match lawKeywords.find? (fun kw => reTestWB true (lit kw) name.data) with
  | some kw => ⟨kw.data.map Char.toLower⟩
  | none => "law"

/-- The EU-context alternation of the DSA alias:
`\b(EU|European|Commission|Brussels|Article\s*28|Regulation|Minors?)\b`. -/
def euContextAlts : List (List RTok) :=
  [lit "eu", lit "european", lit "commission", lit "brussels",
   lit "article" ++ [RTok.wsS] ++ lit "28",
   lit "regulation", lit "minor" ++ [RTok.opt 's']]

/-- `extractKnownLawAlias`: the curated alias table, tried in source
order. -/
def extractKnownLawAlias (text : String) (jurisdictionCountry : String) :
    Option ParsedLaw :=
  let normalized := (normWS text).data
  let jurisdiction := jurisdictionCountry.data.map Char.toLower
  if reTestWB true (lit "children" ++ [RTok.opt apos] ++ lit "s" ++
      [RTok.wsP] ++ lit "online" ++ [RTok.wsP] ++ lit "privacy" ++
      [RTok.wsP] ++ lit "protection" ++ [RTok.wsP] ++ lit "act")
      normalized ||
     reTestWB true (lit "coppa") normalized then
    some ⟨"Children's Online Privacy Protection Act (COPPA)", "act",
          "COPPA"⟩
  else if reTestWB true (phrase ["kids", "online", "safety", "act"])
      normalized || reTestWB true (lit "kosa") normalized then
    some ⟨"Kids Online Safety Act (KOSA)", "act", "KOSA"⟩
  else if reTestWB true (lit "age-appropriate" ++ [RTok.wsP] ++
      lit "design" ++ [RTok.wsP] ++ lit "code" ++ [RTok.wsP] ++ lit "act")
      normalized ||
     reTestWB true (lit "ab" ++
      [RTok.optCls (fun c => c = '-' || jsWhitespace c)] ++ lit "2273")
      normalized then
    some ⟨"California Age-Appropriate Design Code Act (AB-2273)", "act",
          "AB-2273"⟩
  else if reTestWB true (phrase ["securing", "children", "online",
      "through", "parental", "empowerment"]) normalized ||
     reTestWB true (lit "scope" ++ [RTok.wsP] ++ lit "act") normalized then
    some ⟨"Securing Children Online Through Parental Empowerment Act (SCOPE Act)",
          "act", "SCOPE-ACT"⟩
  else
    let dsaMentioned :=
      reTestWB true (phrase ["digital", "services", "act"]) normalized ||
        (reTestWB true (lit "dsa") normalized &&
         reTestAnyWB true euContextAlts normalized)
    if dsaMentioned then
      some ⟨"Digital Services Act (DSA)", "regulation", "EU-DSA"⟩
    else if reTestWB true (phrase ["online", "safety", "act"])
        normalized then
      if listIncludes "united kingdom".data jurisdiction ||
         reTestAnyWB true [lit "uk", lit "ofcom", lit "britain",
           lit "british"] normalized then
        some ⟨"Online Safety Act 2023 (UK)", "act", "UK-OSA-2023"⟩
      else if listIncludes "australia".data jurisdiction ||
         reTestAnyWB true [lit "australia", lit "australian",
           lit "esafety"] normalized then
        some ⟨"Online Safety Act 2021 (Australia)", "act", "AU-OSA-2021"⟩
      else
        some ⟨"Online Safety Act", "act", "ONLINE-SAFETY-ACT"⟩
    else if reTestWB true (phrase ["general", "data", "protection",
        "regulation"]) normalized ||
       reTestWB true (lit "gdpr") normalized then
      some ⟨"General Data Protection Regulation (GDPR)", "regulation",
            "GDPR"⟩
    else if reTestWB true (phrase ["digital", "personal", "data",
        "protection", "act"]) normalized ||
       reTestWB true (lit "dpdp") normalized then
      some ⟨"Digital Personal Data Protection Act 2023 (India)", "act",
            "DPDP-ACT-2023"⟩
    else if reTestWB true (phrase ["personal", "data", "protection",
        "act"]) normalized ||
       reTestWB true (lit "pdpa") normalized then
      some ⟨"Personal Data Protection Act (PDPA)", "act", "PDPA"⟩
    else none

/-- `keywordPattern` (no word boundary, case-insensitive). -/
def lawKeywordAlts : List (List RTok) := lawKeywords.map lit

/-- `narrativePrefixPattern`'s anchored alternatives. -/
def narrativeStartAlts : List (List RTok) :=
  [lit "potentially",
   phrase ["for", "kids", "under"],
   phrase ["the", "law", "has"],
   phrase ["this", "follows"],
   phrase ["to", "a", "lawsuit", "by"],
   phrase ["are", "new", "global"],
   phrase ["what", "to", "expect", "from"]]

/-- `narrativeVerbPattern`'s word alternatives. -/
def narrativeVerbAlts : List (List RTok) :=
  [lit "has", lit "have", lit "had", lit "is", lit "are", lit "was",
   lit "were", lit "introduced", lit "enacted", lit "issued",
   lit "setting", lit "explained", lit "follows", lit "following",
   lit "alleging", lit "claim" ++ [RTok.opt 's']]

/-- `scoreCandidateLawName` from `law-canonical`. -/
def scoreCandidateLawName (name : String) : Int :=
  let words : Int := countWsWords name.data
  (if lawKeywordAlts.any (fun t => reSearchFrom true t name.data)
    then 10 else 0) +
  (if reTestWB true [RTok.digits 4 (some 4)] name.data then 2 else 0) +
  (if reTestAnyWB false
      [lit "COPPA", lit "KOSA", lit "DSA", lit "GDPR", lit "DPDP",
       lit "PDPA", lit "AB-" ++ [RTok.digits 1 none]] name.data
    then 3 else 0) +
  (if reTestStartWB true narrativeStartAlts name.data ||
      reTestAnyWB true narrativeVerbAlts name.data
    then -8 else 0) -
  max 0 (words - 9)

/-- The inferrer's input record. -/
structure CanonicalLawInput where
  title : String
  summary : Option String
  content : Option String
  jurisdictionCountry : String
  jurisdictionState : Option String
  deriving DecidableEq, Repr

/-- `fallbackLawName`: subject-line fallbacks, else the title-cased first
seven words of the title. -/
def fallbackLawName (input : CanonicalLawInput) : ParsedLaw :=
  let title := normWS input.title
  if reTestWB true (phrase ["online", "safety"]) title.data then
    ⟨"Child Online Safety Law", "law", "child-online-safety-law"⟩
  else if reTestAnyWB true
      [phrase ["age", "verification"], phrase ["age", "assurance"]]
      title.data then
    ⟨"Age Verification Law", "law", "age-verification-law"⟩
  else if reTestAnyWB true
      [lit "privacy", phrase ["data", "protection"],
       lit "children" ++ [RTok.opt apos] ++ lit "s" ++ [RTok.wsP] ++
         lit "privacy"] title.data then
    ⟨"Child Data Privacy Law", "law", "child-data-privacy-law"⟩
  else
    let conciseTitle := toLawTitleCase ⟨joinSpace
      ((splitOnChar ' '
        ((title.data.dropWhile (fun c => !(c.isAlpha || c.isDigit))).takeWhile
          (fun c => !(c = '.' || c = '!' || c = '?')))).take 7)⟩
    if conciseTitle = "" then ⟨"Unspecified Law", "law", "unspecified-law"⟩
    else ⟨conciseTitle, "law", conciseTitle⟩

/-! ## `extractExplicitLawPhrase`

The big law-phrase regex is compiled by hand.  On the (whitespace- and
quote-normalized) input the backtracking search resolves to: at each
word-boundary position starting with a letter, take the maximal law-phrase
run, at most twelve following `\s+`-separated runs — as many as still
leave a whitespace and a law keyword (with an optional four-digit year and
a trailing `\b`) — and emit the consumed text as the capture; matching
then resumes after the match (`/g`). -/

/-- The character class `[A-Za-z0-9'’&/.\-]` of the law-phrase regex. -/
def isLawPhraseChar (c : Char) : Bool :=
  c.isAlpha || c.isDigit || c = apos || c = Char.ofNat 0x2019 ||
  c = '&' || c = '/' || c = '.' || c = '-'

/-- Case-insensitive prefix test (ASCII folding). -/
def ciPrefixOf : List Char → List Char → Bool
  | [], _ => true
  | _ :: _, [] => false
  | p :: ps, x :: xs => cmpChar true x p && ciPrefixOf ps xs

/-- Successive `(\s+ run, law-phrase run)` group checkpoints:
`(consumed so far, remainder)` for one, two, … groups. -/
def groupChecks : Nat → List Char → List (List Char × List Char)
  | 0, _ => []
  | fuel + 1, s =>
    let ws := s.takeWhile jsWhitespace
    let s1 := s.dropWhile jsWhitespace
    let w := s1.takeWhile isLawPhraseChar
    let s2 := s1.dropWhile isLawPhraseChar
    if ws.isEmpty || w.isEmpty then []
    else
      (ws ++ w, s2) ::
        (groupChecks fuel s2).map (fun p => (ws ++ w ++ p.1, p.2))

/-- After the groups: one whitespace, a law keyword, optionally
`\s+` and exactly four digits, then `\b`.  Returns the consumed suffix and
the remainder. -/
def finishLawPhrase (r : List Char) : Option (List Char × List Char) :=
  match r with
  | [] => none
  | x :: r1 =>
    if jsWhitespace x then
      match lawKeywords.find? (fun kw => ciPrefixOf kw.data r1) with
      | none => none
      | some kw =>
        let actual := r1.take kw.data.length
        let afterKw := r1.drop kw.data.length
        let wsr := afterKw.takeWhile jsWhitespace
        let afterWs := afterKw.dropWhile jsWhitespace
        if !wsr.isEmpty ∧ (afterWs.take 4).length = 4 ∧
            (afterWs.take 4).all Char.isDigit ∧
            boundaryAfter (afterWs.drop 4) = true then
          some (x :: (actual ++ wsr ++ afterWs.take 4), afterWs.drop 4)
        else if boundaryAfter afterKw then
          some (x :: actual, afterKw)
        else none
    else none

/-- One match attempt at a position whose first character is a letter. -/
def lawPhraseAttempt (s : List Char) : Option (List Char × List Char) :=
  let w0 := s.takeWhile isLawPhraseChar
  let after0 := s.dropWhile isLawPhraseChar
  let checks := (groupChecks after0.length after0).take 12
  (checks.reverse ++ [([], after0)]).findSome?
    (fun (p : List Char × List Char) =>
      (finishLawPhrase p.2).map
        (fun (fr : List Char × List Char) => (w0 ++ p.1 ++ fr.1, fr.2)))

/-- `matchAll` scan: all captures, left to right, non-overlapping. -/
def lawPhraseScan : Nat → Option Char → List Char → List (List Char)
  | 0, _, _ => []
  | _ + 1, _, [] => []
  | fuel + 1, prev, c :: rest =>
    if boundaryOK prev ∧ c.isAlpha then
      match lawPhraseAttempt (c :: rest) with
      | some (consumed, remainder) =>
        consumed ::
          lawPhraseScan fuel (some (consumed.getLastD c)) remainder
      | none => lawPhraseScan fuel (some c) rest
    else lawPhraseScan fuel (some c) rest

/-- The bill-number alternatives, in source order. -/
def billAlts : List String :=
  ["SB", "HB", "AB", "HR", "SR", "S.B.", "H.B.", "A.B.", "H.R.", "S.R."]

/-- A bill-number match starting exactly here: alternative prefix,
optional `[-\s]` separator, one to five digits, `\b`. -/
def billAt (s : List Char) : Option (List Char) :=
  match billAlts.find? (fun alt => ciPrefixOf alt.data s) with
  | none => none
  | some alt =>
    let actual := s.take alt.data.length
    let after := s.drop alt.data.length
    let withSep : Option (List Char) :=
      match after with
      | x :: rest2 =>
        if x = '-' || jsWhitespace x then
          (billDigits rest2).map (fun ds => actual ++ x :: ds)
        else none
      | [] => none
    match withSep with
    | some r => some r
    | none => (billDigits after).map (fun ds => actual ++ ds)
where
  /-- One to five digits followed by a word boundary. -/
  billDigits (t : List Char) : Option (List Char) :=
    let ds := t.takeWhile Char.isDigit
    if 1 ≤ ds.length ∧ ds.length ≤ 5 ∧
        boundaryAfter (t.drop ds.length) = true then
      some ds
    else none

/-- Leftmost bill-number capture
(`\b((SB|HB|AB|HR|SR|S\.B\.|…)[-\s]?\d{1,5})\b`, case-insensitive). -/
def billExecFrom : Option Char → List Char → Option (List Char)
  | _, [] => none
  | prev, c :: rest =>
    match (if boundaryOK prev then billAt (c :: rest) else none) with
    | some r => some r
    | none => billExecFrom (some c) rest

def billExec (s : List Char) : Option (List Char) := billExecFrom none s

/-- Leftmost parenthesized identifier `\(([A-Z][A-Z0-9\-.]{1,20})\)`. -/
def parenExec : List Char → Option (List Char)
  | [] => none
  | c :: rest =>
    if c = '(' then
      let run := rest.takeWhile (fun d =>
        d.isUpper || d.isDigit || d = '-' || d = '.')
      if ((match run with
           | r0 :: _ => r0.isUpper
           | [] => false) &&
          decide (2 ≤ run.length) && decide (run.length ≤ 21) &&
          (match rest.drop run.length with
           | ')' :: _ => true
           | _ => false)) then
        some run
      else parenExec rest
    else parenExec rest

/-- The stop words stripped from a candidate's head. -/
def headStopWords : List String :=
  ["the", "a", "an", "this", "that", "these", "those", "potentially",
   "for", "to", "under"]

/-- Letters-only copy of a token (`replace(/[^A-Za-z]/g, "")`). -/
def lettersOnly (w : List Char) : List Char := w.filter Char.isAlpha

/-- Does this token name a law keyword (letters only, case-insensitive)? -/
def tokenIsKeyword (w : List Char) : Bool :=
  lawKeywords.any (fun kw =>
    (lettersOnly w).map Char.toLower = kw.data.map Char.toLower)

/-- Build one candidate from a capture (the loop body of
`extractExplicitLawPhrase`); `normalized` is the whole searched text. -/
def candidateOfCapture (normalized : List Char) (capture : List Char) :
    Option ParsedLaw :=
  let raw := (normWS ⟨capture⟩).data
  let tokens := (splitOnChar ' ' raw).filter (fun w => !w.isEmpty)
  match tokens.findIdx? tokenIsKeyword with
  | none => none
  | some keywordIndex =>
    if keywordIndex = 0 then none
    else
      let head := (tokens.take keywordIndex).dropWhile (fun w =>
        headStopWords.contains (⟨w.map Char.toLower⟩ : String))
      if head.isEmpty || head.length > 8 then none
      else if reTestAnyWB true narrativeVerbAlts (joinSpace head) then none
      else
        let keywordToken := lettersOnly (tokens.getD keywordIndex [])
        let nextToken := (tokens.getD (keywordIndex + 1) []).filter
          Char.isDigit
        let yearToken := if nextToken.length = 4 then [nextToken] else []
        let canonicalName := toLawTitleCase
          ⟨joinSpace (head ++ [keywordToken] ++ yearToken)⟩
        let billMatch := billExec normalized
        let parenIdentifier := parenExec normalized
        some ⟨canonicalName, resolveLawType canonicalName,
          match parenIdentifier with
          | some p => ⟨p⟩
          | none =>
            match billMatch with
            | some b => normalizeBillIdentifier ⟨b⟩
            | none => canonicalName⟩

/-- The candidate sort of `extractExplicitLawPhrase`: score descending,
ties by shorter name (stable). -/
def candLe (a b : ParsedLaw) : Bool :=
  decide (scoreCandidateLawName b.lawName < scoreCandidateLawName a.lawName) ||
    (decide (scoreCandidateLawName a.lawName =
      scoreCandidateLawName b.lawName) &&
     decide (a.lawName.data.length ≤ b.lawName.data.length))

/-- `extractExplicitLawPhrase`. -/
def extractExplicitLawPhrase (text : String) : Option ParsedLaw :=
  let normalized := quoteNorm (normWS text).data
  let captures := lawPhraseScan (normalized.length + 1) none normalized
  let candidates := captures.filterMap (candidateOfCapture normalized)
  if candidates.isEmpty then
    match billExec normalized with
    | some b =>
      some ⟨normalizeBillIdentifier ⟨b⟩ ++ " Bill", "bill",
            normalizeBillIdentifier ⟨b⟩⟩
    | none => none
  else (sortBy candLe candidates).head?

/-- `inferCanonicalLaw` (the repo's compiled `law-canonical` module). -/
def inferCanonicalLaw (input : CanonicalLawInput) : ParsedLaw × String :=
  let textCandidates :=
    ([input.title, input.summary.getD "", input.content.getD ""].map
      normWS).filter (fun t => t ≠ "")
  let parsed :=
    match textCandidates.findSome? (fun t =>
      match extractKnownLawAlias t input.jurisdictionCountry with
      | some p => some p
      | none => extractExplicitLawPhrase t) with
    | some p => p
    | none => fallbackLawName input
  let jurisdictionKey := String.intercalate ":"
    (([input.jurisdictionCountry,
       input.jurisdictionState.getD ""].map normalizeForKey).filter
      (fun v => v ≠ ""))
  let subjectKey := normalizeForKey
    (if parsed.lawIdentifier ≠ "" then parsed.lawIdentifier
     else if parsed.lawName ≠ "" then parsed.lawName
     else "unspecified-law")
  (parsed,
   (if jurisdictionKey = "" then "global" else jurisdictionKey) ++ ":" ++
     (if subjectKey = "" then "unspecified-law" else subjectKey))

/-- The `lawKey` field of the inferrer's result. -/
def lawKeyOf (input : CanonicalLawInput) : String :=
  (inferCanonicalLaw input).2

/-! ## C6: the `lawKey` — determinism, shape, and jurisdiction separation -/

/-- The `jurisdictionKey` let-binding of `inferCanonicalLaw`: the `:`-join
of the nonempty normalized jurisdiction components. -/
def jurisdictionKeyOf (input : CanonicalLawInput) : String :=
  String.intercalate ":"
    (([input.jurisdictionCountry,
       input.jurisdictionState.getD ""].map normalizeForKey).filter
      (fun v => v ≠ ""))

/-- The `subjectKey` let-binding of `inferCanonicalLaw`. -/
def subjectKeyOf (input : CanonicalLawInput) : String :=
  normalizeForKey
    (if (inferCanonicalLaw input).1.lawIdentifier ≠ "" then
      (inferCanonicalLaw input).1.lawIdentifier
     else if (inferCanonicalLaw input).1.lawName ≠ "" then
      (inferCanonicalLaw input).1.lawName
     else "unspecified-law")

/-- The jurisdiction half of the key, with the `global` default. -/
def jurisdictionPrefix (input : CanonicalLawInput) : String :=
  if jurisdictionKeyOf input = "" then "global" else jurisdictionKeyOf input

/-- The subject half of the key, with the `unspecified-law` default. -/
def subjectPart (input : CanonicalLawInput) : String :=
  if subjectKeyOf input = "" then "unspecified-law" else subjectKeyOf input

/-- The key returned by the inferrer is exactly prefix `:` subject. -/
theorem lawKeyOf_split (input : CanonicalLawInput) :
    lawKeyOf input = jurisdictionPrefix input ++ ":" ++ subjectPart input :=
  rfl

/-- Every character emitted by `dashCollapseAux` is a lowercase
alphanumeric or a dash. -/
theorem dashCollapseAux_mem {c : Char} :
    ∀ {b : Bool} {l : List Char}, c ∈ dashCollapseAux b l →
      isLowerAlnum c = true ∨ c = '-' := by
  intro b l
  induction l generalizing b with
  | nil => intro h; simp [dashCollapseAux] at h
  | cons x rest ih =>
    intro h
    by_cases hx : isLowerAlnum x
    · simp only [dashCollapseAux, hx, if_pos] at h
      rcases List.mem_cons.mp h with h | h
      · exact Or.inl (h ▸ hx)
      · exact ih h
    · simp only [dashCollapseAux, hx, if_neg, Bool.false_eq_true,
        if_false] at h
      cases b with
      | true => exact ih (by simpa using h)
      | false =>
        rcases List.mem_cons.mp (by simpa using h) with h | h
        · exact Or.inr h
        · exact ih h

/-- `trimDashes` only removes characters. -/
theorem trimDashes_subset {c : Char} {l : List Char}
    (h : c ∈ trimDashes l) : c ∈ l := by
  unfold trimDashes at h
  split at h
  next rest =>
    dsimp only at h
    split at h
    · exact List.mem_cons_of_mem _ ((List.dropLast_sublist _).subset h)
    · exact List.mem_cons_of_mem _ h
  next l hne =>
    dsimp only at h
    split at h
    · exact (List.dropLast_sublist _).subset h
    · exact h

/-- Normalized key fragments never contain a colon. -/
theorem normalizeForKey_no_colon (v : String) :
    ':' ∉ (normalizeForKey v).data := by
  intro h
  rcases dashCollapseAux_mem (trimDashes_subset h) with h1 | h1
  · exact absurd h1 (by decide)
  · exact absurd h1 (by decide)

/-- The subject half of a law key never contains a colon. -/
theorem subjectPart_no_colon (input : CanonicalLawInput) :
    ':' ∉ (subjectPart input).data := by
  unfold subjectPart
  split
  · decide
  · exact normalizeForKey_no_colon _

/-- Splitting a list at a colon whose right part is colon-free is
unambiguous. -/
theorem append_colon_inj :
    ∀ {a1 : List Char} {b1 : List Char} {a2 b2 : List Char},
      a1 ++ ':' :: b1 = a2 ++ ':' :: b2 → ':' ∉ b1 → ':' ∉ b2 →
        a1 = a2 ∧ b1 = b2 := by
  intro a1
  induction a1 with
  | nil =>
    intro b1 a2 b2 h h1 h2
    cases a2 with
    | nil => simpa using h
    | cons y a2' =>
      simp only [List.nil_append, List.cons_append, List.cons.injEq] at h
      exact absurd (h.2 ▸ List.mem_append_right a2' (List.mem_cons_self _ _))
        h1
  | cons x a1' ih =>
    intro b1 a2 b2 h h1 h2
    cases a2 with
    | nil =>
      simp only [List.nil_append, List.cons_append, List.cons.injEq] at h
      exact absurd
        (h.2.symm ▸ List.mem_append_right a1' (List.mem_cons_self _ _)) h2
    | cons y a2' =>
      simp only [List.cons_append, List.cons.injEq] at h
      rcases ih h.2 h1 h2 with ⟨hA, hB⟩
      exact ⟨by rw [h.1, hA], hB⟩

/-- C6 counterexample: two inputs with different jurisdiction fields (empty
country with state `California`, versus country `California` with no state)
and the same statute text `COPPA` receive the same `lawKey`
`california:coppa`, refuting "different jurisdictions yield different
keys for the same statute text". -/
theorem C6_counterexample :
    ("" : String) ≠ "California" ∧
    (some "California" : Option String) ≠ none ∧
    lawKeyOf ⟨"COPPA", none, none, "", some "California"⟩ =
      "california:coppa" ∧
    lawKeyOf ⟨"COPPA", none, none, "California", none⟩ =
      "california:coppa" := by
  refine ⟨by decide, by decide, by decide, by decide⟩

/-- C6: `inferCanonicalLaw` is a pure function of its five inputs — equal
fields give an equal `lawKey`; the key is exactly the defaulted normalized
jurisdiction join, a colon, and the defaulted normalized subject; and —
the corrected separation property — inputs whose defaulted jurisdiction
prefixes differ always receive different keys (equal jurisdiction fields
that merely *normalize* alike, as in the counterexample, may collide). -/
theorem C6_lawKey_determinism_and_jurisdiction (i j : CanonicalLawInput) :
    (i.title = j.title → i.summary = j.summary → i.content = j.content →
      i.jurisdictionCountry = j.jurisdictionCountry →
      i.jurisdictionState = j.jurisdictionState →
      lawKeyOf i = lawKeyOf j) ∧
    lawKeyOf i = jurisdictionPrefix i ++ ":" ++ subjectPart i ∧
    (jurisdictionPrefix i ≠ jurisdictionPrefix j →
      lawKeyOf i ≠ lawKeyOf j) := by
  refine ⟨?_, lawKeyOf_split i, ?_⟩
  · intro h1 h2 h3 h4 h5
    have hij : i = j := by
      cases i; cases j
      simp only at h1 h2 h3 h4 h5
      simp [h1, h2, h3, h4, h5]
    rw [hij]
  · intro hp h
    rw [lawKeyOf_split i, lawKeyOf_split j] at h
    have hd := congrArg String.data h
    simp only [String.data_append] at hd
    have hd' : (jurisdictionPrefix i).data ++ ':' :: (subjectPart i).data =
        (jurisdictionPrefix j).data ++ ':' :: (subjectPart j).data := by
      simpa [List.append_assoc] using hd
    have := (append_colon_inj hd' (subjectPart_no_colon i)
      (subjectPart_no_colon j)).1
    exact hp (String.ext this)

/-- Witness for C6 at concrete inputs: `COPPA` under the United States and
under the United Kingdom has distinct jurisdiction prefixes, hence
distinct keys; and the purity direction at syntactically equal fields. -/
theorem C6_lawKey_witness :
    lawKeyOf ⟨"COPPA", none, none, "United States", none⟩ ≠
      lawKeyOf ⟨"COPPA", none, none, "United Kingdom", none⟩ ∧
    lawKeyOf ⟨"COPPA", none, none, "", some "California"⟩ =
      lawKeyOf ⟨"COPPA", none, none, "", some "California"⟩ :=
  ⟨(C6_lawKey_determinism_and_jurisdiction
      ⟨"COPPA", none, none, "United States", none⟩
      ⟨"COPPA", none, none, "United Kingdom", none⟩).2.2 (by decide),
   (C6_lawKey_determinism_and_jurisdiction
      ⟨"COPPA", none, none, "", some "California"⟩
      ⟨"COPPA", none, none, "", some "California"⟩).1 rfl rfl rfl rfl rfl⟩

/-! ## C7: supporting lemmas — characters -/

/-- `Char.ofNat` round-trips on the code points this development uses. -/
theorem charToNat_ofNat {n : Nat} (h2 : n ≤ 122) : (Char.ofNat n).toNat = n := by
  unfold Char.ofNat Char.toNat
  split
  · next h => simp [Char.ofNatAux, UInt32.toNat, BitVec.toNat_ofNatLt]
  · next hv => exact absurd (show n.isValidChar from Or.inl (by omega)) hv

/-- Lowercasing after uppercasing equals lowercasing. -/
theorem toLower_toUpper (c : Char) : c.toUpper.toLower = c.toLower := by
  unfold Char.toUpper Char.toLower
  by_cases h : 97 ≤ c.toNat ∧ c.toNat ≤ 122
  · have hv : (Char.ofNat (c.toNat - 32)).toNat = c.toNat - 32 :=
      charToNat_ofNat (by omega)
    simp only [ge_iff_le, h, and_true, if_pos, hv]
    rw [if_pos (by omega), if_neg (by omega)]
    have h3 : c.toNat - 32 + 32 = c.toNat := by omega
    rw [h3, Char.ofNat_toNat]
  · simp [ge_iff_le, h]

/-- `Char.toLower` is idempotent. -/
theorem toLower_toLower (c : Char) : c.toLower.toLower = c.toLower := by
  unfold Char.toLower
  by_cases h : 65 ≤ c.toNat ∧ c.toNat ≤ 90
  · have hv : (Char.ofNat (c.toNat + 32)).toNat = c.toNat + 32 :=
      charToNat_ofNat (by omega)
    simp only [ge_iff_le, h, and_true, if_pos, hv]
    rw [if_neg (by omega)]
  · simp [ge_iff_le, h]

theorem toLower_eq_self_of_high {c : Char}
    (h : ¬(65 ≤ c.toNat ∧ c.toNat ≤ 90)) : c.toLower = c := by
  unfold Char.toLower
  simp [ge_iff_le, h]

theorem toUpper_eq_self_of_low {c : Char}
    (h : ¬(97 ≤ c.toNat ∧ c.toNat ≤ 122)) : c.toUpper = c := by
  unfold Char.toUpper
  simp [ge_iff_le, h]

/-- Digits are untouched by `toUpper`. -/
theorem digit_toUpper {d : Char} (h : d.isDigit = true) : d.toUpper = d := by
  have hb : d.toNat ≤ 57 := by
    simp only [Char.isDigit, Bool.and_eq_true, decide_eq_true_eq] at h
    exact_mod_cast h.2
  exact toUpper_eq_self_of_low (by omega)

/-- Digits are not JavaScript whitespace. -/
theorem digit_not_ws {d : Char} (h : d.isDigit = true) :
    jsWhitespace d = false := by
  have hb : 48 ≤ d.toNat ∧ d.toNat ≤ 57 := by
    simp only [Char.isDigit, Bool.and_eq_true, decide_eq_true_eq] at h
    exact ⟨by exact_mod_cast h.1, by exact_mod_cast h.2⟩
  simp only [jsWhitespace, Bool.or_eq_false_iff, decide_eq_false_iff_not,
    Bool.and_eq_false_iff]
  omega

/-- Digits are not the dot character. -/
theorem digit_not_dot {d : Char} (h : d.isDigit = true) : d ≠ '.' := by
  rintro rfl; simp at h

/-- Whitespace characters are untouched by `toLower`. -/
theorem ws_toLower {c : Char} (h : jsWhitespace c = true) : c.toLower = c := by
  have : ¬(65 ≤ c.toNat ∧ c.toNat ≤ 90) := by
    simp only [jsWhitespace, Bool.or_eq_true, decide_eq_true_eq,
      Bool.and_eq_true] at h
    omega
  exact toLower_eq_self_of_high this

/-! ## C7: supporting lemmas — substrings and splitting -/

/-- `listIncludes` is substring containment. -/
theorem listIncludes_correct {nd : List Char} :
    ∀ {hay : List Char}, listIncludes nd hay = true ↔ nd <:+: hay := by
  intro hay
  induction hay with
  | nil => simp [listIncludes, List.infix_nil, List.isEmpty_iff]
  | cons c rest ih =>
    rw [List.infix_cons_iff]
    simp [listIncludes, List.isPrefixOf_iff_prefix, ih]

/-- Trimming yields an infix. -/
theorem jsTrimL_within (l : List Char) : jsTrimL l <:+: l := by
  unfold jsTrimL
  have h1 : List.dropWhile jsWhitespace l <:+ l := List.dropWhile_suffix _
  have h2 : ((List.dropWhile jsWhitespace l).reverse.dropWhile
      jsWhitespace).reverse <+: List.dropWhile jsWhitespace l := by
    have := List.dropWhile_suffix (l := (List.dropWhile jsWhitespace
      l).reverse) jsWhitespace
    rw [← List.reverse_prefix] at this
    simpa using this
  exact h2.isInfix.trans h1.isInfix

/-- Split segments never contain the separator. -/
theorem splitOnChar_sep_not_mem {sep : Char} :
    ∀ {l w : List Char}, w ∈ splitOnChar sep l → sep ∉ w := by
  intro l
  induction l with
  | nil => intro w h; simp [splitOnChar] at h; simp [h]
  | cons c rest ih =>
    intro w h
    simp only [splitOnChar] at h
    by_cases hc : c = sep
    · simp only [hc, if_pos] at h
      rcases List.mem_cons.mp h with rfl | h
      · simp
      · exact ih h
    · simp only [hc, if_neg, if_false] at h
      rcases hr : splitOnChar sep rest with _ | ⟨w0, ws0⟩
      · rw [hr] at h
        simp at h
        simp [h, Ne.symm hc]
      · rw [hr] at h
        rcases List.mem_cons.mp h with rfl | h
        · intro hmem
          rcases List.mem_cons.mp hmem with rfl | hmem
          · exact hc rfl
          · exact ih (hr ▸ List.mem_cons_self w0 ws0) hmem
        · exact ih (hr ▸ List.mem_cons_of_mem w0 h)

/-- The first split segment is a prefix of the list. -/
theorem splitOnChar_head_prefix {sep : Char} :
    ∀ {l w : List Char} {ws : List (List Char)},
      splitOnChar sep l = w :: ws → w <+: l := by
  intro l
  induction l with
  | nil =>
    intro w ws h
    simp [splitOnChar] at h
    simp [h.1]
  | cons c rest ih =>
    intro w ws h
    simp only [splitOnChar] at h
    by_cases hc : c = sep
    · simp only [hc, if_pos] at h
      rw [List.cons.injEq] at h
      simp [← h.1]
    · simp only [hc, if_neg, if_false] at h
      rcases hr : splitOnChar sep rest with _ | ⟨w0, ws0⟩
      · rw [hr] at h
        rw [List.cons.injEq] at h
        rw [← h.1]
        simp
      · rw [hr] at h
        rw [List.cons.injEq] at h
        rw [← h.1]
        exact List.cons_prefix_cons.mpr ⟨rfl, ih hr⟩

/-- Every split segment is an infix of the list. -/
theorem splitOnChar_mem_within {sep : Char} :
    ∀ {l w : List Char}, w ∈ splitOnChar sep l → w <:+: l := by
  intro l
  induction l with
  | nil => intro w h; simp [splitOnChar] at h; simp [h]
  | cons c rest ih =>
    intro w h
    simp only [splitOnChar] at h
    by_cases hc : c = sep
    · simp only [hc, if_pos] at h
      rcases List.mem_cons.mp h with rfl | h
      · simp
      · exact (ih h).trans ⟨[c], [], by simp⟩
    · simp only [hc, if_neg, if_false] at h
      rcases hr : splitOnChar sep rest with _ | ⟨w0, ws0⟩
      · rw [hr] at h
        simp at h
        rw [h]
        exact ⟨[], rest, rfl⟩
      · rw [hr] at h
        rcases List.mem_cons.mp h with rfl | h
        · exact (List.cons_prefix_cons.mpr
            ⟨rfl, splitOnChar_head_prefix hr⟩).isInfix
        · exact ((ih (hr ▸ List.mem_cons_of_mem w0 h))).trans
            ⟨[c], [], by simp⟩

/-- Joining a prefix of the space-split segments reconstructs a prefix. -/
theorem joinSpace_take_split_prefix :
    ∀ {l : List Char} {k : Nat},
      joinSpace ((splitOnChar ' ' l).take k) <+: l := by
  intro l
  induction l with
  | nil =>
    intro k
    cases k <;> simp [splitOnChar, joinSpace, List.take]
  | cons c rest ih =>
    intro k
    simp only [splitOnChar]
    by_cases hc : c = ' '
    · simp only [hc, if_pos]
      cases k with
      | zero => simp [joinSpace]
      | succ j =>
        rw [List.take_succ_cons]
        rcases ht : (splitOnChar ' ' rest).take j with _ | ⟨t0, ts⟩
        · simp [joinSpace, hc]
        · have hj : joinSpace ([] :: t0 :: ts) = ' ' :: joinSpace (t0 :: ts) :=
            rfl
          rw [hj]
          exact List.cons_prefix_cons.mpr ⟨rfl, ht ▸ ih⟩
    · simp only [hc, if_neg, if_false]
      rcases hr : splitOnChar ' ' rest with _ | ⟨w0, ws0⟩
      · cases k with
        | zero => simp [joinSpace]
        | succ j =>
          simp only [List.take_succ_cons, List.take_nil]
          exact List.cons_prefix_cons.mpr ⟨rfl, List.nil_prefix⟩
      · cases k with
        | zero => simp [joinSpace]
        | succ j =>
          rw [List.take_succ_cons]
          have key : ∀ ts : List (List Char), ∀ w : List Char,
              joinSpace ((c :: w) :: ts) = c :: joinSpace (w :: ts) := by
            intro ts w
            cases ts <;> rfl
          rw [key]
          refine List.cons_prefix_cons.mpr ⟨rfl, ?_⟩
          have := ih (k := j + 1)
          rw [hr, List.take_succ_cons] at this
          exact this

/-! ## C7: supporting lemmas — normalization fixpoints on joined words -/

/-- The collapse flag is irrelevant when the next character is not
whitespace. -/
theorem collapseWsAux_flag :
    ∀ (t : List Char), (∀ c ∈ t.head?, jsWhitespace c = false) →
      collapseWsAux true t = collapseWsAux false t := by
  intro t h
  cases t with
  | nil => rfl
  | cons c r =>
    have hc : jsWhitespace c = false := h c rfl
    simp [collapseWsAux, hc]

/-- One collapse step over a non-whitespace character. -/
theorem collapseWsAux_cons_nonws {c : Char} (hc : jsWhitespace c = false)
    (b : Bool) (r : List Char) :
    collapseWsAux b (c :: r) = c :: collapseWsAux false r := by
  simp only [collapseWsAux, hc, Bool.false_eq_true, if_false]

/-- Collapsing passes an entirely non-whitespace word through. -/
theorem collapseWsAux_word :
    ∀ (w : List Char), (∀ c ∈ w, jsWhitespace c = false) → w ≠ [] →
      ∀ (b : Bool) (t : List Char),
        collapseWsAux b (w ++ t) = w ++ collapseWsAux false t := by
  intro w
  induction w with
  | nil => intro _ hne; exact absurd rfl hne
  | cons c w2 ih =>
    intro hw _ b t
    have hc : jsWhitespace c = false := hw c (List.mem_cons_self _ _)
    simp only [List.cons_append]
    rw [collapseWsAux_cons_nonws hc]
    cases w2 with
    | nil => simp
    | cons d w3 =>
      have h2 := ih (fun x hx => hw x (List.mem_cons_of_mem _ hx))
        (List.cons_ne_nil _ _) false t
      simp only [List.cons_append] at h2 ⊢
      rw [h2]

theorem joinSpace_cons_ne_nil {w : List Char} (ws : List (List Char))
    (hw : w ≠ []) : joinSpace (w :: ws) ≠ [] := by
  cases ws with
  | nil => exact hw
  | cons w2 ws2 => simp [joinSpace, hw]

theorem joinSpace_head? {w : List Char} (ws : List (List Char))
    (hw : w ≠ []) : (joinSpace (w :: ws)).head? = w.head? := by
  cases ws with
  | nil => rfl
  | cons w2 ws2 =>
    show (w ++ ' ' :: joinSpace (w2 :: ws2)).head? = w.head?
    rw [List.head?_append]
    cases w with
    | nil => exact absurd rfl hw
    | cons c r => rfl

/-- Collapsing fixes a join of nonempty non-whitespace words. -/
theorem collapse_joinSpace :
    ∀ (L : List (List Char)),
      (∀ w ∈ L, w ≠ [] ∧ ∀ c ∈ w, jsWhitespace c = false) →
      ∀ (b : Bool), collapseWsAux b (joinSpace L) = joinSpace L := by
  intro L
  induction L with
  | nil => intro _ b; rfl
  | cons w ws ih =>
    intro h b
    rcases h w (List.mem_cons_self _ _) with ⟨hne, hnw⟩
    cases ws with
    | nil =>
      show collapseWsAux b w = w
      have h3 := collapseWsAux_word w hnw hne b []
      simpa [collapseWsAux] using h3
    | cons w2 ws2 =>
      show collapseWsAux b (w ++ ' ' :: joinSpace (w2 :: ws2)) =
        w ++ ' ' :: joinSpace (w2 :: ws2)
      rw [collapseWsAux_word w hnw hne b]
      congr 1
      show (if jsWhitespace ' ' then
          if false then collapseWsAux true (joinSpace (w2 :: ws2))
          else ' ' :: collapseWsAux true (joinSpace (w2 :: ws2))
        else ' ' :: collapseWsAux false (joinSpace (w2 :: ws2))) =
        ' ' :: joinSpace (w2 :: ws2)
      rw [if_pos (by decide), if_neg (by simp)]
      congr 1
      rw [collapseWsAux_flag]
      · exact ih (fun v hv => h v (List.mem_cons_of_mem _ hv)) false
      · intro c hc
        rcases h w2 (List.mem_cons_of_mem _ (List.mem_cons_self _ _)) with
          ⟨hne2, hnw2⟩
        rw [joinSpace_head? ws2 hne2] at hc
        cases w2 with
        | nil => exact absurd rfl hne2
        | cons c2 r2 =>
          have hcc : c2 = c := by simpa using hc
          exact hcc ▸ hnw2 c2 (List.mem_cons_self _ _)

/-- Trimming fixes a list with non-whitespace first and last characters. -/
theorem jsTrimL_fix (l : List Char)
    (h1 : ∀ c ∈ l.head?, jsWhitespace c = false)
    (h2 : ∀ c ∈ l.getLast?, jsWhitespace c = false) : jsTrimL l = l := by
  have e1 : List.dropWhile jsWhitespace l = l := by
    cases l with
    | nil => rfl
    | cons c r => exact List.dropWhile_cons_of_neg (by simp [h1 c rfl])
  have e2 : List.dropWhile jsWhitespace l.reverse = l.reverse := by
    cases hrev : l.reverse with
    | nil => rfl
    | cons c r =>
      have : l.getLast? = some c := by
        rw [← List.head?_reverse, hrev]; rfl
      exact List.dropWhile_cons_of_neg (by simp [h2 c this])
  unfold jsTrimL
  rw [e1, e2, List.reverse_reverse]

/-- The last character of a join of nonempty words is a character of one of
the words. -/
theorem joinSpace_getLast :
    ∀ (L : List (List Char)), (∀ w ∈ L, w ≠ []) → L ≠ [] →
      ∃ c w, (joinSpace L).getLast? = some c ∧ w ∈ L ∧ c ∈ w := by
  intro L
  induction L with
  | nil => intro _ hne; exact absurd rfl hne
  | cons w ws ih =>
    intro h _
    cases ws with
    | nil =>
      have hw : w ≠ [] := h w (List.mem_cons_self _ _)
      exact ⟨w.getLast hw, w,
        show w.getLast? = some (w.getLast hw) from
          List.getLast?_eq_getLast w hw,
        List.mem_cons_self _ _, List.getLast_mem hw⟩
    | cons w2 ws2 =>
      rcases ih (fun v hv => h v (List.mem_cons_of_mem _ hv))
        (List.cons_ne_nil _ _) with ⟨c, v, hlast, hv, hc⟩
      refine ⟨c, v, ?_, List.mem_cons_of_mem _ hv, hc⟩
      show (w ++ ' ' :: joinSpace (w2 :: ws2)).getLast? = some c
      rw [List.getLast?_append]
      have hJ : (' ' :: joinSpace (w2 :: ws2)).getLast? = some c := by
        have : (' ' :: joinSpace (w2 :: ws2)) =
            [' '] ++ joinSpace (w2 :: ws2) := rfl
        rw [this, List.getLast?_append, hlast]
        rfl
      rw [hJ]
      rfl

/-- `normalizeWhitespace` fixes a join of nonempty non-whitespace words. -/
theorem normWS_joinSpace (L : List (List Char))
    (h : ∀ w ∈ L, w ≠ [] ∧ ∀ c ∈ w, jsWhitespace c = false) (hne : L ≠ []) :
    (normWS ⟨joinSpace L⟩).data = joinSpace L := by
  show jsTrimL (collapseWsAux false (joinSpace L)) = joinSpace L
  rw [collapse_joinSpace L h false]
  rcases L with _ | ⟨w, ws⟩
  · exact absurd rfl hne
  · rcases h w (List.mem_cons_self _ _) with ⟨hw, hnw⟩
    apply jsTrimL_fix
    · intro c hc
      rw [joinSpace_head? ws hw] at hc
      exact hnw c (List.mem_of_mem_head? (by simpa using hc))
    · intro c hc
      rcases joinSpace_getLast (w :: ws) (fun v hv => (h v hv).1)
        (List.cons_ne_nil _ _) with ⟨c2, v, hlast, hv, hcv⟩
      rw [hlast] at hc
      have hcc : c2 = c := by simpa using hc
      exact hcc ▸ (h v hv).2 c2 hcv

/-- Splitting a space-free word gives that single segment. -/
theorem split_word :
    ∀ (w : List Char), ' ' ∉ w → splitOnChar ' ' w = [w] := by
  intro w
  induction w with
  | nil => intro _; rfl
  | cons c r ih =>
    intro h
    have hc : ¬c = ' ' := fun he => h (he ▸ List.mem_cons_self _ _)
    simp only [splitOnChar, hc, if_neg, if_false]
    rw [ih (fun hm => h (List.mem_cons_of_mem _ hm))]

/-- Splitting a space-free word, a space, and a remainder. -/
theorem split_word_append :
    ∀ (w t : List Char), ' ' ∉ w →
      splitOnChar ' ' (w ++ ' ' :: t) = w :: splitOnChar ' ' t := by
  intro w
  induction w with
  | nil => intro t _; simp [splitOnChar]
  | cons c r ih =>
    intro t h
    have hc : ¬c = ' ' := fun he => h (he ▸ List.mem_cons_self _ _)
    simp only [List.cons_append, splitOnChar, List.append_eq, hc, if_neg,
      if_false]
    rw [ih t (fun hm => h (List.mem_cons_of_mem _ hm))]

/-- Splitting inverts joining for space-free segments. -/
theorem split_join :
    ∀ (L : List (List Char)), L ≠ [] → (∀ w ∈ L, ' ' ∉ w) →
      splitOnChar ' ' (joinSpace L) = L := by
  intro L
  induction L with
  | nil => intro hne _; exact absurd rfl hne
  | cons w ws ih =>
    intro _ h
    cases ws with
    | nil => exact split_word w (h w (List.mem_cons_self _ _))
    | cons w2 ws2 =>
      show splitOnChar ' ' (w ++ ' ' :: joinSpace (w2 :: ws2)) =
        w :: w2 :: ws2
      rw [split_word_append _ _ (h w (List.mem_cons_self _ _)),
        ih (List.cons_ne_nil _ _) (fun v hv => h v (List.mem_cons_of_mem _ hv))]

/-! ## C7: supporting lemmas — identifier sources -/

/-- A parenthesized capture is an infix of the searched text. -/
theorem parenExec_within :
    ∀ {s r : List Char}, parenExec s = some r → r <:+: s := by
  intro s
  induction s with
  | nil => intro r h; simp [parenExec] at h
  | cons c rest ih =>
    intro r h
    rw [parenExec] at h
    by_cases hc : c = '('
    · simp only [hc, if_pos] at h
      split at h
      · rw [Option.some.injEq] at h
        rw [← h]
        exact ((List.takeWhile_prefix _).isInfix).trans ⟨[c], [], by simp⟩
      · exact (ih h).trans ⟨[c], [], by simp⟩
    · simp only [hc, if_neg, if_false] at h
      exact (ih h).trans ⟨[c], [], by simp⟩

/-- A bill-number capture always contains a digit. -/
theorem billAt_digit {s r : List Char} (h : billAt s = some r) :
    ∃ d ∈ r, d.isDigit = true := by
  have hds : ∀ {t ds : List Char}, billAt.billDigits t = some ds →
      ∃ d ∈ ds, d.isDigit = true := by
    intro t ds hd
    rw [billAt.billDigits] at hd
    split at hd
    · rw [Option.some.injEq] at hd
      next hcond =>
      rcases hh : t.takeWhile Char.isDigit with _ | ⟨d, ds2⟩
      · rw [hh] at hcond; simp at hcond
      · refine ⟨d, ?_, List.mem_takeWhile_imp (hh ▸ List.mem_cons_self d ds2)⟩
        rw [← hd, hh]
        exact List.mem_cons_self _ _
    · exact absurd hd (by simp)
  rw [billAt] at h
  split at h
  · exact absurd h (by simp)
  · dsimp only at h
    split at h
    · next r2 hsep =>
      rw [Option.some.injEq] at h
      split at hsep
      · next x rest2 hafter =>
        split at hsep
        · rcases hmap : billAt.billDigits rest2 with _ | ds
          · rw [hmap] at hsep; simp at hsep
          · rw [hmap] at hsep
            simp only [Option.map, Option.some.injEq] at hsep
            rcases hds hmap with ⟨d, hdm, hdd⟩
            refine ⟨d, ?_, hdd⟩
            rw [← h, ← hsep]
            exact List.mem_append_right _ (List.mem_cons_of_mem _ hdm)
        · exact absurd hsep (by simp)
      · exact absurd hsep (by simp)
    · rcases hmap : billAt.billDigits (List.drop _ s) with _ | ds
      · rw [hmap] at h; simp at h
      · rw [hmap] at h
        simp only [Option.map, Option.some.injEq] at h
        rcases hds hmap with ⟨d, hdm, hdd⟩
        refine ⟨d, ?_, hdd⟩
        rw [← h]
        exact List.mem_append_right _ hdm

/-- The leftmost bill capture comes from some `billAt` call. -/
theorem billExecFrom_billAt :
    ∀ {prev : Option Char} {s r : List Char},
      billExecFrom prev s = some r → ∃ t, billAt t = some r := by
  intro prev s
  induction s generalizing prev with
  | nil => intro r h; simp [billExecFrom] at h
  | cons c rest ih =>
    intro r h
    rw [billExecFrom] at h
    split at h
    · next hb => exact ⟨c :: rest, by split at hb <;> simp_all⟩
    · exact ih h

/-- `replaceLettersDigits` keeps every character of its input. -/
theorem replaceLettersDigits_mem :
    ∀ {l : List Char} {d : Char}, d ∈ l → d ∈ replaceLettersDigits l := by
  intro l
  induction l with
  | nil => intro d h; exact absurd h (by simp)
  | cons c rest ih =>
    intro d h
    rw [replaceLettersDigits]
    split
    · dsimp only
      split
      · have hsplit : c :: rest =
            (c :: rest).takeWhile Char.isAlpha ++
              (c :: rest).dropWhile Char.isAlpha :=
          (List.takeWhile_append_dropWhile _ _).symm
        rw [hsplit] at h
        rcases List.mem_append.mp h with h1 | h2
        · exact List.mem_append_left _ h1
        · have hsplit2 : (c :: rest).dropWhile Char.isAlpha =
              ((c :: rest).dropWhile Char.isAlpha).takeWhile Char.isDigit ++
                ((c :: rest).dropWhile Char.isAlpha).dropWhile Char.isDigit :=
            (List.takeWhile_append_dropWhile _ _).symm
          rw [hsplit2] at h2
          rcases List.mem_append.mp h2 with h3 | h4
          · exact List.mem_append_right _ (List.mem_cons_of_mem _
              (List.mem_append_left _ h3))
          · exact List.mem_append_right _ (List.mem_cons_of_mem _
              (List.mem_append_right _ h4))
      · rcases List.mem_cons.mp h with rfl | h2
        · exact List.mem_cons_self _ _
        · exact List.mem_cons_of_mem _ (ih h2)
    · rcases List.mem_cons.mp h with rfl | h2
      · exact List.mem_cons_self _ _
      · exact List.mem_cons_of_mem _ (ih h2)

/-- A normalized bill identifier is never `EU-DSA` (it keeps its digit). -/
theorem normalizeBillIdentifier_ne {s b : List Char}
    (h : billExec s = some b) :
    normalizeBillIdentifier ⟨b⟩ ≠ "EU-DSA" := by
  rcases billExecFrom_billAt h with ⟨t, ht⟩
  rcases billAt_digit ht with ⟨d, hdm, hdd⟩
  intro he
  have h1 : d ∈ (b.filter (fun c => c ≠ '.')).filter
      (fun c => !jsWhitespace c) := by
    rw [List.mem_filter, List.mem_filter]
    exact ⟨⟨hdm, by simp [digit_not_dot hdd]⟩, by simp [digit_not_ws hdd]⟩
  have h2 := replaceLettersDigits_mem h1
  have h3 : d ∈ (normalizeBillIdentifier ⟨b⟩).data := by
    show d ∈ (replaceLettersDigits _).map Char.toUpper
    rw [← digit_toUpper hdd]
    exact List.mem_map_of_mem Char.toUpper h2
  rw [he] at h3
  rw [show ("EU-DSA").data = ['E', 'U', '-', 'D', 'S', 'A'] from rfl] at h3
  simp only [List.mem_cons, List.not_mem_nil, or_false] at h3
  rcases h3 with rfl | rfl | rfl | rfl | rfl | rfl <;>
    exact absurd hdd (by decide)

/-- Lowercasing erases `replaceFirst` when pattern and replacement agree
up to case. -/
theorem replaceFirst_lower {pat rep : List Char}
    (h : lowerL rep = lowerL pat) :
    ∀ (w : List Char), lowerL (replaceFirst w pat rep) = lowerL w := by
  intro w
  induction w with
  | nil =>
    rw [replaceFirst]
    split
    · next hp =>
      have : pat = [] := List.prefix_nil.mp (List.isPrefixOf_iff_prefix.mp hp)
      rw [this] at h
      simpa using h
    · rfl
  | cons c rest ih =>
    rw [replaceFirst]
    split
    · next hp =>
      rcases List.isPrefixOf_iff_prefix.mp hp with ⟨t, hw⟩
      have hdrop : (c :: rest).drop pat.length = t := by
        rw [← hw, List.drop_left]
      rw [hdrop]
      show lowerL (rep ++ t) = lowerL (c :: rest)
      rw [← hw]
      show (rep ++ t).map Char.toLower = (pat ++ t).map Char.toLower
      rw [List.map_append, List.map_append]
      rw [show rep.map Char.toLower = lowerL rep from rfl,
        show pat.map Char.toLower = lowerL pat from rfl, h]
    · show (c :: replaceFirst rest pat rep).map Char.toLower = _
      rw [List.map_cons]
      rw [show (replaceFirst rest pat rep).map Char.toLower =
        lowerL (replaceFirst rest pat rep) from rfl, ih]
      rfl

/-- `capitalizeWord` only changes case. -/
theorem capitalizeWord_lower (w : List Char) :
    lowerL (capitalizeWord w) = lowerL w := by
  cases w with
  | nil => rfl
  | cons c rest =>
    show (c.toUpper :: rest.map Char.toLower).map Char.toLower = _
    rw [List.map_cons, List.map_map]
    show c.toUpper.toLower :: rest.map (Char.toLower ∘ Char.toLower) = _
    rw [toLower_toUpper]
    have : rest.map (Char.toLower ∘ Char.toLower) =
        rest.map Char.toLower :=
      List.map_congr_left (fun a _ => toLower_toLower a)
    rw [this]
    rfl

/-- The title-case word mapping only changes case. -/
theorem mapTitleWord_lower (i : Nat) (w : List Char) :
    lowerL (mapTitleWord i w) = lowerL w := by
  rw [mapTitleWord]
  split
  · rfl
  · dsimp only
    split
    · apply replaceFirst_lower
      show (List.map Char.toUpper _).map Char.toLower = _
      rw [List.map_map]
      exact List.map_congr_left (fun a _ => toLower_toUpper a)
    · split
      · apply replaceFirst_lower
        show (List.map Char.toLower _).map Char.toLower = _
        rw [List.map_map]
        exact List.map_congr_left (fun a _ => toLower_toLower a)
      · apply replaceFirst_lower
        exact capitalizeWord_lower _

/-- The title-case word mapping keeps words nonempty. -/
theorem mapTitleWord_ne_nil {i : Nat} {w : List Char} (hw : w ≠ []) :
    mapTitleWord i w ≠ [] := by
  intro he
  have := mapTitleWord_lower i w
  rw [he] at this
  have : w.map Char.toLower = [] := this.symm
  simp at this
  exact hw this

/-! ## C7: supporting lemmas — transport to the raw text -/

/-- A character lowering to a non-whitespace character is itself
non-whitespace. -/
theorem nonws_of_toLower {x c : Char} (h : x.toLower = c)
    (hc : jsWhitespace c = false) : jsWhitespace x = false := by
  by_cases hx : jsWhitespace x = true
  · rw [ws_toLower hx] at h
    rw [h] at hx
    rw [hx] at hc
    exact absurd hc (by simp)
  · simpa using hx

/-- Letters are not JavaScript whitespace. -/
theorem alpha_not_ws {c : Char} (h : c.isAlpha = true) :
    jsWhitespace c = false := by
  have hb : (65 ≤ c.toNat ∧ c.toNat ≤ 90) ∨
      (97 ≤ c.toNat ∧ c.toNat ≤ 122) := by
    simp only [Char.isAlpha, Char.isUpper, Char.isLower, Bool.or_eq_true,
      Bool.and_eq_true, decide_eq_true_eq] at h
    rcases h with ⟨h1, h2⟩ | ⟨h1, h2⟩
    · exact Or.inl ⟨by exact_mod_cast h1, by exact_mod_cast h2⟩
    · exact Or.inr ⟨by exact_mod_cast h1, by exact_mod_cast h2⟩
  simp only [jsWhitespace, Bool.or_eq_false_iff, decide_eq_false_iff_not,
    Bool.and_eq_false_iff]
  omega

/-- Whitespace characters surviving a collapse are the space. -/
theorem collapseWsAux_ws_mem :
    ∀ {b : Bool} {l : List Char} {c : Char}, c ∈ collapseWsAux b l →
      jsWhitespace c = true → c = ' ' := by
  intro b l
  induction l generalizing b with
  | nil => intro c h; simp [collapseWsAux] at h
  | cons d rest ih =>
    intro c h hws
    by_cases hd : jsWhitespace d = true
    · simp only [collapseWsAux, hd, if_pos] at h
      cases b with
      | true => exact ih (by simpa using h) hws
      | false =>
        rcases List.mem_cons.mp (by simpa using h) with rfl | h2
        · rfl
        · exact ih h2 hws
    · rw [collapseWsAux_cons_nonws (by simpa using hd)] at h
      rcases List.mem_cons.mp h with rfl | h2
      · rw [hws] at hd; exact absurd rfl hd
      · exact ih h2 hws

/-- Whitespace characters of a normalized string are the space. -/
theorem normWS_ws_mem {s : String} {c : Char}
    (h : c ∈ (normWS s).data) (hws : jsWhitespace c = true) : c = ' ' :=
  collapseWsAux_ws_mem
    ((jsTrimL_within (collapseWs s.data)).subset h) hws

/-- `findSome?` succeeds on a member. -/
theorem findSome?_some {α β : Type} {f : α → Option β} :
    ∀ {l : List α} {b : β}, l.findSome? f = some b →
      ∃ a ∈ l, f a = some b := by
  intro l
  induction l with
  | nil => intro b h; simp at h
  | cons a as ih =>
    intro b h
    rw [List.findSome?_cons] at h
    split at h
    · next heq => exact ⟨a, List.mem_cons_self _ _, by rw [heq, h]⟩
    · rcases ih h with ⟨a2, hm, he⟩
      exact ⟨a2, List.mem_cons_of_mem _ hm, he⟩

/-- `findIdx?` finds an index satisfying the predicate. -/
theorem findIdx?_found {α : Type} {p : α → Bool} {d : α} :
    ∀ {l : List α} {s i : Nat}, List.findIdx? p l s = some i →
      s ≤ i ∧ i - s < l.length ∧ p (l.getD (i - s) d) = true := by
  intro l
  induction l with
  | nil => intro s i h; simp [List.findIdx?] at h
  | cons x xs ih =>
    intro s i h
    rw [List.findIdx?_cons] at h
    split at h
    · next hp =>
      rw [Option.some.injEq] at h
      rw [← h]
      simp [hp]
    · rcases ih h with ⟨h1, h2, h3⟩
      refine ⟨by omega, by simp; omega, ?_⟩
      have : i - s = (i - (s + 1)) + 1 := by omega
      rw [this]
      simpa using h3

/-! ## C7: supporting lemmas — title case outputs -/

/-- The title-cased join of two or more nonempty whitespace-free words
contains a space. -/
theorem toLawTitleCase_has_space (L : List (List Char))
    (hL2 : 2 ≤ L.length)
    (h : ∀ w ∈ L, w ≠ [] ∧ ∀ c ∈ w, jsWhitespace c = false) :
    ' ' ∈ (toLawTitleCase ⟨joinSpace L⟩).data := by
  have hns : ∀ w ∈ L, ' ' ∉ w := by
    intro w hw hsp
    have := (h w hw).2 ' ' hsp
    simp [jsWhitespace] at this
  have hL : L ≠ [] := by intro he; rw [he] at hL2; simp at hL2
  show ' ' ∈ joinSpace (((splitOnChar ' '
    (normWS ⟨joinSpace L⟩).data).filter (fun w => w ≠ [])).mapIdx
      (fun i w => mapTitleWord i w))
  rw [normWS_joinSpace L h hL, split_join L hL hns]
  rw [List.filter_eq_self.mpr (fun w hw => by simp [(h w hw).1])]
  rcases L with _ | ⟨w1, L2⟩
  · simp at hL2
  rcases L2 with _ | ⟨w2, L3⟩
  · simp at hL2
  rw [List.mapIdx_cons, List.mapIdx_cons]
  exact List.mem_append_right _ (List.mem_cons_self _ _)

/-! ## C7: supporting lemmas — word-boundary completeness and
boundary-preserving decompositions -/

/-- A character lowering to `-` is not a word character. -/
theorem toLower_dash {c : Char} (h : c.toLower = '-') : isWordChar c = false := by
  by_cases hr : 65 ≤ c.toNat ∧ c.toNat ≤ 90
  · exfalso
    have hv : (Char.ofNat (c.toNat + 32)).toNat = c.toNat + 32 :=
      charToNat_ofNat (by omega)
    have h2 : c.toLower.toNat = c.toNat + 32 := by
      unfold Char.toLower
      rw [if_pos (by exact ⟨by omega, by omega⟩)]
      exact hv
    rw [h] at h2
    have h3 : ('-').toNat = 45 := by decide
    omega
  · have hc : c = '-' := by rw [← toLower_eq_self_of_high hr, h]
    subst hc
    decide

/-- Whitespace characters are not word characters. -/
theorem ws_not_wordChar {c : Char} (h : jsWhitespace c = true) :
    isWordChar c = false := by
  rw [isWordChar]
  have ha : c.isAlpha = false := by
    by_cases hh : c.isAlpha = true
    · rw [alpha_not_ws hh] at h; exact absurd h (by simp)
    · simpa using hh
  have hd : c.isDigit = false := by
    by_cases hh : c.isDigit = true
    · rw [digit_not_ws hh] at h; exact absurd h (by simp)
    · simpa using hh
  simp only [ha, hd, Bool.false_or, decide_eq_false_iff_not]
  rintro rfl
  exact absurd h (by decide)

/-- The character preceding a position after scanning a list. -/
def lastOr (prev : Option Char) : List Char → Option Char
  | [] => prev
  | c :: cs => lastOr (some c) cs

theorem lastOr_concat {p : List Char} {c : Char} :
    ∀ {prev : Option Char}, lastOr prev (p ++ [c]) = some c := by
  induction p with
  | nil => intro prev; rfl
  | cons d ds ih => intro prev; exact ih

/-- With positive fuel, no tokens match with the whole input left over. -/
theorem matchToksF_nil_succ (ci : Bool) (fuel : Nat) (s : List Char) :
    matchToksF ci (fuel + 1) [] s = [s] := rfl

/-- A matching literal character consumes one token and one character. -/
theorem matchToksF_ch_succ {ci : Bool} {c x : Char} {ts : List RTok}
    {s : List Char} (fuel : Nat) (h : cmpChar ci x c = true) :
    matchToksF ci (fuel + 1) (RTok.ch c :: ts) (x :: s) =
      matchToksF ci fuel ts s := by
  simp [matchToksF, h]

/-- `eu` matches its own case-folded occurrence, leaving the tail. -/
theorem matchToks_eu {x y : Char} {post : List Char}
    (hx : x.toLower = 'e') (hy : y.toLower = 'u') :
    matchToks true (lit "eu") (x :: y :: post) = [post] := by
  have hcx : cmpChar true x 'e' = true := by simp [cmpChar, hx]
  have hcy : cmpChar true y 'u' = true := by simp [cmpChar, hy]
  have hlit : lit "eu" = [RTok.ch 'e', RTok.ch 'u'] := rfl
  rw [matchToks, hlit]
  have hlen : (x :: y :: post).length + [RTok.ch 'e', RTok.ch 'u'].length + 1 =
      (post.length + 4) + 1 := by
    simp
  rw [hlen]
  have s1 : matchToksF true (post.length + 4 + 1) [RTok.ch 'e', RTok.ch 'u']
      (x :: y :: post) = matchToksF true (post.length + 4) [RTok.ch 'u']
      (y :: post) := matchToksF_ch_succ (post.length + 4) hcx
  have s2 : matchToksF true (post.length + 3 + 1) [RTok.ch 'u'] (y :: post) =
      matchToksF true (post.length + 3) [] post :=
    matchToksF_ch_succ (post.length + 3) hcy
  rw [s1, show post.length + 4 = post.length + 3 + 1 from rfl, s2]
  exact matchToksF_nil_succ true (post.length + 2) post

/-- The word-boundary scan succeeds once some boundary position matches. -/
theorem reTestWBFrom_found {ci : Bool} {toks : List RTok} :
    ∀ {pre : List Char} {prev : Option Char} {rest : List Char},
      boundaryOK (lastOr prev pre) = true →
      (matchToks ci toks rest).any boundaryAfter = true →
      reTestWBFrom ci toks prev (pre ++ rest) = true := by
  intro pre
  induction pre with
  | nil =>
    intro prev rest h1 h2
    have h1' : boundaryOK prev = true := h1
    cases rest with
    | nil => simp [reTestWBFrom, h1', h2]
    | cons x s => simp [reTestWBFrom, h1', h2]
  | cons c cs ih =>
    intro prev rest h1 h2
    have h1' : boundaryOK (lastOr (some c) cs) = true := h1
    show reTestWBFrom ci toks prev (c :: (cs ++ rest)) = true
    rw [reTestWBFrom]
    rw [ih h1' h2]
    simp

/-- Completeness of the `\beu\b` test: a case-folded occurrence of `eu`
preceded by the start or a non-word character and followed by a non-word
position makes the test succeed. -/
theorem reTestWB_eu_found {n pre post : List Char} {x y : Char}
    (hn : n = pre ++ x :: y :: post)
    (hpre : pre = [] ∨ ∃ p c, pre = p ++ [c] ∧ isWordChar c = false)
    (hx : x.toLower = 'e') (hy : y.toLower = 'u')
    (hpost : boundaryAfter post = true) :
    reTestWB true (lit "eu") n = true := by
  rw [reTestWB, hn]
  apply reTestWBFrom_found
  · rcases hpre with rfl | ⟨p, c, rfl, hc⟩
    · simp [lastOr, boundaryOK]
    · rw [lastOr_concat]
      simp [boundaryOK, hc]
  · rw [matchToks_eu hx hy]
    simp [hpost]

/-- If no EU-context word test fires, the `\beu\b` test is negative. -/
theorem reTestAny_eu_false {n : List Char}
    (h : reTestAnyWB true euContextAlts n = false) :
    reTestWB true (lit "eu") n = false := by
  rw [reTestAnyWB, euContextAlts] at h
  simp only [List.any_cons, Bool.or_eq_false_iff] at h
  exact h.1

/-- A split is never empty. -/
theorem splitOnChar_ne_nil {sep : Char} (l : List Char) :
    splitOnChar sep l ≠ [] := by
  cases l with
  | nil => simp [splitOnChar]
  | cons c rest =>
    simp only [splitOnChar]
    split
    · simp
    · split <;> simp

/-- The head segment of a split is an initial segment, followed by the
separator or nothing. -/
theorem splitOnChar_head_decomp {sep : Char} :
    ∀ {l w : List Char} {ws : List (List Char)},
      splitOnChar sep l = w :: ws →
      ∃ post, l = w ++ post ∧ (post = [] ∨ ∃ p2, post = sep :: p2) := by
  intro l
  induction l with
  | nil =>
    intro w ws h
    simp [splitOnChar] at h
    exact ⟨[], by simp [h.1], Or.inl rfl⟩
  | cons c rest ih =>
    intro w ws h
    simp only [splitOnChar] at h
    by_cases hc : c = sep
    · simp only [hc, if_pos] at h
      rw [List.cons.injEq] at h
      refine ⟨sep :: rest, ?_, Or.inr ⟨rest, rfl⟩⟩
      rw [← h.1, hc]
      rfl
    · simp only [hc, if_neg, if_false] at h
      rcases hr : splitOnChar sep rest with _ | ⟨w0, ws0⟩
      · rw [hr] at h
        rw [List.cons.injEq] at h
        refine ⟨rest, ?_, ?_⟩
        · rw [← h.1]; rfl
        · exact absurd hr (splitOnChar_ne_nil rest)
      · rw [hr] at h
        rw [List.cons.injEq] at h
        rcases ih hr with ⟨post, hp1, hp2⟩
        refine ⟨post, ?_, hp2⟩
        rw [← h.1, hp1]
        rfl

/-- Every non-head segment of a split is immediately preceded by the
separator. -/
theorem splitOnChar_tail_decomp {sep : Char} :
    ∀ {l w w0 : List Char} {ws : List (List Char)},
      splitOnChar sep l = w0 :: ws → w ∈ ws →
      ∃ pre post, l = pre ++ sep :: (w ++ post) := by
  intro l
  induction l with
  | nil =>
    intro w w0 ws h hm
    simp [splitOnChar] at h
    rw [h.2] at hm
    simp at hm
  | cons c rest ih =>
    intro w w0 ws h hm
    simp only [splitOnChar] at h
    by_cases hc : c = sep
    · simp only [hc, if_pos] at h
      rw [List.cons.injEq] at h
      rw [← h.2] at hm
      rcases hr : splitOnChar sep rest with _ | ⟨w1, ws1⟩
      · rw [hr] at hm; simp at hm
      · rw [hr] at hm
        rcases List.mem_cons.mp hm with rfl | hm2
        · rcases splitOnChar_head_decomp hr with ⟨post, hp1, hp2⟩
          exact ⟨[], post, by rw [hc, hp1]; rfl⟩
        · rcases ih hr hm2 with ⟨pre, post, hp⟩
          exact ⟨c :: pre, post, by rw [hp]; rfl⟩
    · simp only [hc, if_neg, if_false] at h
      rcases hr : splitOnChar sep rest with _ | ⟨w1, ws1⟩
      · rw [hr] at h
        rw [List.cons.injEq] at h
        rw [← h.2] at hm
        simp at hm
      · rw [hr] at h
        rw [List.cons.injEq] at h
        rw [← h.2] at hm
        rcases ih hr hm with ⟨pre, post, hp⟩
        exact ⟨c :: pre, post, by rw [hp]; rfl⟩

/-- Every segment of a split occurs in the list, preceded by the start or
by the separator. -/
theorem splitOnChar_mem_decomp {sep : Char} {l w : List Char}
    (h : w ∈ splitOnChar sep l) :
    ∃ pre post, l = pre ++ w ++ post ∧
      (pre = [] ∨ ∃ p2, pre = p2 ++ [sep]) := by
  rcases hr : splitOnChar sep l with _ | ⟨w0, ws0⟩
  · rw [hr] at h; simp at h
  · rw [hr] at h
    rcases List.mem_cons.mp h with rfl | hm
    · rcases splitOnChar_head_decomp hr with ⟨post, hp1, hp2⟩
      exact ⟨[], post, by simpa using hp1, Or.inl rfl⟩
    · rcases splitOnChar_tail_decomp hr hm with ⟨pre, post, hp⟩
      refine ⟨pre ++ [sep], post, ?_, Or.inr ⟨pre, rfl⟩⟩
      rw [hp]
      simp

/-- Splitting a cons off a concat-with-singleton. -/
theorem cons_concat_cases {α : Type} {c d : α} {L p : List α}
    (h : c :: L = p ++ [d]) :
    (L = [] ∧ c = d) ∨ ∃ p2, L = p2 ++ [d] := by
  cases p with
  | nil =>
    simp only [List.nil_append, List.cons.injEq] at h
    exact Or.inl ⟨h.2, h.1⟩
  | cons e p2 =>
    simp only [List.cons_append, List.cons.injEq] at h
    exact Or.inr ⟨p2, h.2⟩

/-- Trimming removes a whitespace prefix and a whitespace suffix. -/
theorem jsTrimL_decomp (l : List Char) :
    ∃ A B, l = A ++ jsTrimL l ++ B ∧
      (∀ c ∈ A, jsWhitespace c = true) ∧
      (∀ c ∈ B, jsWhitespace c = true) := by
  refine ⟨l.takeWhile jsWhitespace,
    ((l.dropWhile jsWhitespace).reverse.takeWhile jsWhitespace).reverse,
    ?_, ?_, ?_⟩
  · rw [jsTrimL]
    conv_lhs => rw [← List.takeWhile_append_dropWhile jsWhitespace l]
    rw [List.append_assoc]
    congr 1
    have h2 := List.takeWhile_append_dropWhile jsWhitespace
      (l.dropWhile jsWhitespace).reverse
    have h3 := congrArg List.reverse h2.symm
    rw [List.reverse_append] at h3
    rw [List.reverse_reverse] at h3
    exact h3
  · intro c hc
    exact List.mem_takeWhile_imp hc
  · intro c hc
    exact List.mem_takeWhile_imp (List.mem_reverse.mp hc)

/-- A non-whitespace prefix of a collapse output is a prefix of the
input. -/
theorem collapseWsAux_start_undo :
    ∀ {wr : List Char}, (∀ c ∈ wr, jsWhitespace c = false) →
      ∀ {l rest1 : List Char}, collapseWsAux false l = wr ++ rest1 →
      ∃ rest2, l = wr ++ rest2 ∧ collapseWsAux false rest2 = rest1 := by
  intro wr
  induction wr with
  | nil => intro _ l rest1 h; exact ⟨l, rfl, by simpa using h⟩
  | cons d ds ih =>
    intro hwf l rest1 h
    cases l with
    | nil =>
      rw [collapseWsAux] at h
      exact absurd h.symm (by simp)
    | cons x xs =>
      by_cases hx : jsWhitespace x = true
      · exfalso
        simp only [collapseWsAux, hx, if_true, Bool.false_eq_true, if_false,
          List.cons_append, List.cons.injEq] at h
        have := hwf d (List.mem_cons_self _ _)
        rw [← h.1] at this
        exact absurd this (by decide)
      · have hxf : jsWhitespace x = false := by simpa using hx
        rw [collapseWsAux_cons_nonws hxf] at h
        simp only [List.cons_append, List.cons.injEq] at h
        rcases ih (fun c hc => hwf c (List.mem_cons_of_mem _ hc)) h.2 with
          ⟨rest2, h1, h2⟩
        refine ⟨rest2, ?_, h2⟩
        rw [h.1, h1]
        rfl

/-- An occurrence of a whitespace-free token in a collapse output,
preceded by the start or a whitespace, comes from such an occurrence in
the input. -/
theorem collapseWsAux_token_decomp {w : List Char} (hw : w ≠ [])
    (hwf : ∀ c ∈ w, jsWhitespace c = false) :
    ∀ {l : List Char} {b : Bool} {pre post : List Char},
      collapseWsAux b l = pre ++ w ++ post →
      (pre = [] ∨ ∃ p c, pre = p ++ [c] ∧ jsWhitespace c = true) →
      ∃ pre2 post2, l = pre2 ++ w ++ post2 ∧
        ((pre2 = [] ∧ pre = []) ∨
          ∃ p c, pre2 = p ++ [c] ∧ jsWhitespace c = true) := by
  intro l
  induction l with
  | nil =>
    intro b pre post h hpre
    exfalso
    rw [collapseWsAux] at h
    rcases List.append_eq_nil.mp h.symm with ⟨h1, h2⟩
    rcases List.append_eq_nil.mp h1 with ⟨h3, h4⟩
    exact hw h4
  | cons c rest ih =>
    intro b pre post h hpre
    by_cases hc : jsWhitespace c = true
    · cases b with
      | true =>
        simp only [collapseWsAux, hc, if_true] at h
        rcases ih h hpre with ⟨pre2, post2, h1, h2⟩
        refine ⟨c :: pre2, post2, by rw [h1]; rfl, Or.inr ?_⟩
        rcases h2 with ⟨rfl, _⟩ | ⟨p, d, rfl, hd⟩
        · exact ⟨[], c, rfl, hc⟩
        · exact ⟨c :: p, d, rfl, hd⟩
      | false =>
        simp only [collapseWsAux, hc, if_true, Bool.false_eq_true,
          if_false] at h
        cases pre with
        | nil =>
          exfalso
          cases w with
          | nil => exact hw rfl
          | cons wc wrest =>
            simp only [List.nil_append, List.cons_append,
              List.cons.injEq] at h
            have := hwf wc (List.mem_cons_self _ _)
            rw [← h.1] at this
            exact absurd this (by decide)
        | cons p0 pre1 =>
          simp only [List.cons_append, List.cons.injEq] at h
          have hpre1 : pre1 = [] ∨
              ∃ p c2, pre1 = p ++ [c2] ∧ jsWhitespace c2 = true := by
            rcases hpre with hno | ⟨p, d, hpd, hd⟩
            · exact absurd hno (by simp)
            · rcases cons_concat_cases hpd with ⟨hnil, _⟩ | ⟨p2, hp2⟩
              · exact Or.inl hnil
              · exact Or.inr ⟨p2, d, hp2, hd⟩
          rcases ih h.2 hpre1 with ⟨pre2, post2, h1, h2⟩
          refine ⟨c :: pre2, post2, by rw [h1]; rfl, Or.inr ?_⟩
          rcases h2 with ⟨rfl, _⟩ | ⟨p, d, rfl, hd⟩
          · exact ⟨[], c, rfl, hc⟩
          · exact ⟨c :: p, d, rfl, hd⟩
    · have hcf : jsWhitespace c = false := by simpa using hc
      rw [collapseWsAux_cons_nonws hcf] at h
      cases pre with
      | nil =>
        cases w with
        | nil => exact absurd rfl hw
        | cons wc wrest =>
          simp only [List.nil_append, List.cons_append,
            List.cons.injEq] at h
          rcases collapseWsAux_start_undo
              (fun d hd => hwf d (List.mem_cons_of_mem _ hd)) h.2 with
            ⟨rest2, hr1, hr2⟩
          refine ⟨[], rest2, ?_, Or.inl ⟨rfl, rfl⟩⟩
          rw [h.1, hr1]
          rfl
      | cons p0 pre1 =>
        simp only [List.cons_append, List.cons.injEq] at h
        have hpre1 : pre1 = [] ∨
            ∃ p c2, pre1 = p ++ [c2] ∧ jsWhitespace c2 = true := by
          rcases hpre with hno | ⟨p, d, hpd, hd⟩
          · exact absurd hno (by simp)
          · rcases cons_concat_cases hpd with ⟨hnil, heq⟩ | ⟨p2, hp2⟩
            · exact Or.inl hnil
            · exact Or.inr ⟨p2, d, hp2, hd⟩
        rcases ih h.2 hpre1 with ⟨pre2, post2, h1, h2⟩
        rcases h2 with ⟨rfl, rfl⟩ | ⟨p, d, hp2, hd⟩
        · exfalso
          rcases hpre with hno | ⟨p, d, hpd, hd⟩
          · exact absurd hno (by simp)
          · rcases cons_concat_cases hpd with ⟨_, heq⟩ | ⟨p2, hp2⟩
            · rw [← heq, ← h.1] at hd
              rw [hd] at hcf
              exact absurd hcf (by simp)
            · exact absurd hp2 (by simp)
        · refine ⟨c :: pre2, post2, by rw [h1]; rfl,
            Or.inr ⟨c :: p, d, by rw [hp2]; rfl, hd⟩⟩

/-- An occurrence of a whitespace-free token in a whitespace-normalized
string, preceded by the start or a space, comes from an occurrence in the
source preceded by the start or a whitespace character. -/
theorem normWS_token_decomp {s : String} {w pre post : List Char}
    (hw : w ≠ []) (hwf : ∀ c ∈ w, jsWhitespace c = false)
    (h : (normWS s).data = pre ++ w ++ post)
    (hpre : pre = [] ∨ ∃ p2, pre = p2 ++ [' ']) :
    ∃ pre2 post2, s.data = pre2 ++ w ++ post2 ∧
      (pre2 = [] ∨ ∃ p c, pre2 = p ++ [c] ∧ jsWhitespace c = true) := by
  rcases jsTrimL_decomp (collapseWs s.data) with ⟨A, B, hAB, hA, hB⟩
  have hcol : collapseWsAux false s.data = (A ++ pre) ++ w ++ (post ++ B) := by
    show collapseWs s.data = _
    conv_lhs => rw [hAB]
    rw [show jsTrimL (collapseWs s.data) = (normWS s).data from rfl, h]
    simp
  have hpre2 : (A ++ pre) = [] ∨
      ∃ p c, A ++ pre = p ++ [c] ∧ jsWhitespace c = true := by
    rcases hpre with rfl | ⟨p2, rfl⟩
    · rcases List.eq_nil_or_concat A with rfl | ⟨q, d, rfl⟩
      · exact Or.inl rfl
      · exact Or.inr ⟨q, d, by simp, hA d (by simp)⟩
    · exact Or.inr ⟨A ++ p2, ' ', by simp, by decide⟩
  rcases collapseWsAux_token_decomp hw hwf hcol hpre2 with
    ⟨pre2, post2, h1, h2⟩
  refine ⟨pre2, post2, h1, ?_⟩
  rcases h2 with ⟨hn, _⟩ | h2
  · exact Or.inl hn
  · exact Or.inr h2

/-- Dropping the matched prefix length is `dropWhile`. -/
theorem drop_takeWhile_len {p : Char → Bool} (l : List Char) :
    l.drop (l.takeWhile p).length = l.dropWhile p := by
  induction l with
  | nil => rfl
  | cons c rest ih =>
    by_cases hc : p c = true
    · rw [List.takeWhile_cons_of_pos hc, List.dropWhile_cons_of_pos hc]
      simpa using ih
    · have hcf : p c = false := by simpa using hc
      rw [List.takeWhile_cons_of_neg (by simp [hcf]),
        List.dropWhile_cons_of_neg (by simp [hcf])]
      rfl

/-- A parenthesized-identifier capture occurs between literal
parentheses. -/
theorem parenExec_decomp :
    ∀ {s q : List Char}, parenExec s = some q →
      ∃ pre post, s = pre ++ '(' :: (q ++ ')' :: post) := by
  intro s
  induction s with
  | nil => intro q h; simp [parenExec] at h
  | cons c rest ih =>
    intro q h
    rw [parenExec] at h
    by_cases hc : c = '('
    · simp only [hc, if_pos] at h
      split at h
      · next hcond =>
        rw [Option.some.injEq] at h
        simp only [Bool.and_eq_true] at hcond
        obtain ⟨hrest, hd⟩ := hcond
        split at hd
        · next tail heq =>
          rw [drop_takeWhile_len] at heq
          have hAB := List.takeWhile_append_dropWhile (fun d =>
            d.isUpper || d.isDigit || d = '-' || d = '.') rest
          refine ⟨[], tail, ?_⟩
          rw [← h, hc, List.nil_append]
          congr 1
          rw [← heq]
          exact hAB.symm
        · exact absurd hd (by simp)
      · rcases ih h with ⟨pre, post, hp⟩
        exact ⟨c :: pre, post, by rw [hp]; rfl⟩
    · simp only [hc, if_neg, if_false] at h
      rcases ih h with ⟨pre, post, hp⟩
      exact ⟨c :: pre, post, by rw [hp]; rfl⟩

/-- Quote normalization only rewrites to the two ASCII quote
characters. -/
theorem quoteNormChar_stable {z a : Char} (h1 : z ≠ '"')
    (h2 : z ≠ Char.ofNat 39) (h : quoteNormChar a = z) : a = z := by
  rw [quoteNormChar] at h
  split at h
  · exact absurd h.symm h1
  · split at h
    · exact absurd h.symm h2
    · exact h

/-- If title-casing yields exactly `EU-DSA`, the normalized source was a
single token case-folding to `eu-dsa`, preceded by the start or a
space. -/
theorem toLawTitleCase_eu_dsa {value : String}
    (h : (toLawTitleCase value).data = "EU-DSA".data) :
    ∃ w pre post, (normWS value).data = pre ++ w ++ post ∧
      (pre = [] ∨ ∃ p2, pre = p2 ++ [' ']) ∧
      lowerL w = "eu-dsa".data := by
  have h2 : joinSpace (((splitOnChar ' '
      (normWS value).data).filter (fun w => w ≠ [])).mapIdx
        (fun i w => mapTitleWord i w)) = "EU-DSA".data := h
  rcases hw : (splitOnChar ' ' (normWS value).data).filter
      (fun w => w ≠ []) with _ | ⟨w1, ws1⟩
  · rw [hw] at h2
    simp [joinSpace] at h2
  rcases ws1 with _ | ⟨w2, ws2⟩
  · rw [hw, List.mapIdx_cons] at h2
    have h3 : mapTitleWord 0 w1 = "EU-DSA".data := by
      simpa [joinSpace] using h2
    have h4 : lowerL w1 = "eu-dsa".data := by
      rw [← mapTitleWord_lower 0 w1, h3]
      decide
    have hmem : w1 ∈ splitOnChar ' ' (normWS value).data := by
      have := hw ▸ List.mem_cons_self w1 ([] : List (List Char))
      exact (List.mem_filter.mp this).1
    rcases splitOnChar_mem_decomp hmem with ⟨pre, post, hd1, hd2⟩
    exact ⟨w1, pre, post, hd1, hd2, h4⟩
  · rw [hw, List.mapIdx_cons, List.mapIdx_cons] at h2
    have : ' ' ∈ "EU-DSA".data := by
      rw [← h2]
      exact List.mem_append_right _ (List.mem_cons_self _ _)
    exact absurd this (by decide)

/-! ## C7: the identifier `EU-DSA` requires an EU marker -/

/-- A bill-only explicit capture never yields `EU-DSA`. -/
theorem tokenIsKeyword_nonempty {w : List Char}
    (h : tokenIsKeyword w = true) : lettersOnly w ≠ [] := by
  intro he
  rw [tokenIsKeyword, List.any_eq_true] at h
  rcases h with ⟨kw, hkw, heq⟩
  rw [he] at heq
  simp only [decide_eq_true_eq, List.map_nil] at heq
  have : kw.data = [] := by
    have := congrArg List.length heq
    simpa using (List.length_eq_zero.mp this.symm)
  have hkw0 : kw = "" := by
    cases kw
    simpa [String.ext_iff] using this
  rw [hkw0] at hkw
  exact absurd hkw (by decide)

/-- The boundary contradiction at the heart of the fallback case: a token
case-folding to `eu-dsa` placed after a non-alphanumeric prefix and a
space-or-start position contradicts the negative `\beu\b` test unless an
underscore immediately precedes it. -/
theorem eu_dsa_boundary_contra {base A pre2 w post3 : List Char}
    {x y z : Char} {w3 : List Char}
    (hfinal : base = (A ++ pre2) ++ w ++ post3)
    (hA : ∀ c ∈ A, (c.isAlpha || c.isDigit) = false)
    (hpre2 : pre2 = [] ∨ ∃ p c, pre2 = p ++ [c] ∧ jsWhitespace c = true)
    (hw : w = x :: y :: z :: w3)
    (hx : x.toLower = 'e') (hy : y.toLower = 'u') (hz : z.toLower = '-')
    (heu : reTestWB true (lit "eu") base = false)
    (hu : listIncludes ['_', 'e', 'u'] (lowerL base) = false) :
    False := by
  have hafter : boundaryAfter (z :: (w3 ++ post3)) = true := by
    simp only [boundaryAfter, toLower_dash hz]
    rfl
  rcases hpre2 with rfl | ⟨p, cw, rfl, hcw⟩
  · rcases List.eq_nil_or_concat A with rfl | ⟨qA, d, hAq⟩
    · have hn : base = [] ++ x :: y :: (z :: (w3 ++ post3)) := by
        rw [hfinal, hw]
        simp
      have hfound : reTestWB true (lit "eu") base = true :=
        reTestWB_eu_found hn (Or.inl rfl) hx hy hafter
      rw [hfound] at heu
      exact absurd heu (by simp)
    · by_cases hd9 : d = '_'
      · have hinf : ['_', x, y] <:+: base := by
          refine ⟨qA, z :: w3 ++ post3, ?_⟩
          rw [hfinal, hAq, hw, hd9]
          simp
        have h95 : Char.toLower '_' = '_' := by decide
        have hinc : listIncludes ['_', 'e', 'u'] (lowerL base) = true := by
          rw [listIncludes_correct, lowerL]
          have hmap := hinf.map Char.toLower
          simpa [hx, hy, h95] using hmap
        rw [hinc] at hu
        exact absurd hu (by simp)
      · have hdw : isWordChar d = false := by
          have hd2 : (d.isAlpha || d.isDigit) = false :=
            hA d (by rw [hAq]; simp)
          rw [isWordChar]
          simp only [Bool.or_eq_false_iff, decide_eq_false_iff_not]
          exact ⟨by simpa [Bool.or_eq_false_iff] using hd2, hd9⟩
        have hn : base = (qA ++ [d]) ++ x :: y :: (z :: (w3 ++ post3)) := by
          rw [hfinal, hAq, hw]
          simp
        have hfound : reTestWB true (lit "eu") base = true :=
          reTestWB_eu_found hn (Or.inr ⟨qA, d, rfl, hdw⟩) hx hy hafter
        rw [hfound] at heu
        exact absurd heu (by simp)
  · have hn : base = ((A ++ p) ++ [cw]) ++ x :: y :: (z :: (w3 ++ post3)) := by
      rw [hfinal, hw]
      simp
    have hfound : reTestWB true (lit "eu") base = true :=
      reTestWB_eu_found hn
        (Or.inr ⟨A ++ p, cw, rfl, ws_not_wordChar hcw⟩) hx hy hafter
    rw [hfound] at heu
    exact absurd heu (by simp)

/-- The fallback namer yields `EU-DSA` only if the title holds an `eu`
word marker or an `eu` directly preceded by an underscore. -/
theorem fallbackLawName_ne {input : CanonicalLawInput}
    (heu : reTestWB true (lit "eu") (normWS input.title).data = false)
    (hu : listIncludes ['_', 'e', 'u']
      (lowerL (normWS input.title).data) = false) :
    (fallbackLawName input).lawIdentifier ≠ "EU-DSA" := by
  rw [fallbackLawName]
  dsimp only
  split_ifs with hf1 hf2 hf3 hf4
  · decide
  · decide
  · decide
  · decide
  · intro he
    rcases toLawTitleCase_eu_dsa (congrArg String.data he) with
      ⟨w, pre, post, hdec, hpre, hlow⟩
    have hwne : w ≠ [] := by
      intro hnil
      rw [hnil] at hlow
      simp [lowerL] at hlow
    have hwf : ∀ c ∈ w, jsWhitespace c = false := by
      intro c hcw
      have hmem : c.toLower ∈ ("eu-dsa").data := by
        rw [← hlow]
        exact List.mem_map_of_mem Char.toLower hcw
      have hall : ∀ d ∈ ("eu-dsa").data, jsWhitespace d = false := by decide
      exact nonws_of_toLower rfl (hall _ hmem)
    rcases normWS_token_decomp hwne hwf hdec hpre with ⟨pre2, post2, hj, hpre2⟩
    have hj2 : joinSpace ((splitOnChar ' '
        (((normWS input.title).data.dropWhile
          (fun c => !(c.isAlpha || c.isDigit))).takeWhile
          (fun c => !(c = '.' || c = '!' || c = '?')))).take 7) =
        pre2 ++ w ++ post2 := hj
    rcases joinSpace_take_split_prefix
        (l := ((normWS input.title).data.dropWhile
          (fun c => !(c.isAlpha || c.isDigit))).takeWhile
          (fun c => !(c = '.' || c = '!' || c = '?'))) (k := 7) with
      ⟨trail, htrail⟩
    have hbase : (normWS input.title).data =
        (normWS input.title).data.takeWhile
          (fun c => !(c.isAlpha || c.isDigit)) ++
        ((((normWS input.title).data.dropWhile
            (fun c => !(c.isAlpha || c.isDigit))).takeWhile
            (fun c => !(c = '.' || c = '!' || c = '?'))) ++
         (((normWS input.title).data.dropWhile
            (fun c => !(c.isAlpha || c.isDigit))).dropWhile
            (fun c => !(c = '.' || c = '!' || c = '?')))) := by
      rw [List.takeWhile_append_dropWhile, List.takeWhile_append_dropWhile]
    have hfinal : (normWS input.title).data =
        (((normWS input.title).data.takeWhile
          (fun c => !(c.isAlpha || c.isDigit))) ++ pre2) ++ w ++
        ((post2 ++ trail) ++
         (((normWS input.title).data.dropWhile
            (fun c => !(c.isAlpha || c.isDigit))).dropWhile
            (fun c => !(c = '.' || c = '!' || c = '?')))) := by
      conv_lhs => rw [hbase]
      rw [← htrail, hj2]
      simp
    have hpl : ("eu-dsa").data = 'e' :: 'u' :: '-' ::
        ('d' :: 's' :: 'a' :: []) := rfl
    rw [lowerL, hpl] at hlow
    rcases List.map_eq_cons_iff.mp hlow with ⟨x, w1, hw1, hx, hlow1⟩
    rcases List.map_eq_cons_iff.mp hlow1 with ⟨y, w2, hw2, hy, hlow2⟩
    rcases List.map_eq_cons_iff.mp hlow2 with ⟨z, w3, hw3, hz, hlow3⟩
    have hweq : w = x :: y :: z :: w3 := by
      rw [hw1, hw2, hw3]
    refine eu_dsa_boundary_contra hfinal ?_ hpre2 hweq hx hy hz heu hu
    intro c hcA
    have := List.mem_takeWhile_imp hcA
    simpa using this

set_option maxHeartbeats 1000000 in
theorem extractKnownLawAlias_ne {t country : String} {p : ParsedLaw}
    (h1 : reTestWB true (phrase ["digital", "services", "act"])
      (normWS t).data = false)
    (h2 : reTestAnyWB true euContextAlts (normWS t).data = false)
    (ha : extractKnownLawAlias t country = some p) :
    p.lawIdentifier ≠ "EU-DSA" := by
  rw [extractKnownLawAlias] at ha
  dsimp only at ha
  split_ifs at ha with hA hB hC hD hE hF hG hH hI hJ hK
  · rw [Option.some.injEq] at ha; rw [← ha]; decide
  · rw [Option.some.injEq] at ha; rw [← ha]; decide
  · rw [Option.some.injEq] at ha; rw [← ha]; decide
  · rw [Option.some.injEq] at ha; rw [← ha]; decide
  · rw [h1, h2] at hE; simp at hE
  · rw [Option.some.injEq] at ha; rw [← ha]; decide
  · rw [Option.some.injEq] at ha; rw [← ha]; decide
  · rw [Option.some.injEq] at ha; rw [← ha]; decide
  · rw [Option.some.injEq] at ha; rw [← ha]; decide
  · rw [Option.some.injEq] at ha; rw [← ha]; decide
  · rw [Option.some.injEq] at ha; rw [← ha]; decide

/-- Words of the token list of a capture are nonempty and
whitespace-free. -/
theorem tokens_word_ok {capture w : List Char}
    (hw : w ∈ List.filter (fun v => !v.isEmpty)
      (splitOnChar ' ' (normWS (⟨capture⟩ : String)).data)) :
    w ≠ [] ∧ ∀ c ∈ w, jsWhitespace c = false := by
  rcases List.mem_filter.mp hw with ⟨hmem, hne⟩
  constructor
  · intro he; rw [he] at hne; simp at hne
  · intro c hcw
    by_contra hcon
    have hws : jsWhitespace c = true := by simpa using hcon
    have hsp : c = ' ' :=
      normWS_ws_mem ((splitOnChar_mem_within hmem).subset hcw) hws
    exact splitOnChar_sep_not_mem hmem (hsp ▸ hcw)

/-- The keyword token of a capture is nonempty and whitespace-free. -/
theorem keyword_word_ok {tokens : List (List Char)} {kidx : Nat}
    (hidx : tokens.findIdx? tokenIsKeyword = some kidx) :
    lettersOnly (tokens.getD kidx []) ≠ [] ∧
      ∀ c ∈ lettersOnly (tokens.getD kidx []),
        jsWhitespace c = false := by
  constructor
  · have h := findIdx?_found (d := ([] : List Char)) hidx
    rw [Nat.sub_zero] at h
    exact tokenIsKeyword_nonempty h.2.2
  · intro c hc
    exact alpha_not_ws (List.mem_filter.mp hc).2

theorem candidateOfCapture_ne {m normalized capture : List Char}
    {p : ParsedLaw}
    (hqn : normalized = quoteNorm m)
    (heu : reTestWB true (lit "eu") m = false)
    (hc : candidateOfCapture normalized capture = some p) :
    p.lawIdentifier ≠ "EU-DSA" := by
  rw [candidateOfCapture] at hc
  dsimp only at hc
  split at hc
  · exact absurd hc (by simp)
  · next kidx hidx =>
    split_ifs at hc with hk0 hhead hnarr hyear
    all_goals
      rw [Option.some.injEq] at hc
      rw [← hc]
      rcases hpar : parenExec normalized with _ | q
      · rcases hbill : billExec normalized with _ | b
        · dsimp only
          intro he
          have hA : ¬(List.dropWhile (fun w =>
              headStopWords.contains (⟨w.map Char.toLower⟩ : String))
              (List.take kidx (List.filter (fun w => !w.isEmpty)
                (splitOnChar ' '
                  (normWS (⟨capture⟩ : String)).data)))).isEmpty = true := by
            intro hemp
            rw [hemp] at hhead
            simp at hhead
          have hsp : ' ' ∈ ("EU-DSA").data := by
            rw [← he]
            refine toLawTitleCase_has_space _ ?_ ?_
            · simp only [List.length_append, List.length_cons,
                List.length_nil]
              have hlen : (List.dropWhile (fun w =>
                  headStopWords.contains (⟨w.map Char.toLower⟩ : String))
                  (List.take kidx (List.filter (fun w => !w.isEmpty)
                    (splitOnChar ' '
                      (normWS (⟨capture⟩ : String)).data)))).length ≠ 0 := by
                intro h0
                exact hA (by simpa [List.isEmpty_iff] using
                  List.length_eq_zero.mp h0)
              omega
            · intro w hw
              rcases List.mem_append.mp hw with hw1 | hw2
              · rcases List.mem_append.mp hw1 with hw3 | hw4
                · exact tokens_word_ok
                    ((List.take_sublist _ _).subset
                      ((List.dropWhile_sublist _).subset hw3))
                · rcases List.mem_singleton.mp hw4 with rfl
                  exact keyword_word_ok hidx
              · first
                | exact absurd hw2 (List.not_mem_nil w)
                | (rcases List.mem_singleton.mp hw2 with rfl
                   refine ⟨?_, fun c hc2 =>
                     digit_not_ws (List.mem_filter.mp hc2).2⟩
                   intro hnil
                   rw [hnil] at hyear
                   simp at hyear)
          exact absurd hsp (by decide)
        · dsimp only
          exact normalizeBillIdentifier_ne hbill
      · dsimp only
        intro he
        have hq : q = ("EU-DSA").data := congrArg String.data he
        rcases parenExec_decomp hpar with ⟨pre, post, hdec⟩
        rw [hq] at hdec
        rw [hqn] at hdec
        have hsh : ("EU-DSA").data = ['E', 'U', '-', 'D', 'S', 'A'] := rfl
        rw [hsh] at hdec
        simp only [List.cons_append, List.nil_append] at hdec
        rw [quoteNorm] at hdec
        rcases List.map_eq_append_iff.mp hdec with ⟨m1, m2, hm, hm1, hm2⟩
        rcases List.map_eq_cons_iff.mp hm2 with ⟨a1, m3, he1, hq1, hm3⟩
        rcases List.map_eq_cons_iff.mp hm3 with ⟨a2, m4, he2, hq2, hm4⟩
        rcases List.map_eq_cons_iff.mp hm4 with ⟨a3, m5, he3, hq3, hm5⟩
        rcases List.map_eq_cons_iff.mp hm5 with ⟨a4, m6, he4, hq4, hm6⟩
        have ha1 : a1 = '(' := quoteNormChar_stable (by decide) (by decide) hq1
        have ha2 : a2 = 'E' := quoteNormChar_stable (by decide) (by decide) hq2
        have ha3 : a3 = 'U' := quoteNormChar_stable (by decide) (by decide) hq3
        have ha4 : a4 = '-' := quoteNormChar_stable (by decide) (by decide) hq4
        have hn : m = (m1 ++ [a1]) ++ a2 :: a3 :: (a4 :: m6) := by
          rw [hm, he1, he2, he3, he4]
          simp
        have hfound : reTestWB true (lit "eu") m = true :=
          reTestWB_eu_found hn (Or.inr ⟨m1, a1, rfl, by rw [ha1]; decide⟩)
            (by rw [ha2]; decide) (by rw [ha3]; decide) (by rw [ha4]; rfl)
        rw [hfound] at heu
        exact absurd heu (by simp)

/-- An explicit law-phrase extraction never yields `EU-DSA` when the
`\beu\b` test on the normalized text is negative. -/
theorem extractExplicitLawPhrase_ne {t : String} {p : ParsedLaw}
    (heu : reTestWB true (lit "eu") (normWS t).data = false)
    (h : extractExplicitLawPhrase t = some p) :
    p.lawIdentifier ≠ "EU-DSA" := by
  rw [extractExplicitLawPhrase] at h
  split at h
  · split at h
    · next b hbill =>
      rw [Option.some.injEq] at h
      rw [← h]
      exact normalizeBillIdentifier_ne hbill
    · exact absurd h (by simp)
  · have hmem := sortBy_mem.mp (List.mem_of_mem_head? h)
    rcases List.mem_filterMap.mp hmem with ⟨cap, hcapmem, hcap⟩
    exact candidateOfCapture_ne rfl heu hcap

/-- The candidate texts of `inferCanonicalLaw`: normalized title, summary,
content, with the empty ones dropped. -/
def textCandidatesOf (input : CanonicalLawInput) : List String :=
  ([input.title, input.summary.getD "",
    input.content.getD ""].map normWS).filter (fun t => t ≠ "")

/-- No `digital services act` phrase and no EU-context word marker in a
normalized text: the code's own `dsaMentioned` tests, all negative. -/
def NoEuMarkers (n : List Char) : Prop :=
  reTestWB true (phrase ["digital", "services", "act"]) n = false ∧
  reTestAnyWB true euContextAlts n = false

/-- C7 (corrected): if every candidate text (normalized title, summary,
content) fails the code's own `digital services act` phrase test and fails
every EU-context word test (eu, european, commission, brussels,
article 28, regulation, minor(s)), and the title has no `eu` directly
preceded by an underscore (the one word character the word-boundary tests
cannot see past, `fallback_underscore_eu` below), then `inferCanonicalLaw`
never emits `lawIdentifier = EU-DSA`. -/
theorem C7_dsa_requires_eu_context (input : CanonicalLawInput)
    (H : ∀ t ∈ textCandidatesOf input, NoEuMarkers ((normWS t).data))
    (Ht : NoEuMarkers ((normWS input.title).data))
    (Hu : listIncludes ['_', 'e', 'u']
      (lowerL (normWS input.title).data) = false) :
    (inferCanonicalLaw input).1.lawIdentifier ≠ "EU-DSA" := by
  rw [inferCanonicalLaw]
  split
  · next parsed hfind =>
    rcases findSome?_some hfind with ⟨t, htmem, hft⟩
    rcases H t htmem with ⟨h1, h2⟩
    rcases halias : extractKnownLawAlias t input.jurisdictionCountry
      with _ | pa
    · rw [halias] at hft
      dsimp only at hft
      exact extractExplicitLawPhrase_ne (reTestAny_eu_false h2) hft
    · rw [halias] at hft
      dsimp only at hft
      rw [Option.some.injEq] at hft
      rw [← hft]
      exact extractKnownLawAlias_ne h1 h2 halias
  · exact fallbackLawName_ne (reTestAny_eu_false Ht.2) Hu

/-- `NoEuMarkers` is decidable, so witnesses can be checked by
evaluation. -/
instance noEuMarkersDecidable (n : List Char) : Decidable (NoEuMarkers n) := by
  unfold NoEuMarkers
  infer_instance

/-- The underscore hypothesis of C7 is forced by the code: in the title
`_EU-DSA` every word-boundary EU marker fails (`_` is a word character,
so `\beu\b` cannot fire) and the phrase test fails, yet the fallback
namer still emits `EU-DSA`. -/
theorem fallback_underscore_eu :
    NoEuMarkers ((normWS "_EU-DSA").data) ∧
    listIncludes ['e', 'u'] (lowerL (normWS "_EU-DSA").data) = true ∧
    (inferCanonicalLaw ⟨"_EU-DSA", none, none, "", none⟩).1.lawIdentifier =
      "EU-DSA" := ⟨⟨by decide, by decide⟩, by decide, by decide⟩

/-- C7 counterexample: the title `DSA enforcement update from Brussels`
contains none of the claim's EU markers (eu, european, commission,
article 28, regulation, minor(s)) as words, only the word `dsa`, yet the
inferrer emits `lawIdentifier = EU-DSA` — the code's EU-context list also
includes `brussels`, which the claim omits. -/
theorem C7_counterexample :
    reTestWB true (lit "eu")
      (normWS "DSA enforcement update from Brussels").data = false ∧
    reTestWB true (lit "european")
      (normWS "DSA enforcement update from Brussels").data = false ∧
    reTestWB true (lit "commission")
      (normWS "DSA enforcement update from Brussels").data = false ∧
    reTestWB true (lit "article" ++ [RTok.wsS] ++ lit "28")
      (normWS "DSA enforcement update from Brussels").data = false ∧
    reTestWB true (lit "regulation")
      (normWS "DSA enforcement update from Brussels").data = false ∧
    reTestWB true (lit "minor" ++ [RTok.opt 's'])
      (normWS "DSA enforcement update from Brussels").data = false ∧
    reTestWB true (phrase ["digital", "services", "act"])
      (normWS "DSA enforcement update from Brussels").data = false ∧
    reTestWB true (lit "dsa")
      (normWS "DSA enforcement update from Brussels").data = true ∧
    (inferCanonicalLaw ⟨"DSA enforcement update from Brussels", none, none,
      "", none⟩).1.lawIdentifier = "EU-DSA" := by
  refine ⟨by decide, by decide, by decide, by decide, by decide, by decide,
    by decide, by decide, by decide⟩

/-- Witness for C7 at a concrete marker-free input. -/
theorem C7_witness :
    (inferCanonicalLaw ⟨"COPPA enforcement action announced", none, none,
      "United States", none⟩).1.lawIdentifier ≠ "EU-DSA" :=
  C7_dsa_requires_eu_context
    ⟨"COPPA enforcement action announced", none, none, "United States",
      none⟩ (by decide) (by decide) (by decide)

/-! ## C4: `backfillLawsFromEvents` (`src/db.ts`)

`Date.parse` is wall-clock- and locale-independent but complex; we abstract
it as a `dateVal : String → Option Int` parameter (`none` for `NaN`).
`new Date().toISOString()` and `Date.now()` become the explicit `nowIso`
and `nowTs` parameters.  The SQL SELECT result is the `eventRows` input.
`lastInsertRowid` yields the 1-based sequential ids of rows inserted into
the freshly emptied `laws` table. -/

/-- A row of the backfill SELECT (`regulation_events` joined with
`sources`). -/
structure EventForLawBackfill where
  id : String
  title : String
  jurisdiction_country : String
  jurisdiction_state : Option String
  stage : String
  age_bracket : Option String
  impact_score : ℚ
  likelihood_score : ℚ
  confidence_score : ℚ
  chili_score : ℚ
  summary : Option String
  source_url_link : Option String
  effective_date : Option String
  published_date : Option String
  created_at : String
  updated_at : String
  raw_text : Option String
  source_name : String
  source_url : String
  source_reliability_tier : ℚ
deriving Repr, DecidableEq

/-- The inferrer input built from an event row. -/
def lawInputOfRow (r : EventForLawBackfill) : CanonicalLawInput :=
  ⟨r.title, r.summary, r.raw_text, r.jurisdiction_country,
   r.jurisdiction_state⟩

/-- `parseDateOr`: empty and unparsable dates fall back. -/
def parseDateOr (dateVal : String → Option Int) (value : Option String)
    (fallback : Int) : Int :=
  match value with
  | none => fallback
  | some s =>
    if s = "" then fallback
    else match dateVal s with
      | none => fallback
      | some ts => ts

/-- `pickEventReferenceDate` (`updated_at` is non-null, so the trailing
`?? created_at` of the source can never fire). -/
def pickEventReferenceDate (r : EventForLawBackfill) : String :=
  match r.published_date with
  | some s => s
  | none =>
    match r.effective_date with
    | some s => s
    | none => r.updated_at

/-- `computeRecencyWeight`. -/
def computeRecencyWeight (dateVal : String → Option Int) (nowTs : Int)
    (referenceDate : String) : ℚ :=
  let ageDays : ℚ := max 0
    (((nowTs - parseDateOr dateVal (some referenceDate) nowTs : Int) : ℚ) /
      (1000 * 60 * 60 * 24))
  if ageDays ≤ 30 then 1
  else if ageDays ≤ 90 then 9 / 10
  else if ageDays ≤ 180 then 8 / 10
  else if ageDays ≤ 365 then 65 / 100
  else if ageDays ≤ 730 then 5 / 10
  else 35 / 100

/-- `computeOverallEventRisk`. -/
def computeOverallEventRisk (r : EventForLawBackfill) : ℚ :=
  r.chili_score * (4 / 10) + r.impact_score * (3 / 10) +
    r.likelihood_score * (2 / 10) + r.confidence_score * (1 / 10)

/-- `\b(Act|Bill|Directive|Regulation|Code|Rule)\b/i`. -/
def lawNameKeywordAlts : List (List RTok) :=
  [lit "act", lit "bill", lit "directive", lit "regulation", lit "code",
   lit "rule"]

/-- `\b(COPPA|KOSA|DSA|GDPR|DPDP|PDPA|AB-\d{1,5}|SB-\d{1,5}|HB-\d{1,5})\b`
(case-sensitive). -/
def lawNameAcronymAlts : List (List RTok) :=
  [lit "COPPA", lit "KOSA", lit "DSA", lit "GDPR", lit "DPDP", lit "PDPA",
   lit "AB-" ++ [RTok.digits 1 (some 4)],
   lit "SB-" ++ [RTok.digits 1 (some 4)],
   lit "HB-" ++ [RTok.digits 1 (some 4)]]

/-- The narrative phrases penalized by the backfill's own scorer. -/
def lawNameNarrativeAlts : List (List RTok) :=
  [lit "framework", lit "potentially", lit "for kids under",
   lit "the law has", lit "this follows", lit "to a lawsuit by"]

/-- `scoreCanonicalLawName` from `src/db.ts` (distinct from the
`law-canonical` scorer). -/
def scoreCanonicalLawName (name : String) : Int :=
  let normalized := jsTrimL name.data
  let words : Int := countWsWords normalized
  (if reTestAnyWB true lawNameKeywordAlts normalized then 6 else 0) +
  (if reTestAnyWB false lawNameAcronymAlts normalized then 4 else 0) +
  (if reTestWB false [RTok.digits 4 (some 0)] normalized then 2 else 0) -
  (if reTestAnyWB true lawNameNarrativeAlts normalized then 8 else 0) -
  (if normalized.any (fun c => c = '.' || c = '!' || c = '?') then 2
   else 0) -
  max 0 (words - 10)

/-- One entry of the backfill's `groups` map. -/
structure LawGroup where
  lawName : String
  lawType : String
  lawNameScore : Int
  jurisdictionCountry : String
  jurisdictionState : Option String
  updates : List EventForLawBackfill
deriving Repr

/-- Fold one event row into an existing group (push, then maybe adopt a
better-scoring name, then maybe upgrade the `law` type). -/
def updateGroup (canonical : ParsedLaw) (score : Int)
    (row : EventForLawBackfill) (g : LawGroup) : LawGroup :=
  let g1 := { g with updates := g.updates ++ [row] }
  let g2 :=
    if score > g1.lawNameScore ∨ (score = g1.lawNameScore ∧
        canonical.lawName.data.length < g1.lawName.data.length) then
      { g1 with lawName := canonical.lawName, lawNameScore := score }
    else g1
  if g2.lawType = "law" ∧ canonical.lawType ≠ "" ∧
      canonical.lawType ≠ "law" then
    { g2 with lawType := canonical.lawType }
  else g2

/-- The fresh group for a new canonical key. -/
def newGroup (canonical : ParsedLaw) (score : Int)
    (row : EventForLawBackfill) : LawGroup :=
  ⟨canonical.lawName, canonical.lawType, score, row.jurisdiction_country,
   row.jurisdiction_state, [row]⟩

/-- One iteration of the grouping loop (a JavaScript `Map` keeps first
insertion order, so an assoc list updated in place models it). -/
def addRowToGroups (gs : List (String × LawGroup))
    (row : EventForLawBackfill) : List (String × LawGroup) :=
  let canonical := inferCanonicalLaw (lawInputOfRow row)
  let score := scoreCanonicalLawName canonical.1.lawName
  if gs.any (fun kg => kg.1 = canonical.2) then
    gs.map (fun kg =>
      if kg.1 = canonical.2 then (kg.1, updateGroup canonical.1 score row kg.2)
      else kg)
  else gs ++ [(canonical.2, newGroup canonical.1 score row)]

/-- The full grouping pass over the selected event rows. -/
def buildGroups (rows : List EventForLawBackfill) :
    List (String × LawGroup) :=
  rows.foldl addRowToGroups []

/-- A row of the rebuilt `laws` table. -/
structure LawRow where
  id : Nat
  law_key : String
  law_name : String
  jurisdiction_country : String
  jurisdiction_state : Option String
  law_type : String
  stage : String
  status : String
  first_seen_at : String
  last_seen_at : String
  latest_effective_date : Option String
  aggregate_risk_max : ℚ
  aggregate_risk_recent_weighted : ℚ
  aggregate_risk_overall : ℚ
  source_confidence : ℚ
  created_at : String
  updated_at : String
deriving Repr, DecidableEq

/-- The `raw_metadata` JSON payload of a `law_updates` row, kept as its
five fields (the `JSON.stringify` of the source is injective in them). -/
structure RawMeta where
  ageBracket : Option String
  jurisdictionCountry : String
  jurisdictionState : Option String
  sourceReliabilityTier : ℚ
  sourceUrl : String
deriving Repr, DecidableEq

/-- A row of the rebuilt `law_updates` table. -/
structure LawUpdateRow where
  law_id : Nat
  event_id : String
  source_item_id : Option Nat
  update_title : String
  update_summary : Option String
  source_url : Option String
  source_name : String
  published_date : Option String
  effective_date : Option String
  stage : String
  chili_score : ℚ
  impact_score : ℚ
  likelihood_score : ℚ
  confidence_score : ℚ
  created_at : String
  raw_metadata : RawMeta
deriving Repr, DecidableEq

/-- `LawBackfillStats`. -/
structure LawBackfillStats where
  laws : Nat
  lawUpdates : Nat
  mergedDuplicates : Nat
deriving Repr, DecidableEq

/-- The state after the backfill transaction: the two rebuilt tables and
the returned stats. -/
structure BackfillResult where
  laws : List LawRow
  law_updates : List LawUpdateRow
  stats : LawBackfillStats
deriving Repr

/-- `Math.max(...)` over a nonempty list (`-∞` is unreachable: every group
holds at least one update). -/
def listMaxD : List ℚ → ℚ
  | [] => 0
  | x :: rest => rest.foldl (fun a b => max a b) x

/-- The `updatesSorted` comparator: reference date descending, stable. -/
def updatesSortedOf (dateVal : String → Option Int)
    (updates : List EventForLawBackfill) : List EventForLawBackfill :=
  sortBy (fun a b =>
    decide (parseDateOr dateVal (some (pickEventReferenceDate b)) 0 ≤
      parseDateOr dateVal (some (pickEventReferenceDate a)) 0)) updates

/-- `Number.MAX_SAFE_INTEGER`. -/
def maxSafeInteger : Int := 2 ^ 53 - 1

/-- The four accumulated sums of the per-group loop: weighted numerator,
weight denominator, overall-risk sum, reliability-tier sum. -/
def riskSums (dateVal : String → Option Int) (nowTs : Int)
    (updates : List EventForLawBackfill) : ℚ × ℚ × ℚ × ℚ :=
  updates.foldl (fun acc row =>
    let w := computeRecencyWeight dateVal nowTs
      (pickEventReferenceDate row)
    (acc.1 + row.chili_score * w, acc.2.1 + w,
     acc.2.2.1 + computeOverallEventRisk row,
     acc.2.2.2 + row.source_reliability_tier)) (0, 0, 0, 0)

/-- The `laws` row inserted for one group. -/
def lawRowOfGroup (dateVal : String → Option Int) (nowIso : String)
    (nowTs : Int) (lawId : Nat) (lawKey : String) (group : LawGroup) :
    LawRow :=
  let updatesSorted := updatesSortedOf dateVal group.updates
  let latest := updatesSorted.headD
    ⟨"", "", "", none, "", none, 0, 0, 0, 0, none, none, none, none, "",
     "", none, "", "", 0⟩
  let firstSeen := group.updates.foldl (fun mn row =>
    let candidate := pickEventReferenceDate row
    if parseDateOr dateVal (some candidate) maxSafeInteger <
        parseDateOr dateVal (some mn) maxSafeInteger then candidate
    else mn)
    (pickEventReferenceDate (group.updates.headD latest))
  let lastSeen := group.updates.foldl (fun mx row =>
    let candidate := row.updated_at
    if parseDateOr dateVal (some candidate) 0 >
        parseDateOr dateVal (some mx) 0 then candidate
    else mx) latest.updated_at
  let latestEffectiveDate :=
    (sortBy (fun a b => decide (parseDateOr dateVal (some b) 0 ≤
        parseDateOr dateVal (some a) 0))
      ((group.updates.map (fun row => row.effective_date)).filterMap
        (fun v => match v with
          | some s => if s = "" then none else some s
          | none => none))).head?
  let aggregateRiskMax :=
    listMaxD (group.updates.map (fun row => row.chili_score))
  let sums := riskSums dateVal nowTs group.updates
  let aggregateRiskRecentWeighted :=
    if 0 < sums.2.1 then sums.1 / sums.2.1 else aggregateRiskMax
  let aggregateRiskOverall :=
    if 0 < group.updates.length then
      sums.2.2.1 / (group.updates.length : ℚ)
    else aggregateRiskMax
  let sourceConfidence :=
    if 0 < group.updates.length then
      sums.2.2.2 / (group.updates.length : ℚ)
    else 0
  ⟨lawId, lawKey, group.lawName, group.jurisdictionCountry,
   group.jurisdictionState, group.lawType, latest.stage, latest.stage,
   firstSeen, lastSeen, latestEffectiveDate, aggregateRiskMax,
   aggregateRiskRecentWeighted, aggregateRiskOverall, sourceConfidence,
   nowIso, nowIso⟩

/-- The `law_updates` rows inserted for one group, in sorted order. -/
def updateRowsOfGroup (dateVal : String → Option Int) (nowIso : String)
    (lawId : Nat) (group : LawGroup) : List LawUpdateRow :=
  (updatesSortedOf dateVal group.updates).map (fun u =>
    ⟨lawId, u.id, none, u.title, u.summary, u.source_url_link,
     u.source_name, u.published_date, u.effective_date, u.stage,
     u.chili_score, u.impact_score, u.likelihood_score, u.confidence_score,
     u.updated_at,
     ⟨u.age_bracket, u.jurisdiction_country, u.jurisdiction_state,
      u.source_reliability_tier, u.source_url⟩⟩)

/-- Pair each group with its sequential `lastInsertRowid`. -/
def withIds (startId : Nat) :
    List (String × LawGroup) → List (Nat × String × LawGroup)
  | [] => []
  | kg :: rest => (startId, kg.1, kg.2) :: withIds (startId + 1) rest

/-- `backfillLawsFromEvents`: wipe and rebuild `laws` and `law_updates`
from the selected event rows, returning the stats the source returns. -/
def backfillLawsFromEvents (dateVal : String → Option Int)
    (nowIso : String) (nowTs : Int)
    (eventRows : List EventForLawBackfill) : BackfillResult :=
  let groups := buildGroups eventRows
  let numbered := withIds 1 groups
  { laws := numbered.map (fun g =>
      lawRowOfGroup dateVal nowIso nowTs g.1 g.2.1 g.2.2)
    law_updates := (numbered.map (fun g =>
      updateRowsOfGroup dateVal nowIso g.1 g.2.2)).flatten
    stats := ⟨groups.length, eventRows.length,
      max 0 (eventRows.length - groups.length)⟩ }
/-! ## C4: the grouping invariant and the aggregate properties -/

/-- `updateGroup` only appends to the update list. -/
theorem updateGroup_updates (c : ParsedLaw) (s : Int)
    (row : EventForLawBackfill) (g : LawGroup) :
    (updateGroup c s row g).updates = g.updates ++ [row] := by
  rw [updateGroup]
  dsimp only
  split_ifs <;> rfl

/-- The grouping loop invariant: keys are distinct, each group holds
exactly the processed rows with its canonical key, every processed row has
a group, and groups are nonempty. -/
def GroupsInv (processed : List EventForLawBackfill)
    (gs : List (String × LawGroup)) : Prop :=
  (gs.map Prod.fst).Nodup ∧
  (∀ kg ∈ gs, kg.2.updates = processed.filter (fun r =>
    decide (lawKeyOf (lawInputOfRow r) = kg.1))) ∧
  (∀ r ∈ processed, ∃ kg ∈ gs, kg.1 = lawKeyOf (lawInputOfRow r)) ∧
  (∀ kg ∈ gs, kg.2.updates ≠ [])

section GroupingInvariant

attribute [local irreducible] inferCanonicalLaw

/-- One grouping step preserves the invariant. -/
theorem addRow_inv {processed : List EventForLawBackfill}
    {gs : List (String × LawGroup)} {row : EventForLawBackfill}
    (h : GroupsInv processed gs) :
    GroupsInv (processed ++ [row]) (addRowToGroups gs row) := by
  rcases h with ⟨hnd, hupd, hcov, hne⟩
  rw [addRowToGroups]
  have hkeyrow : (inferCanonicalLaw (lawInputOfRow row)).2 =
      lawKeyOf (lawInputOfRow row) := rfl
  generalize hcan : inferCanonicalLaw (lawInputOfRow row) = can
  rw [hcan] at hkeyrow
  split
  · next hany =>
    rcases List.any_eq_true.mp hany with ⟨kg0, hkg0, hdec0⟩
    have hk0 : kg0.1 = can.2 := by simpa using hdec0
    have hfst : ∀ kg : String × LawGroup,
        (if kg.1 = can.2 then
          (kg.1, updateGroup can.1
            (scoreCanonicalLawName can.1.lawName) row kg.2)
        else kg).1 = kg.1 := by
      intro kg
      by_cases hk : kg.1 = can.2
      · rw [if_pos hk]
      · rw [if_neg hk]
    refine ⟨?_, ?_, ?_, ?_⟩
    · have hmapfst : (gs.map (fun kg =>
          if kg.1 = can.2 then
            (kg.1, updateGroup can.1
              (scoreCanonicalLawName can.1.lawName) row kg.2)
          else kg)).map Prod.fst = gs.map Prod.fst := by
        rw [List.map_map]
        exact List.map_congr_left (fun kg _ => hfst kg)
      rw [hmapfst]
      exact hnd
    · intro kg' hkg'
      rcases List.mem_map.mp hkg' with ⟨kg, hkg, rfl⟩
      rw [hfst kg]
      by_cases hk : kg.1 = can.2
      · rw [if_pos hk]
        show (updateGroup can.1
          (scoreCanonicalLawName can.1.lawName) row kg.2).updates = _
        rw [updateGroup_updates, hupd kg hkg, List.filter_append]
        have hd : decide (lawKeyOf (lawInputOfRow row) = kg.1) = true :=
          decide_eq_true (by rw [← hkeyrow, hk])
        have hfil : List.filter (fun r =>
            decide (lawKeyOf (lawInputOfRow r) = kg.1)) [row] = [row] := by
          simp [List.filter_cons, hd]
        rw [hfil]
      · rw [if_neg hk]
        rw [hupd kg hkg, List.filter_append]
        have hd : decide (lawKeyOf (lawInputOfRow row) = kg.1) = false := by
          simp only [decide_eq_false_iff_not]
          intro he
          exact hk (by rw [← he, hkeyrow])
        have hfil : List.filter (fun r =>
            decide (lawKeyOf (lawInputOfRow r) = kg.1)) [row] = [] := by
          simp [List.filter_cons, hd]
        rw [hfil]
        simp
    · intro r hr
      rcases List.mem_append.mp hr with hr1 | hr2
      · rcases hcov r hr1 with ⟨kg, hkg, hkey⟩
        exact ⟨_, List.mem_map_of_mem _ hkg, by rw [hfst kg, hkey]⟩
      · have hrr : r = row := by simpa using hr2
        refine ⟨_, List.mem_map_of_mem _ hkg0, ?_⟩
        rw [hfst kg0, hk0, hrr, hkeyrow]
    · intro kg' hkg'
      rcases List.mem_map.mp hkg' with ⟨kg, hkg, rfl⟩
      by_cases hk : kg.1 = can.2
      · rw [if_pos hk]
        show (updateGroup can.1
          (scoreCanonicalLawName can.1.lawName) row kg.2).updates ≠ []
        rw [updateGroup_updates]
        simp
      · rw [if_neg hk]
        exact hne kg hkg
  · next hany =>
    have hnotin : ∀ kg ∈ gs, ¬kg.1 = can.2 := by
      intro kg hkg he
      exact hany (List.any_eq_true.mpr ⟨kg, hkg, by simp [he]⟩)
    refine ⟨?_, ?_, ?_, ?_⟩
    · rw [List.map_append]
      rw [List.nodup_append]
      refine ⟨hnd, by simp, ?_⟩
      intro k hk1 hk2
      have hkc : k = can.2 := by simpa using hk2
      rcases List.mem_map.mp hk1 with ⟨kg, hkg, rfl⟩
      exact hnotin kg hkg hkc
    · intro kg' hkg'
      rcases List.mem_append.mp hkg' with hold | hnew
      · rw [hupd kg' hold, List.filter_append]
        have hd : decide (lawKeyOf (lawInputOfRow row) = kg'.1) = false := by
          simp only [decide_eq_false_iff_not]
          intro he
          exact hnotin kg' hold (by rw [← he, hkeyrow])
        have hfil : List.filter (fun r =>
            decide (lawKeyOf (lawInputOfRow r) = kg'.1)) [row] = [] := by
          simp [List.filter_cons, hd]
        rw [hfil]
        simp
      · have hkg'' : kg' = (can.2, newGroup can.1
            (scoreCanonicalLawName can.1.lawName) row) := by
          simpa using hnew
        rw [hkg'']
        show [row] = _
        have hflt : processed.filter (fun r =>
            decide (lawKeyOf (lawInputOfRow r) = can.2)) = [] := by
          rw [List.filter_eq_nil_iff]
          intro r hr
          simp only [decide_eq_true_eq]
          intro he
          rcases hcov r hr with ⟨kg, hkg, hkey⟩
          exact hnotin kg hkg (by rw [hkey, he])
        have hd : decide (lawKeyOf (lawInputOfRow row) = can.2) = true :=
          decide_eq_true (by rw [← hkeyrow])
        have hfil : List.filter (fun r =>
            decide (lawKeyOf (lawInputOfRow r) = can.2)) [row] = [row] := by
          simp [List.filter_cons, hd]
        rw [List.filter_append, hflt, hfil]
        rfl
    · intro r hr
      rcases List.mem_append.mp hr with hr1 | hr2
      · rcases hcov r hr1 with ⟨kg, hkg, hkey⟩
        exact ⟨kg, List.mem_append_left _ hkg, hkey⟩
      · have hrr : r = row := by simpa using hr2
        refine ⟨_, List.mem_append_right _ (List.mem_cons_self _ _), ?_⟩
        rw [hrr]
        exact hkeyrow
    · intro kg' hkg'
      rcases List.mem_append.mp hkg' with hold | hnew
      · exact hne kg' hold
      · have hkg'' : kg' = (can.2, newGroup can.1
            (scoreCanonicalLawName can.1.lawName) row) := by
          simpa using hnew
        rw [hkg'']
        simp [newGroup]

/-- The invariant holds after the whole grouping pass. -/
theorem buildGroups_inv (rows : List EventForLawBackfill) :
    GroupsInv rows (buildGroups rows) := by
  have main : ∀ (todo processed : List EventForLawBackfill)
      (gs : List (String × LawGroup)), GroupsInv processed gs →
      GroupsInv (processed ++ todo) (todo.foldl addRowToGroups gs) := by
    intro todo
    induction todo with
    | nil => intro processed gs h; simpa using h
    | cons r rest ih =>
      intro processed gs h
      have h2 := ih (processed ++ [r]) _ (addRow_inv h)
      rw [List.append_assoc] at h2
      simpa using h2
  have h0 : GroupsInv [] [] := by
    refine ⟨by simp, by simp, by simp, by simp⟩
  simpa using main rows [] [] h0

/-- Numbered entries keep their group. -/
theorem withIds_mem_orig :
    ∀ {gs : List (String × LawGroup)} {s id : Nat} {k : String}
      {g : LawGroup}, (id, k, g) ∈ withIds s gs → (k, g) ∈ gs := by
  intro gs
  induction gs with
  | nil => intro s id k g h; simp [withIds] at h
  | cons kg rest ih =>
    intro s id k g h
    rw [withIds] at h
    rcases List.mem_cons.mp h with h1 | h2
    · rw [Prod.mk.injEq] at h1
      rcases h1 with ⟨_, h3⟩
      rw [show (kg.1, kg.2) = kg from rfl] at h3
      rw [h3]
      exact List.mem_cons_self _ _
    · exact List.mem_cons_of_mem _ (ih h2)

/-- Numbered ids start at the start id. -/
theorem withIds_mem_ge :
    ∀ {gs : List (String × LawGroup)} {s id : Nat} {k : String}
      {g : LawGroup}, (id, k, g) ∈ withIds s gs → s ≤ id := by
  intro gs
  induction gs with
  | nil => intro s id k g h; simp [withIds] at h
  | cons kg rest ih =>
    intro s id k g h
    rw [withIds] at h
    rcases List.mem_cons.mp h with h1 | h2
    · rw [Prod.mk.injEq] at h1
      omega
    · have := ih h2
      omega

/-- Every inserted update row carries an id at or above the start id. -/
theorem flatten_law_id_ge (dateVal : String → Option Int) (nowIso : String) :
    ∀ (gs : List (String × LawGroup)) (s : Nat) {u : LawUpdateRow},
      u ∈ ((withIds s gs).map (fun g =>
        updateRowsOfGroup dateVal nowIso g.1 g.2.2)).flatten → s ≤ u.law_id := by
  intro gs
  induction gs with
  | nil => intro s u h; simp [withIds] at h
  | cons kg rest ih =>
    intro s u h
    rw [withIds] at h
    rw [List.map_cons, List.flatten_cons] at h
    rcases List.mem_append.mp h with h1 | h2
    · rcases List.mem_map.mp h1 with ⟨v, _, rfl⟩
      exact Nat.le_refl s
    · have := ih (s + 1) h2
      omega

/-- Counting the update rows of one law id isolates its group's block. -/
theorem law_updates_count (dateVal : String → Option Int) (nowIso : String) :
    ∀ (gs : List (String × LawGroup)) (s : Nat) {id0 : Nat} {k0 : String}
      {g0 : LawGroup}, (id0, k0, g0) ∈ withIds s gs →
      List.countP (fun u => decide (u.law_id = id0))
        (((withIds s gs).map (fun g =>
          updateRowsOfGroup dateVal nowIso g.1 g.2.2)).flatten) =
        g0.updates.length := by
  intro gs
  induction gs with
  | nil => intro s id0 k0 g0 h; simp [withIds] at h
  | cons kg rest ih =>
    intro s id0 k0 g0 h
    rw [withIds] at h
    rw [withIds, List.map_cons, List.flatten_cons, List.countP_append]
    rcases List.mem_cons.mp h with h1 | h2
    · rw [Prod.mk.injEq] at h1
      rcases h1 with ⟨h1a, h1b⟩
      rw [Prod.mk.injEq] at h1b
      have hblock : List.countP (fun u => decide (u.law_id = id0))
          (updateRowsOfGroup dateVal nowIso s kg.2) =
          g0.updates.length := by
        rw [List.countP_eq_length.mpr]
        · rw [updateRowsOfGroup, List.length_map, updatesSortedOf,
            sortBy_length, ← h1b.2]
        · intro u hu
          rcases List.mem_map.mp hu with ⟨v, _, rfl⟩
          simp [h1a]
      have hrest : List.countP (fun u => decide (u.law_id = id0))
          (((withIds (s + 1) rest).map (fun g =>
            updateRowsOfGroup dateVal nowIso g.1 g.2.2)).flatten) = 0 := by
        rw [List.countP_eq_zero]
        intro u hu
        have := flatten_law_id_ge dateVal nowIso rest (s + 1) hu
        simp only [decide_eq_true_eq]
        omega
      rw [hblock, hrest]
      omega
    · have hge := withIds_mem_ge h2
      have hblock : List.countP (fun u => decide (u.law_id = id0))
          (updateRowsOfGroup dateVal nowIso s kg.2) = 0 := by
        rw [List.countP_eq_zero]
        intro u hu
        rcases List.mem_map.mp hu with ⟨v, _, rfl⟩
        simp only [decide_eq_true_eq]
        omega
      rw [hblock, ih (s + 1) h2]
      omega

/-- The tier component of the accumulated sums. -/
theorem riskSums_conf (dateVal : String → Option Int) (nowTs : Int) :
    ∀ (updates : List EventForLawBackfill),
      (riskSums dateVal nowTs updates).2.2.2 =
        (updates.map (fun r => r.source_reliability_tier)).sum := by
  have main : ∀ (updates : List EventForLawBackfill) (acc : ℚ × ℚ × ℚ × ℚ),
      (updates.foldl (fun acc row =>
        let w := computeRecencyWeight dateVal nowTs
          (pickEventReferenceDate row)
        (acc.1 + row.chili_score * w, acc.2.1 + w,
         acc.2.2.1 + computeOverallEventRisk row,
         acc.2.2.2 + row.source_reliability_tier)) acc).2.2.2 =
        acc.2.2.2 + (updates.map (fun r => r.source_reliability_tier)).sum := by
    intro updates
    induction updates with
    | nil => intro acc; simp
    | cons r rest ih =>
      intro acc
      rw [List.foldl_cons, ih, List.map_cons, List.sum_cons]
      dsimp only
      ring
  intro updates
  rw [riskSums, main]
  simp

/-- A folded maximum dominates the start value. -/
theorem foldl_max_le_self :
    ∀ (l : List ℚ) (a : ℚ), a ≤ l.foldl (fun x y => max x y) a := by
  intro l
  induction l with
  | nil => intro a; exact le_refl a
  | cons x rest ih =>
    intro a
    exact le_trans (le_max_left a x) (ih (max a x))

/-- A folded maximum dominates every element. -/
theorem foldl_max_le :
    ∀ (l : List ℚ) (a x : ℚ), x ∈ l →
      x ≤ l.foldl (fun u v => max u v) a := by
  intro l
  induction l with
  | nil => intro a x h; simp at h
  | cons y rest ih =>
    intro a x h
    rcases List.mem_cons.mp h with rfl | h2
    · exact le_trans (le_max_right a x) (foldl_max_le_self rest (max a x))
    · exact ih (max a y) x h2

/-- A folded maximum is the start value or an element. -/
theorem foldl_max_mem :
    ∀ (l : List ℚ) (a : ℚ),
      l.foldl (fun u v => max u v) a = a ∨
        l.foldl (fun u v => max u v) a ∈ l := by
  intro l
  induction l with
  | nil => intro a; exact Or.inl rfl
  | cons x rest ih =>
    intro a
    rcases ih (max a x) with h | h
    · rw [List.foldl_cons, h]
      rcases max_choice a x with h2 | h2
      · exact Or.inl h2
      · refine Or.inr ?_
        rw [h2]
        exact List.mem_cons_self _ _
    · exact Or.inr (List.mem_cons_of_mem _ h)

/-- The group maximum is attained. -/
theorem listMaxD_mem {l : List ℚ} (h : l ≠ []) : listMaxD l ∈ l := by
  cases l with
  | nil => exact absurd rfl h
  | cons x rest =>
    rcases foldl_max_mem rest x with h2 | h2
    · rw [listMaxD, h2]
      exact List.mem_cons_self _ _
    · exact List.mem_cons_of_mem _ h2

/-- The group maximum is an upper bound. -/
theorem listMaxD_le {l : List ℚ} {x : ℚ} (h : x ∈ l) : x ≤ listMaxD l := by
  cases l with
  | nil => simp at h
  | cons y rest =>
    rcases List.mem_cons.mp h with rfl | h2
    · exact foldl_max_le_self rest x
    · exact foldl_max_le rest y x h2

/-- C4: after the backfill, every inserted law has exactly as many
`law_updates` rows as there are selected events whose canonical `lawKey`
matches its `law_key`; its `aggregate_risk_max` is the maximum of those
events' `chili_score`s (attained and an upper bound); and its
`source_confidence` is the mean of their `reliability_tier`s. -/
theorem C4_backfill_lawgroups (dateVal : String → Option Int)
    (nowIso : String) (nowTs : Int) (rows : List EventForLawBackfill) :
    ∀ law ∈ (backfillLawsFromEvents dateVal nowIso nowTs rows).laws,
      List.countP (fun u => decide (u.law_id = law.id))
          (backfillLawsFromEvents dateVal nowIso nowTs rows).law_updates =
        List.countP (fun r =>
          decide (lawKeyOf (lawInputOfRow r) = law.law_key)) rows ∧
      (∃ r ∈ rows, lawKeyOf (lawInputOfRow r) = law.law_key ∧
        law.aggregate_risk_max = r.chili_score) ∧
      (∀ r ∈ rows, lawKeyOf (lawInputOfRow r) = law.law_key →
        r.chili_score ≤ law.aggregate_risk_max) ∧
      law.source_confidence =
        ((rows.filter (fun r => decide (lawKeyOf (lawInputOfRow r) =
          law.law_key))).map (fun r => r.source_reliability_tier)).sum /
          (List.countP (fun r => decide (lawKeyOf (lawInputOfRow r) =
            law.law_key)) rows : ℚ) := by
  intro law hlaw
  rcases List.mem_map.mp hlaw with ⟨⟨id0, k0, g0⟩, hmem, rfl⟩
  have hinv := buildGroups_inv rows
  have hkg : (k0, g0) ∈ buildGroups rows := withIds_mem_orig hmem
  have hupd : g0.updates = rows.filter (fun r =>
      decide (lawKeyOf (lawInputOfRow r) = k0)) := hinv.2.1 (k0, g0) hkg
  have hne : g0.updates ≠ [] := hinv.2.2.2 (k0, g0) hkg
  have hid : (lawRowOfGroup dateVal nowIso nowTs id0 k0 g0).id = id0 := rfl
  have hkey : (lawRowOfGroup dateVal nowIso nowTs id0 k0 g0).law_key =
    k0 := rfl
  have hmax : LawRow.aggregate_risk_max
      (lawRowOfGroup dateVal nowIso nowTs id0 k0 g0) =
      listMaxD (g0.updates.map (fun row => row.chili_score)) := rfl
  have hlen0 : 0 < g0.updates.length := List.length_pos.mpr hne
  have hconf : LawRow.source_confidence
      (lawRowOfGroup dateVal nowIso nowTs id0 k0 g0) =
      (riskSums dateVal nowTs g0.updates).2.2.2 /
        (g0.updates.length : ℚ) := by
    show (if 0 < g0.updates.length then
      (riskSums dateVal nowTs g0.updates).2.2.2 /
        (g0.updates.length : ℚ) else 0) = _
    rw [if_pos hlen0]
  have hcount : List.countP (fun r =>
      decide (lawKeyOf (lawInputOfRow r) = k0)) rows =
      g0.updates.length := by
    rw [List.countP_eq_length_filter, ← hupd]
  refine ⟨?_, ?_, ?_, ?_⟩
  · rw [hid, hkey, hcount]
    exact law_updates_count dateVal nowIso (buildGroups rows) 1 hmem
  · rw [hkey, hmax]
    have hmaps : g0.updates.map (fun row => row.chili_score) ≠ [] := by
      simpa using hne
    rcases List.mem_map.mp (listMaxD_mem hmaps) with ⟨r, hrmem, hrc⟩
    have hrfil := hupd ▸ hrmem
    rcases List.mem_filter.mp hrfil with ⟨hrrows, hrdec⟩
    exact ⟨r, hrrows, of_decide_eq_true hrdec, hrc.symm⟩
  · rw [hkey, hmax]
    intro r hr hkr
    have hrfil : r ∈ g0.updates := by
      rw [hupd]
      exact List.mem_filter.mpr ⟨hr, decide_eq_true hkr⟩
    exact listMaxD_le (List.mem_map_of_mem _ hrfil)
  · rw [hkey, hconf, hcount, riskSums_conf, hupd]

end GroupingInvariant

/-- Three concrete selected event rows for the C4 witness: two COPPA
events in California and one KOSA event. -/
def sampleBackfillRows : List EventForLawBackfill :=
  [⟨"e1", "COPPA update", "United States", some "California", "enacted",
    none, 2, 3, 4, 5, none, none, none, none, "2024-01-01", "2024-01-02",
    none, "SrcA", "https://a", 1⟩,
   ⟨"e2", "COPPA enforcement", "United States", some "California",
    "proposed", none, 1, 1, 1, 3, none, none, none, none, "2024-02-01",
    "2024-02-02", none, "SrcB", "https://b", 2⟩,
   ⟨"e3", "Kids Online Safety Act vote", "United States", none, "proposed",
    none, 1, 1, 1, 4, none, none, none, none, "2024-03-01", "2024-03-02",
    none, "SrcC", "https://c", 3⟩]

/-- An arbitrary default law row (never selected). -/
def sampleLawFallback : LawRow :=
  ⟨0, "", "", "", none, "", "", "", "", "", none, 0, 0, 0, 0, "", ""⟩

theorem headD_mem_of_ne {α : Type} {l : List α} (d : α) (h : l ≠ []) :
    l.headD d ∈ l := by
  cases l with
  | nil => exact absurd rfl h
  | cons x rest => exact List.mem_cons_self _ _

/-- Witness for C4 at the concrete rows: the first inserted law. -/
theorem C4_backfill_witness :
    ∃ law ∈ (backfillLawsFromEvents (fun _ => none) "NOW" 0
        sampleBackfillRows).laws,
      List.countP (fun u => decide (u.law_id = law.id))
          (backfillLawsFromEvents (fun _ => none) "NOW" 0
            sampleBackfillRows).law_updates =
        List.countP (fun r => decide (lawKeyOf (lawInputOfRow r) =
          law.law_key)) sampleBackfillRows ∧
      (∃ r ∈ sampleBackfillRows, lawKeyOf (lawInputOfRow r) = law.law_key ∧
        law.aggregate_risk_max = r.chili_score) ∧
      (∀ r ∈ sampleBackfillRows, lawKeyOf (lawInputOfRow r) = law.law_key →
        r.chili_score ≤ law.aggregate_risk_max) ∧
      law.source_confidence =
        ((sampleBackfillRows.filter (fun r =>
          decide (lawKeyOf (lawInputOfRow r) = law.law_key))).map
            (fun r => r.source_reliability_tier)).sum /
          (List.countP (fun r => decide (lawKeyOf (lawInputOfRow r) =
            law.law_key)) sampleBackfillRows : ℚ) :=
  ⟨(backfillLawsFromEvents (fun _ => none) "NOW" 0
      sampleBackfillRows).laws.headD sampleLawFallback,
   headD_mem_of_ne sampleLawFallback (by decide),
   C4_backfill_lawgroups (fun _ => none) "NOW" 0 sampleBackfillRows
     ((backfillLawsFromEvents (fun _ => none) "NOW" 0
        sampleBackfillRows).laws.headD sampleLawFallback)
     (headD_mem_of_ne sampleLawFallback (by decide))⟩

/-! ## C8: the `/api/brief` endpoint (`src/app.ts`)

`createBriefSelect` reads `regulation_events` (joined with `sources`) and
orders by `chili_score`, the stage urgency CASE, `updated_at` and `id`.
The spec instead describes a law-first brief over the `laws` table; the
`specLawFirstBrief` definition below renders the spec's words for
comparison. -/

/-- The `stageUrgency` record / urgency CASE; the CASE has no ELSE, and a
SQLite NULL sorts below every integer, so `0` renders it (ranks are
1–9). -/
def stageUrgencyRank (stage : String) : Int :=
  if stage = "proposed" then 9
  else if stage = "introduced" then 8
  else if stage = "committee_review" then 7
  else if stage = "passed" then 6
  else if stage = "enacted" then 5
  else if stage = "effective" then 4
  else if stage = "amended" then 3
  else if stage = "withdrawn" then 2
  else if stage = "rejected" then 1
  else 0

/-- `parsePaging` over the already-parsed query integer (`none` models
`undefined` and `NaN`). -/
def parsePaging (value : Option Int) (defaultValue : Nat)
    (maxValue : Option Nat) : Nat :=
  match value with
  | none => defaultValue
  | some p =>
    if p ≤ 0 then defaultValue
    else match maxValue with
      | some m => min p.toNat m
      | none => p.toNat

/-- `defaultBriefLimit`. -/
def defaultBriefLimit : Nat := 5

/-- The brief's ORDER BY: `chili_score` DESC, urgency DESC, `updated_at`
DESC, `id` ASC. -/
def briefLe (a b : EventRow) : Bool :=
  decide (b.chili_score < a.chili_score) ||
  (decide (a.chili_score = b.chili_score) &&
    (decide (stageUrgencyRank b.stage < stageUrgencyRank a.stage) ||
     (decide (stageUrgencyRank a.stage = stageUrgencyRank b.stage) &&
      (decide (b.updated_at < a.updated_at) ||
       (decide (a.updated_at = b.updated_at) &&
        decide (a.id ≤ b.id))))))

/-- `createBriefSelect(limit)` as a query over the events table. -/
def createBriefSelect (sqlLimit : Nat) (events : List EventRow) :
    List EventRow :=
  (sortBy briefLe events).take sqlLimit

/-- The `/api/brief` response (`items` keeps the selected rows;
`mapEvent` only renames their fields, and the handler adds the
`urgencyScore` shown below). -/
structure BriefResponse where
  generatedAt : String
  lastCrawledAt : Option String
  items : List (EventRow × Int)
  total : Nat
  limit : Nat
deriving Repr, DecidableEq

/-- The `/api/brief` handler: select events, attach urgency scores,
report the latest completed crawl. -/
def apiBrief (nowIso : String) (events : List EventRow) (crawls : CrawlDb)
    (requestedLimit : Option Int) : BriefResponse :=
  let limit := parsePaging requestedLimit defaultBriefLimit (some 20)
  let rows := createBriefSelect limit events
  { generatedAt := nowIso
    lastCrawledAt :=
      match getLatestCrawlRun crawls with
      | some r => r.completed_at
      | none => none
    items := rows.map (fun row => (row, stageUrgencyRank row.stage))
    total := rows.length
    limit := limit }

/-- The brief of the SPEC (law-first): the top canonical laws by
`aggregate_risk_max` DESC, `aggregate_risk_recent_weighted` DESC,
`updated_at` DESC.  This definition follows the spec's words, not the
code, for the comparison below. -/
def specLawFirstBrief (laws : List LawRow) (limit : Nat) : List LawRow :=
  (sortBy (fun a b =>
    decide (b.aggregate_risk_max < a.aggregate_risk_max) ||
    (decide (a.aggregate_risk_max = b.aggregate_risk_max) &&
      (decide (b.aggregate_risk_recent_weighted <
        a.aggregate_risk_recent_weighted) ||
       (decide (a.aggregate_risk_recent_weighted =
         b.aggregate_risk_recent_weighted) &&
        decide (¬(a.updated_at < b.updated_at)))))) laws).take limit

/-- A concrete events table for the brief divergence: titles A, B, C with
chili scores 3, 9, 5. -/
def sampleBriefEvents : List EventRow :=
  [⟨"a1", "Event A", "US", none, "proposed", true, "under_13", 1, 1, 1, 3,
    none, none, none, none, none, none, none, none, none, 1, "t1", "t1"⟩,
   ⟨"b2", "Event B", "US", none, "enacted", true, "under_13", 1, 1, 1, 9,
    none, none, none, none, none, none, none, none, none, 1, "t2", "t2"⟩,
   ⟨"c3", "Event C", "US", none, "proposed", true, "under_13", 1, 1, 1, 5,
    none, none, none, none, none, none, none, none, none, 1, "t3", "t3"⟩]

/-- A concrete laws table: two canonical laws with aggregate risk 9
and 7. -/
def sampleBriefLaws : List LawRow :=
  [⟨1, "united-states:coppa", "COPPA", "United States", none, "act",
    "enacted", "enacted", "t1", "t2", none, 9, 9, 9, 2, "NOW", "NOW"⟩,
   ⟨2, "united-states:kosa", "KOSA", "United States", none, "act",
    "proposed", "proposed", "t1", "t2", none, 7, 7, 7, 1, "NOW", "NOW"⟩]

/-- C8: the shipped `/api/brief` is event-based, not law-first.  On a
store with three events and two canonical laws, the handler returns the
three event rows ordered by `chili_score` (B, C, A), while the brief the
spec describes returns the two laws by `aggregate_risk_max`; the item
lists differ in both length and content, and the handler never reads the
`laws` table at all. -/
theorem C8_brief_event_based_not_law_first :
    (apiBrief "NOW" sampleBriefEvents CrawlDb.empty (some 20)).items.map
        (fun p => p.1.title) = ["Event B", "Event C", "Event A"] ∧
    (apiBrief "NOW" sampleBriefEvents CrawlDb.empty (some 20)).total = 3 ∧
    (specLawFirstBrief sampleBriefLaws 20).map (fun l => l.law_name) =
      ["COPPA", "KOSA"] ∧
    (specLawFirstBrief sampleBriefLaws 20).length = 2 ∧
    (apiBrief "NOW" sampleBriefEvents CrawlDb.empty (some 20)).items.length ≠
      (specLawFirstBrief sampleBriefLaws 20).length := by
  refine ⟨by decide, by decide, by decide, by decide, by decide⟩

end RegDashboard
